import Mathlib

/-!
# nearmiss: suffix-array search core (`tree.c`)

A shallow embedding of the search code of `tree.c` and the properties
established about it.

## Memory model

* A byte is a natural number; the zero byte terminates a C string.
* A buffer is a `List Nat` holding every allocated byte, the terminator
  included.  A pointer into a buffer is the buffer with the bytes before the
  pointer dropped.  Reading at the empty list is a read outside the buffer and
  makes the operation return `none`.
* `int` variables are `Int`.  The loop variables stay within `[-1, length]`,
  so the 32-bit width of the C type plays no role as long as the text length
  fits in an `int`.  The arithmetic of `find_mismatches` on its arguments
  (`maxDistance + 1`, `-downstreamStart`, `downstreamEnd - downstreamStart`
  and the `long` sum `anchorStart + downstreamStart`) is reduced to the width
  of its C type.
* The Python list a function appends to is the list of the appended values, in
  the order of the appends.
-/

namespace Nearmiss

/-! ## C library -/

/-- The C function `strlen`: the number of bytes before the first zero byte.
Running off the buffer before a zero byte is found is a fault. -/
def strlen : List Nat → Option Nat
  | [] => none
  | c :: cs => if c = 0 then some 0 else (strlen cs).map (· + 1)

/-- The C function `strncmp`: compares at most `n` bytes, stops after a zero
byte, and returns the difference of the first two bytes that differ. -/
def strncmp : List Nat → List Nat → Nat → Option Int
  | _, _, 0 => some 0
  | [], _, _ + 1 => none
  | _ :: _, [], _ + 1 => none
  | a :: as, b :: bs, n + 1 =>
    if a ≠ b then some ((a : Int) - (b : Int))
    else if a = 0 then some 0
    else strncmp as bs n

/-- The C function `strndup`: a fresh buffer holding the first `n` bytes of the
string (fewer when the string ends before), followed by a terminator. -/
def strndup : List Nat → Nat → Option (List Nat)
  | _, 0 => some [0]
  | [], _ + 1 => none
  | c :: cs, n + 1 => if c = 0 then some [0] else (strndup cs n).map (c :: ·)

/-- Read of `xs[i]` for an `int` index; outside the array it is a fault. -/
def readAt {α : Type} (xs : List α) (i : Int) : Option α :=
  if i < 0 then none else xs[i.toNat]?

/-! ## Data model -/

/-- The struct `SuffixArray` of `tree.c`: the text buffer (terminator
included), the suffix array and the text length. -/
structure SuffixArray where
  _text : List Nat
  _suffixArray : List Nat
  _length : Int

/-- The index built for the text `T` (without its terminator) when the
suffix-array builder returns `sa`: `_length = strlen(text)`, `_text =
strdup(text)`. -/
def mkTree (T : List Nat) (sa : List Nat) : SuffixArray :=
  { _text := T ++ [0], _suffixArray := sa, _length := (T.length : Int) }

/-! ## `find` -/

/-- The left expansion of `find` (line 70): `while (left >= 0 && strncmp(..) ==
0) { append; left--; }`.  The argument is `left + 1`, so that `left >= 0` is the
successor case. -/
def findLeft (tree : SuffixArray) (query : List Nat) (queryLength : Nat) :
    Nat → List Nat → Option (List Nat)
  | 0, list => some list
  | left + 1, list =>
    match readAt tree._suffixArray (left : Int) with
    | none => none
    | some off =>
      match strncmp query (tree._text.drop off) queryLength with
      | none => none
      | some c =>
        if c = 0 then findLeft tree query queryLength left (list ++ [off])
        else some list

/-- The right expansion of `find` (line 76): `while (right < _length - 1 &&
strncmp(..) == 0) { append; right++; }`.  The first argument bounds the number
of iterations. -/
def findRight (tree : SuffixArray) (query : List Nat) (queryLength : Nat) :
    Nat → Int → List Nat → Option (List Nat)
  | 0, right, list => if right < tree._length - 1 then none else some list
  | fuel + 1, right, list =>
    if right < tree._length - 1 then
      match readAt tree._suffixArray right with
      | none => none
      | some off =>
        match strncmp query (tree._text.drop off) queryLength with
        | none => none
        | some c =>
          if c = 0 then findRight tree query queryLength fuel (right + 1) (list ++ [off])
          else some list
    else some list

/-- The binary-search loop of `find` (lines 61-85).  The first argument bounds
the number of iterations. -/
def findLoop (tree : SuffixArray) (query : List Nat) (queryLength : Nat) :
    Nat → Int → Int → List Nat → Option (List Nat)
  | 0, left, right, list => if left ≤ right then none else some list
  | fuel + 1, left, right, list =>
    if left ≤ right then
      let center := left + Int.tdiv (right - left) 2
      match readAt tree._suffixArray center with
      | none => none
      | some off =>
        match strncmp query (tree._text.drop off) queryLength with
        | none => none
        | some comparison =>
          if comparison < 0 then
            findLoop tree query queryLength fuel left (center - 1) list
          else if comparison = 0 then
            let list1 := list ++ [off]
            match findLeft tree query queryLength (center - 1 + 1).toNat list1 with
            | none => none
            | some list2 =>
              findRight tree query queryLength tree._length.toNat (center + 1) list2
          else
            findLoop tree query queryLength fuel (center + 1) right list
    else some list

/-- The function `find`: the offsets appended to `list`, which the caller
passes empty. -/
def find (tree : SuffixArray) (query : List Nat) (queryLength : Nat) :
    Option (List Nat) :=
  findLoop tree query queryLength (tree._length.toNat + 1) 0 (tree._length - 1) []

/-- The method `find_anchors` after argument parsing: `list = PyList_New(0);
if (query[0]) find(&data, query, strlen(query), list); return list;`. -/
def Tree_find_anchors (tree : SuffixArray) (query : List Nat) : Option (List Nat) :=
  match query[0]? with
  | none => none
  | some c =>
    if c ≠ 0 then
      match strlen query with
      | none => none
      | some n => find tree query n
    else some []

/-! ## `count` -/

/-- The test `strncmp(anchor, window - downstreamStart, anchorLength) == 0` of
`count`, where `window = TREE_SHIFT(tree, i) = _text + off` for `off =
_suffixArray[i]`. -/
def anchorMatches (tree : SuffixArray) (anchor : List Nat) (anchorLength : Nat)
    (downstreamStart : Int) (off : Nat) : Option Bool :=
  if (off : Int) - downstreamStart < 0 then none
  else
    (strncmp anchor (tree._text.drop ((off : Int) - downstreamStart).toNat) anchorLength).map
      (fun c => decide (c = 0))

/-- The left expansion of `count` (line 138): `for (left = center - 1; left >=
0 && strncmp(..) == 0; left--) { if (anchor matches) count += 1; }`.  The
argument is `left + 1`. -/
def countLeft (tree : SuffixArray) (query : List Nat) (queryLength : Nat)
    (anchor : List Nat) (anchorLength : Nat) (downstreamStart : Int) :
    Nat → Nat → Option Nat
  | 0, count => some count
  | left + 1, count =>
    match readAt tree._suffixArray (left : Int) with
    | none => none
    | some off =>
      match strncmp query (tree._text.drop off) queryLength with
      | none => none
      | some c =>
        if c = 0 then
          match anchorMatches tree anchor anchorLength downstreamStart off with
          | none => none
          | some b =>
            countLeft tree query queryLength anchor anchorLength downstreamStart left
              (if b then count + 1 else count)
        else some count

/-- The right expansion of `count` (line 145): `for (right = center + 1; right
< _length && strncmp(..) == 0; right++) { if (anchor matches) count += 1; }`.
The first argument bounds the number of iterations. -/
def countRight (tree : SuffixArray) (query : List Nat) (queryLength : Nat)
    (anchor : List Nat) (anchorLength : Nat) (downstreamStart : Int) :
    Nat → Int → Nat → Option Nat
  | 0, right, count => if right < tree._length then none else some count
  | fuel + 1, right, count =>
    if right < tree._length then
      match readAt tree._suffixArray right with
      | none => none
      | some off =>
        match strncmp query (tree._text.drop off) queryLength with
        | none => none
        | some c =>
          if c = 0 then
            match anchorMatches tree anchor anchorLength downstreamStart off with
            | none => none
            | some b =>
              countRight tree query queryLength anchor anchorLength downstreamStart fuel
                (right + 1) (if b then count + 1 else count)
          else some count
    else some count

/-- The binary-search loop of `count` (lines 125-154).  The first argument
bounds the number of iterations. -/
def countLoop (tree : SuffixArray) (query : List Nat) (queryLength : Nat)
    (anchor : List Nat) (anchorLength : Nat) (downstreamStart : Int) :
    Nat → Int → Int → Nat → Option Nat
  | 0, left, right, count => if left ≤ right then none else some count
  | fuel + 1, left, right, count =>
    if left ≤ right then
      let center := left + Int.tdiv (right - left) 2
      match readAt tree._suffixArray center with
      | none => none
      | some off =>
        match strncmp query (tree._text.drop off) queryLength with
        | none => none
        | some comparison =>
          if comparison < 0 then
            countLoop tree query queryLength anchor anchorLength downstreamStart fuel
              left (center - 1) count
          else if comparison > 0 then
            countLoop tree query queryLength anchor anchorLength downstreamStart fuel
              (center + 1) right count
          else
            match anchorMatches tree anchor anchorLength downstreamStart off with
            | none => none
            | some b =>
              match countLeft tree query queryLength anchor anchorLength downstreamStart
                  (center - 1 + 1).toNat (if b then count + 1 else count) with
              | none => none
              | some count2 =>
                countRight tree query queryLength anchor anchorLength downstreamStart
                  tree._length.toNat (center + 1) count2
    else some count

/-- The function `count`. -/
def count (tree : SuffixArray) (query : List Nat) (anchor : List Nat)
    (downstreamStart : Int) : Option Nat :=
  match strlen query with
  | none => none
  | some queryLength =>
    match strlen anchor with
    | none => none
    | some anchorLength =>
      countLoop tree query queryLength anchor anchorLength downstreamStart
        (tree._length.toNat + 1) 0 (tree._length - (queryLength : Int)) 0

/-! ## `find_inexact` -/

/-- The string `options = "ACGT"` of `find_inexact`. -/
def options : List Nat := [65, 67, 71, 84]

/-- Write `buf[i] = c`; outside the buffer it is a fault. -/
def writeAt (buf : List Nat) (i : Nat) (c : Nat) : Option (List Nat) :=
  if i < buf.length then some (buf.set i c) else none

/-- The inner loop of `find_inexact` (lines 176-182) over the options that
remain: an option equal to `original` is skipped, every other one is written to
`query[i]` and followed by the recursive call `recurse s query (i + 1)`.  The
state is the pair of what the calls accumulate and the `query` buffer. -/
def optionLoop {σ : Type} (recurse : σ → List Nat → Nat → Option (σ × List Nat))
    (i : Nat) (original : Nat) :
    List Nat → σ × List Nat → Option (σ × List Nat)
  | [], st => some st
  | option :: rest, st =>
    if option = original then optionLoop recurse i original rest st
    else
      match writeAt st.2 i option with
      | none => none
      | some query1 =>
        match recurse st.1 query1 (i + 1) with
        | none => none
        | some st1 => optionLoop recurse i original rest st1

/-- The outer loop of `find_inexact` (lines 173-184): `for (i = changeStart;
position < downstreamEnd; position++, i++)` with `position = downstreamStart +
i` throughout.  The first argument bounds the number of iterations. -/
def positionLoop {σ : Type} (recurse : σ → List Nat → Nat → Option (σ × List Nat))
    (downstreamStart downstreamEnd : Int) :
    Nat → Nat → σ × List Nat → Option (σ × List Nat)
  | 0, i, st => if downstreamStart + (i : Int) < downstreamEnd then none else some st
  | fuel + 1, i, st =>
    if downstreamStart + (i : Int) < downstreamEnd then
      match st.2[i]? with
      | none => none
      | some original =>
        match optionLoop recurse i original options st with
        | none => none
        | some st1 =>
          match writeAt st1.2 i original with
          | none => none
          | some query2 =>
            positionLoop recurse downstreamStart downstreamEnd fuel (i + 1) (st1.1, query2)
    else some st

/-- The control flow of `find_inexact` around its first two statements:
`visit depth query s` stands for lines 166-167, the rest is lines 169-184.  The
first argument bounds the recursion depth. -/
def enumerate {σ : Type} (visit : Nat → List Nat → σ → Option σ)
    (downstreamStart downstreamEnd : Int) (maxNumChanges : Int) :
    Nat → Nat → σ → List Nat → Nat → Option (σ × List Nat)
  | 0, _, _, _, _ => none
  | fuel + 1, depth, s, query, changeStart =>
    match visit depth query s with
    | none => none
    | some s1 =>
      if (depth : Int) = maxNumChanges then some (s1, query)
      else
        positionLoop
          (fun s2 q cs =>
            enumerate visit downstreamStart downstreamEnd maxNumChanges fuel (depth + 1) s2 q cs)
          downstreamStart downstreamEnd (downstreamEnd - downstreamStart).toNat
          changeStart (s1, query)

/-- Lines 166-167 of `find_inexact`: `hits = count(tree, query, anchor,
downstreamStart); counts[depth] += hits;`. -/
def tally (tree : SuffixArray) (anchor : List Nat) (downstreamStart : Int)
    (depth : Nat) (query : List Nat) (counts : List Nat) : Option (List Nat) :=
  match count tree query anchor downstreamStart with
  | none => none
  | some hits =>
    match counts[depth]? with
    | none => none
    | some old => some (counts.set depth (old + hits))

/-- The function `find_inexact`, returning the final contents of `counts` and
`query`.  The parameter `anchorStart`, which the C function does not use, is
left out. -/
def find_inexact (tree : SuffixArray) (downstreamStart downstreamEnd : Int)
    (maxNumChanges : Int) (depth : Nat) (counts : List Nat) (query : List Nat)
    (changeStart : Nat) (anchor : List Nat) : Option (List Nat × List Nat) :=
  enumerate (tally tree anchor downstreamStart) downstreamStart downstreamEnd maxNumChanges
    ((downstreamEnd - downstreamStart).toNat + 1) depth counts query changeStart

/-- The calls of `count` made by `find_inexact`, in order: the recursion depth
and the contents of `query` at each call.  It is `find_inexact` with lines
166-167 replaced by the recording of the call. -/
def find_inexact_calls (downstreamStart downstreamEnd : Int) (maxNumChanges : Int)
    (depth : Nat) (query : List Nat) (changeStart : Nat) :
    Option (List (Nat × List Nat) × List Nat) :=
  enumerate (fun d q (calls : List (Nat × List Nat)) => some (calls ++ [(d, q)]))
    downstreamStart downstreamEnd maxNumChanges
    ((downstreamEnd - downstreamStart).toNat + 1) depth [] query changeStart

/-! ## `find_mismatches` and `find_repeat_counts` -/

/-- Conversion of an `int` to `size_t` (64 bits). -/
def size_t (x : Int) : Nat := (x % 2 ^ 64).toNat

/-- The value of type `int` left by an `int` operation whose mathematical
result is `x`: the result reduced to 32 bits in two's complement.  It is `x`
itself unless the operation overflows. -/
def wrapInt (x : Int) : Int := (x + 2 ^ 31) % 2 ^ 32 - 2 ^ 31

/-- The value of type `long` left by a `long` operation whose mathematical
result is `x`: the result reduced to 64 bits in two's complement. -/
def wrapLong (x : Int) : Int := (x + 2 ^ 63) % 2 ^ 64 - 2 ^ 63

/-- The values of type `int`. -/
def IsInt (x : Int) : Prop := -(2 ^ 31) ≤ x ∧ x < 2 ^ 31

/-- The values of type `long`. -/
def IsLong (x : Int) : Prop := -(2 ^ 63) ≤ x ∧ x < 2 ^ 63

/-- The pointer `buf + i` for a `long` offset `i`: the bytes that can be read
through it.  Before the start of the buffer (`i < 0`) and past its end there
are none, so that the first read through the pointer is a fault. -/
def ptrAdd (buf : List Nat) (i : Int) : List Nat :=
  if i < 0 then [] else buf.drop i.toNat

/-- The buffer `counts = malloc(size); memset(counts, 0, size)` with `size =
sizeof(int) * (maxDistance + 1)` (line 195).  The sum is formed in `int`: it is
negative for `maxDistance < -1` and, by overflow, for `maxDistance = INT_MAX`.
A negative `int` converted to `size_t` gives a size of at least `2^64 - 2^33`
bytes: the allocation fails and `memset` writes through a null pointer.
Otherwise the buffer holds that many zeroed `int` entries. -/
def allocCounts (maxDistance : Int) : Option (List Nat) :=
  if wrapInt (maxDistance + 1) < 0 then none
  else some (List.replicate (wrapInt (maxDistance + 1)).toNat 0)

/-- The body of the loop of `find_mismatches` for one anchor (lines 205-235):
`none` is a fault, `some none` the `continue` of the skip, `some (some p)` the
pair appended to the result.  `anchorStart` is a `long`.  The skip test of line
211 compares it with the `int` negation `-downstreamStart`, which overflows for
`downstreamStart = INT_MIN`; the pointer handed to `strndup` is the text plus
the `long` sum `anchorStart + downstreamStart`; the length handed to `strndup`
is the `int` difference `downstreamEnd - downstreamStart` converted to
`size_t`.  The loop of lines 225-227 copies the `maxDistance + 1` entries of
`counts`, which are all its entries. -/
def anchorTask (tree : SuffixArray) (anchorText : List Nat) (maxDistance : Int)
    (downstreamStart downstreamEnd : Int) (other : SuffixArray) (anchorStart : Int) :
    Option (Option (Int × List Nat)) :=
  if anchorStart < wrapInt (-downstreamStart) then some none
  else
    match allocCounts maxDistance with
    | none => none
    | some counts =>
      match strndup (ptrAdd tree._text (wrapLong (anchorStart + downstreamStart)))
          (size_t (wrapInt (downstreamEnd - downstreamStart))) with
      | none => none
      | some query =>
        match find_inexact other downstreamStart downstreamEnd maxDistance 0 counts query 0
            anchorText with
        | none => none
        | some st => some (some (anchorStart, st.1))

/-- The function `find_mismatches`, with the anchors processed in list order
(the C loop is an OpenMP parallel loop, so the order of the pairs in its result
is not determined; the pairs themselves are).  The parameter `threads` is left
out. -/
def find_mismatches (tree : SuffixArray) (anchorText : List Nat) (maxDistance : Int)
    (downstreamStart downstreamEnd : Int) (other : SuffixArray) :
    List Int → Option (List (Int × List Nat))
  | [] => some []
  | anchorStart :: anchors =>
    match anchorTask tree anchorText maxDistance downstreamStart downstreamEnd other
        anchorStart with
    | none => none
    | some r =>
      match find_mismatches tree anchorText maxDistance downstreamStart downstreamEnd other
          anchors with
      | none => none
      | some list =>
        match r with
        | none => some list
        | some p => some (p :: list)

/-- Python exceptions raised by the methods. -/
inductive PyExc where
  | TypeError
  | ValueError
deriving DecidableEq, Repr

/-- The method `find_repeat_counts` after argument parsing (lines 264-280).
The suffix-array builder `sais` of `sais.h` is a parameter: `sais text n` is
the content it leaves in the array of `n` entries.  The result is
`Except.error` for a raised exception, `Except.ok none` for a fault during the
search and `Except.ok (some list)` for the returned list. -/
def Tree_find_repeat_counts (sais : List Nat → Nat → List Nat) (tree : SuffixArray)
    (anchors : List Int) (anchorText : List Nat) (maxNumChanges : Int)
    (downstreamStart downstreamEnd : Int) (text : List Nat) :
    Except PyExc (Option (List (Int × List Nat))) :=
  if downstreamStart ≥ downstreamEnd then Except.error PyExc.ValueError
  else if downstreamStart ≥ 0 ∨ downstreamEnd > 0 then Except.error PyExc.ValueError
  else
    match strlen text with
    | none => Except.ok none
    | some n =>
      let other : SuffixArray :=
        { _text := text, _suffixArray := sais text n, _length := (n : Int) }
      Except.ok (find_mismatches tree anchorText maxNumChanges downstreamStart
        downstreamEnd other anchors)

/-- Byte values of a string literal. -/
def bytes (s : String) : List Nat := s.toList.map Char.toNat

/-- The zero-terminated buffer of a string literal. -/
def cstr (s : String) : List Nat := bytes s ++ [0]

/-! ## Specification-side notions -/

/-- The string holds no zero byte. -/
def ZeroFree (l : List Nat) : Prop := ∀ x ∈ l, x ≠ 0

instance (l : List Nat) : Decidable (ZeroFree l) := by
  unfold ZeroFree; infer_instance

/-- The pattern `P` occurs in `T` at offset `o`: `T[o..o+|P|] = P`. -/
def occursAt (T P : List Nat) (o : Nat) : Prop := (T.drop o).take P.length = P

instance (T P : List Nat) (o : Nat) : Decidable (occursAt T P o) := by
  unfold occursAt; infer_instance

/-- The offsets at which `P` occurs in `T`, found by a linear scan. -/
def occurrences (T P : List Nat) : List Nat :=
  (List.range T.length).filter (fun o => decide (occursAt T P o))

/-- Lexicographic order on byte strings, a proper prefix sorting first. -/
def lexLt : List Nat → List Nat → Bool
  | _, [] => false
  | [], _ :: _ => true
  | a :: as, b :: bs => decide (a < b) || (decide (a = b) && lexLt as bs)

/-- The array `sa` is the sorted suffix array of `T`: a permutation of the
offsets `[0, |T|)` with each suffix strictly below the next one. -/
def IsSuffixArray (T : List Nat) (sa : List Nat) : Prop :=
  sa.Perm (List.range T.length) ∧
    ∀ i, i < sa.length - 1 →
      lexLt (T.drop (sa.getD i 0)) (T.drop (sa.getD (i + 1) 0)) = true

/-- The value the specification gives to `count_with_prefix(P, Q, offset)`: the
number of offsets `o` with `T[o..o+|P|] = P`, `o ≥ offset` and
`T[o-offset..o-offset+|Q|] = Q`. -/
def countWithPrefixSpec (T P Q : List Nat) (offset : Nat) : Nat :=
  ((List.range T.length).filter (fun o =>
    decide (occursAt T P o ∧ offset ≤ o ∧ occursAt T Q (o - offset)))).length

/-- The number of offsets `o` with `T[o..o+|P|] = P` and
`T[o+offset..o+offset+|Q|] = Q`: the anchor text is looked for `offset` bytes
after the start of the match. -/
def countWithAnchorAfter (T P Q : List Nat) (offset : Nat) : Nat :=
  ((List.range T.length).filter (fun o =>
    decide (occursAt T P o ∧ occursAt T Q (o + offset)))).length

/-- Hamming distance of two strings of the same length. -/
def hamming : List Nat → List Nat → Nat
  | a :: as, b :: bs => (if a = b then 0 else 1) + hamming as bs
  | _, _ => 0

/-- Brute-force enumeration of the variants of the window `w` at distance `d`:
every string that keeps or replaces each letter by a different letter of
`ACGT`, filtered by the number of replaced positions. -/
def bruteVariants (w : List Nat) (d : Nat) : List (List Nat) :=
  (List.sections (w.map (fun c => c :: options.filter (fun x => decide (x ≠ c))))).filter
    (fun v => decide (hamming w v = d))

/-- The brute-force oracle for `counts[d]`: the number of pairs `(v, o)` of a
variant `v` at distance `d` and an offset `o` of the target text where `v`
occurs and `accept o` holds, by linear scan. -/
def oracle (T' : List Nat) (accept : Nat → Bool) (w : List Nat) (d : Nat) : Nat :=
  ((bruteVariants w d).map (fun v => ((occurrences T' v).filter accept).length)).sum

/-! ## Notions used in the proofs -/

/-- Every listed offset is an occurrence that fits into the text. -/
def SoundList (T P : List Nat) (l : List Nat) : Prop :=
  ∀ o ∈ l, o + P.length ≤ T.length ∧ occursAt T P o

/-- The array `sa` has one entry per offset of `T`, each a valid offset. -/
def ValidEntries (T sa : List Nat) : Prop :=
  sa.length = T.length ∧ ∀ x ∈ sa, x < T.length

/-- The query `P` occurs at the suffix of rank `i`. -/
def matchAt (T sa P : List Nat) (i : Nat) : Bool := decide (occursAt T P (sa.getD i 0))

/-- The anchor text `A` occurs `off` bytes after the start of the suffix of
rank `i`. -/
def anchorAt (T sa A : List Nat) (off : Nat) (i : Nat) : Bool :=
  decide (occursAt T A (sa.getD i 0 + off))

/-- Number of ranks counted by the left expansion started below rank `k`: the
ranks of the unbroken run of matches that ends at `k - 1`, the anchor test
applied to each. -/
def leftRun (m a : Nat → Bool) : Nat → Nat
  | 0 => 0
  | k + 1 => if m k then (if a k then 1 else 0) + leftRun m a k else 0

/-- Number of ranks counted by the right expansion started at rank `r` and
bounded by `N`. -/
def rightRun (m a : Nat → Bool) (N : Nat) : Nat → Nat → Nat
  | 0, _ => 0
  | fuel + 1, r =>
    if r < N then
      if m r then (if a r then 1 else 0) + rightRun m a N fuel (r + 1) else 0
    else 0

/-- Consequences of the order of the suffixes used by the binary search: a
comparison of positive sign excludes a match at every lower rank, one of
negative sign at every higher rank. -/
def Monotone3 (T sa P : List Nat) : Prop :=
  ∀ (c i : Nat) (cmp : Int), c < T.length → i < T.length →
    strncmp (P ++ [0]) ((T ++ [0]).drop (sa.getD c 0)) P.length = some cmp →
    ((0 < cmp → i ≤ c → matchAt T sa P i = false) ∧
     (cmp < 0 → c ≤ i → matchAt T sa P i = false))

/-- The calls made by the enumerator started with `rem` substitutions left, at
recursion depth `depth`, on the buffer `q`, from position `cs`, for a window of
`L` bytes: the call on `q` itself, then for every position `i` from `cs` and
every option different from `q[i]` the calls made on `q` with that option at
`i`, from position `i + 1`. -/
def callsFrom (L : Nat) : Nat → Nat → List Nat → Nat → List (Nat × List Nat)
  | 0, depth, q, _ => [(depth, q)]
  | rem + 1, depth, q, cs =>
    (depth, q) :: (List.range' cs (L - cs)).flatMap (fun i =>
      (options.filter (fun x => decide (x ≠ q.getD i 0))).flatMap (fun x =>
        callsFrom L rem (depth + 1) (q.set i x) (i + 1)))

/-- The effect of a list of calls on the accumulated state. -/
def runCalls {σ : Type} (visit : Nat → List Nat → σ → Option σ) (s : σ)
    (calls : List (Nat × List Nat)) : Option σ :=
  calls.foldlM (fun s c => visit c.1 c.2 s) s

/-- The strings obtained from `w` by replacing exactly `d` letters, each by an
option different from it. -/
def variantsAt : Nat → List Nat → List (List Nat)
  | 0, [] => [[]]
  | _ + 1, [] => []
  | 0, c :: w => (variantsAt 0 w).map (fun v => c :: v)
  | d + 1, c :: w =>
    (variantsAt (d + 1) w).map (fun v => c :: v) ++
      (options.filter (fun x => decide (x ≠ c))).flatMap (fun x =>
        (variantsAt d w).map (fun v => x :: v))

/-- The query strings of the calls made at recursion depth `d`. -/
def callsAt (d : Nat) (calls : List (Nat × List Nat)) : List (List Nat) :=
  (calls.filter (fun c => decide (c.1 = d))).map Prod.snd

/-- The buffer `q` with the positions of `S` replaced by the letters of `f`,
position by position. -/
def subst (q : List Nat) : List Nat → List Nat → List Nat
  | p :: S, x :: f => subst (q.set p x) S f
  | _, _ => q

/-- For each position of `S`, the options different from the letter of `q` at
that position. -/
def choices (q S : List Nat) : List (List Nat) :=
  S.map (fun p => options.filter (fun x => decide (x ≠ q.getD p 0)))

/-- The strings obtained from `w` by choosing a `d`-element subset `S` of the
positions `[0, |w|)` (an increasing list of positions) and an assignment `f`
of a letter of `ACGT` different from the original letter to each position of
`S`, one string per pair `(S, f)`. -/
def substitutions (w : List Nat) (d : Nat) : List (List Nat) :=
  (List.sublistsLen d (List.range w.length)).flatMap (fun S =>
    (List.sections (choices w S)).map (fun f => subst w S f))

/-! ## The index constructor and the traversal log -/

/-- Insertion of the offset `x` into a list of offsets sorted by their suffixes
in the first `n` bytes of `text`. -/
def insertSuffix (text : List Nat) (n : Nat) (x : Nat) : List Nat → List Nat
  | [] => [x]
  | y :: ys =>
    if lexLt ((text.take n).drop y) ((text.take n).drop x) then
      y :: insertSuffix text n x ys
    else x :: y :: ys

/-- Insertion sort of a list of offsets by their suffixes. -/
def sortSuffixes (text : List Nat) (n : Nat) : List Nat → List Nat
  | [] => []
  | x :: xs => insertSuffix text n x (sortSuffixes text n xs)

/-- Modelled from the spec: the suffix-array builder `sais` of `sais.h`, of
which `tree.c` only includes the header.  The model is the contract of the
builder (section 4.1): for the `n` bytes of `text` it returns
the offsets `[0, n)` ordered by their suffixes under unsigned byte comparison,
a suffix that is a proper prefix of another one sorting first; it returns the
empty array for `n = 0`.  The induced-sorting steps by which the builder
reaches this result are not modelled. -/
def sais (text : List Nat) (n : Nat) : List Nat :=
  sortSuffixes text n (List.range n)

/-- The control flow of `find_inexact` as in `enumerate`, with `changeStart`
handed to `visit` next to the recursion depth and the buffer. -/
def enumerateCS {σ : Type} (visit : Nat → Nat → List Nat → σ → Option σ)
    (downstreamStart downstreamEnd : Int) (maxNumChanges : Int) :
    Nat → Nat → σ → List Nat → Nat → Option (σ × List Nat)
  | 0, _, _, _, _ => none
  | fuel + 1, depth, s, query, changeStart =>
    match visit depth changeStart query s with
    | none => none
    | some s1 =>
      if (depth : Int) = maxNumChanges then some (s1, query)
      else
        positionLoop
          (fun s2 q cs =>
            enumerateCS visit downstreamStart downstreamEnd maxNumChanges fuel (depth + 1) s2 q cs)
          downstreamStart downstreamEnd (downstreamEnd - downstreamStart).toNat
          changeStart (s1, query)

/-- The calls of `find_inexact` in order, each with its recursion depth and its
`changeStart`: the traversal of `find_inexact` with lines 166-167 replaced by
the recording of the two parameters. -/
def find_inexact_log (downstreamStart downstreamEnd : Int) (maxNumChanges : Int)
    (depth : Nat) (query : List Nat) (changeStart : Nat) :
    Option (List (Nat × Nat) × List Nat) :=
  enumerateCS (fun d cs _ (log : List (Nat × Nat)) => some (log ++ [(d, cs)]))
    downstreamStart downstreamEnd maxNumChanges
    ((downstreamEnd - downstreamStart).toNat + 1) depth [] query changeStart

/-- A call of `find_mismatches` on well-formed arguments: a validated window
with `INT_MIN < dstart`, `0 ≤ K < INT_MAX`, an indexed text `Ta` whose length
fits in an `int`, texts without zero bytes, a target index with valid entries,
the window of every anchor inside `Ta`, and an anchor string `A` that is empty
unless `dend = 0`. -/
def WellFormedSearch (tree other : SuffixArray) (anchorText : List Nat)
    (K dstart dend : Int) (anchors : List Int) : Prop :=
  ∃ Ta saA T sa A, tree = mkTree Ta saA ∧ other = mkTree T sa ∧ anchorText = A ++ [0] ∧
    0 ≤ K ∧ K < 2 ^ 31 - 1 ∧ dstart < dend ∧ dend ≤ 0 ∧ -(2 ^ 31) < dstart ∧
    (Ta.length : Int) < 2 ^ 31 ∧ ZeroFree Ta ∧ ZeroFree T ∧
    ValidEntries T sa ∧ ZeroFree A ∧ (A = [] ∨ 0 ≤ dend) ∧
    ∀ a ∈ anchors, a + dend ≤ (Ta.length : Int)

/-- The ranks appended by the left expansion of `find` started below rank `k`,
in the order of the appends: the unbroken run of matches that ends at
`k - 1`. -/
def leftRanks (m : Nat → Bool) : Nat → List Nat
  | 0 => []
  | k + 1 => if m k then k :: leftRanks m k else []

/-- The ranks appended by the right expansion of `find` started at rank `r`,
which stops below `bound`. -/
def rightRanks (m : Nat → Bool) (bound : Nat) : Nat → Nat → List Nat
  | 0, _ => []
  | fuel + 1, r =>
    if r < bound then
      if m r then r :: rightRanks m bound fuel (r + 1) else []
    else []

/-! ## Strings and pointers -/

theorem ZeroFree.tail {a : Nat} {l : List Nat} (h : ZeroFree (a :: l)) : ZeroFree l :=
  fun x hx => h x (List.mem_cons_of_mem _ hx)

theorem ZeroFree.head {a : Nat} {l : List Nat} (h : ZeroFree (a :: l)) : a ≠ 0 :=
  h a (List.mem_cons_self _ _)

theorem ZeroFree.drop {l : List Nat} (h : ZeroFree l) (n : Nat) : ZeroFree (l.drop n) :=
  fun x hx => h x (List.mem_of_mem_drop hx)

theorem strlen_terminated (q r : List Nat) (hq : ZeroFree q) :
    strlen (q ++ 0 :: r) = some q.length := by
  induction q with
  | nil => simp [strlen]
  | cons a q ih =>
    have ha : a ≠ 0 := hq.head
    simp [strlen, ha, ih hq.tail]

theorem readAt_natCast {α : Type} (xs : List α) (k : Nat) : readAt xs (k : Int) = xs[k]? := by
  unfold readAt
  have h : ¬ ((k : Int) < 0) := by omega
  simp [h]

theorem readAt_of_nonneg {α : Type} (xs : List α) (i : Int) (h : 0 ≤ i) :
    readAt xs i = xs[i.toNat]? := by
  unfold readAt
  have h' : ¬ (i < 0) := by omega
  simp [h']

/-- On zero-terminated strings `strncmp` returns, and it returns zero exactly
when the first `n` bytes agree. -/
theorem strncmp_terminated (n : Nat) : ∀ (q s r1 r2 : List Nat), ZeroFree q → ZeroFree s →
    ∃ c, strncmp (q ++ 0 :: r1) (s ++ 0 :: r2) n = some c ∧ (c = 0 ↔ q.take n = s.take n) := by
  induction n with
  | zero => intro q s r1 r2 _ _; exact ⟨0, by simp [strncmp], by simp⟩
  | succ n ih =>
    intro q s r1 r2 hq hs
    cases q with
    | nil =>
      cases s with
      | nil => exact ⟨0, by simp [strncmp], by simp⟩
      | cons b s =>
        have hb : b ≠ 0 := hs.head
        refine ⟨(0 : Int) - (b : Int), ?_, ?_⟩
        · have : ¬ (0 = b) := fun h => hb h.symm
          simp [strncmp, this]
        · constructor
          · intro h; exfalso; omega
          · intro h; simp at h
    | cons a q =>
      have ha : a ≠ 0 := hq.head
      cases s with
      | nil =>
        refine ⟨(a : Int) - (0 : Nat), ?_, ?_⟩
        · simp [strncmp, ha]
        · constructor
          · intro h; exfalso; simp at h; omega
          · intro h; simp at h
      | cons b s =>
        by_cases hab : a = b
        · subst hab
          obtain ⟨c, hc, hiff⟩ := ih q s r1 r2 hq.tail hs.tail
          refine ⟨c, ?_, ?_⟩
          · simp [strncmp, ha, hc]
          · simp [hiff]
        · refine ⟨(a : Int) - (b : Int), ?_, ?_⟩
          · simp [strncmp, hab]
          · constructor
            · intro h; exfalso; omega
            · intro h; simp at h; exact absurd h.1 hab

theorem mkTree_text (T sa : List Nat) : (mkTree T sa)._text = T ++ [0] := rfl

theorem mkTree_suffixArray (T sa : List Nat) : (mkTree T sa)._suffixArray = sa := rfl

theorem mkTree_length (T sa : List Nat) : (mkTree T sa)._length = (T.length : Int) := rfl

theorem text_drop (T : List Nat) (off : Nat) (h : off ≤ T.length) :
    (T ++ [0]).drop off = T.drop off ++ [0] :=
  List.drop_append_of_le_length h

/-- The comparison of a query with the suffix at a valid offset returns, and it
returns zero exactly at the occurrences of the query. -/
theorem strncmp_at (T P : List Nat) (off : Nat) (hT : ZeroFree T) (hP : ZeroFree P)
    (h : off ≤ T.length) :
    ∃ c, strncmp (P ++ [0]) ((T ++ [0]).drop off) P.length = some c ∧
      (c = 0 ↔ occursAt T P off) := by
  rw [text_drop T off h]
  obtain ⟨c, hc, hiff⟩ := strncmp_terminated P.length P (T.drop off) [] [] hP (hT.drop off)
  refine ⟨c, hc, ?_⟩
  rw [hiff, List.take_length]
  unfold occursAt
  exact eq_comm

theorem occursAt_bound (T P : List Nat) (o : Nat) (h : occursAt T P o) :
    o + P.length ≤ T.length ∨ P = [] := by
  unfold occursAt at h
  by_cases hp : P = []
  · exact Or.inr hp
  · left
    have hl := congrArg List.length h
    simp only [List.length_take, List.length_drop] at hl
    have : 0 < P.length := List.length_pos.mpr hp
    omega

/-! ## Soundness of `find` -/

theorem SoundList.snoc {T P : List Nat} {l : List Nat} {o : Nat} (hl : SoundList T P l)
    (ho : o < T.length) (hocc : occursAt T P o) : SoundList T P (l ++ [o]) := by
  intro x hx
  rcases List.mem_append.mp hx with hx | hx
  · exact hl x hx
  · have hx' : x = o := by simpa using hx
    subst hx'
    refine ⟨?_, hocc⟩
    rcases occursAt_bound T P x hocc with hb | hb
    · exact hb
    · subst hb; simp; omega

theorem sa_entry {T sa : List Nat} (hlen : sa.length = T.length)
    (hsa : ∀ x ∈ sa, x < T.length) (k : Nat) (hk : k < T.length) :
    ∃ off, sa[k]? = some off ∧ off < T.length := by
  have hk' : k < sa.length := by omega
  exact ⟨sa[k], List.getElem?_eq_getElem hk', hsa _ (List.getElem_mem hk')⟩

theorem findLeft_sound (T sa P : List Nat) (hT : ZeroFree T) (hP : ZeroFree P)
    (hlen : sa.length = T.length) (hsa : ∀ x ∈ sa, x < T.length) :
    ∀ (k : Nat) (list : List Nat), k ≤ T.length → SoundList T P list →
      ∃ l, findLeft (mkTree T sa) (P ++ [0]) P.length k list = some l ∧ SoundList T P l := by
  intro k
  induction k with
  | zero => intro list _ hl; exact ⟨list, rfl, hl⟩
  | succ k ih =>
    intro list hk hl
    obtain ⟨off, hoff, hlt⟩ := sa_entry hlen hsa k (by omega)
    obtain ⟨c, hc, hiff⟩ := strncmp_at T P off hT hP (Nat.le_of_lt hlt)
    unfold findLeft
    simp only [readAt_natCast, mkTree_text, mkTree_suffixArray, hoff, hc]
    by_cases hc0 : c = 0
    · simp only [hc0, if_true]
      exact ih _ (by omega) (hl.snoc hlt (hiff.mp hc0))
    · simp only [hc0, if_false]
      exact ⟨list, rfl, hl⟩

theorem findRight_sound (T sa P : List Nat) (hT : ZeroFree T) (hP : ZeroFree P)
    (hlen : sa.length = T.length) (hsa : ∀ x ∈ sa, x < T.length) :
    ∀ (fuel : Nat) (right : Int) (list : List Nat), 0 ≤ right →
      (T.length : Int) - 1 - right ≤ fuel → SoundList T P list →
      ∃ l, findRight (mkTree T sa) (P ++ [0]) P.length fuel right list = some l ∧
        SoundList T P l := by
  intro fuel
  induction fuel with
  | zero =>
    intro right list _ hf hl
    unfold findRight
    have : ¬ (right < (mkTree T sa)._length - 1) := by simp only [mkTree_length]; omega
    simp only [this, if_false]
    exact ⟨list, rfl, hl⟩
  | succ fuel ih =>
    intro right list h0 hf hl
    unfold findRight
    by_cases hr : right < (mkTree T sa)._length - 1
    · simp only [hr, if_true]
      have hr' : right < (T.length : Int) - 1 := by simpa [mkTree_length] using hr
      obtain ⟨off, hoff, hlt⟩ := sa_entry hlen hsa right.toNat (by omega)
      obtain ⟨c, hc, hiff⟩ := strncmp_at T P off hT hP (Nat.le_of_lt hlt)
      rw [readAt_of_nonneg _ _ h0]
      simp only [mkTree_text, mkTree_suffixArray, hoff, hc]
      by_cases hc0 : c = 0
      · simp only [hc0, if_true]
        exact ih _ _ (by omega) (by omega) (hl.snoc hlt (hiff.mp hc0))
      · simp only [hc0, if_false]
        exact ⟨list, rfl, hl⟩
    · simp only [hr, if_false]
      exact ⟨list, rfl, hl⟩

theorem findLoop_sound (T sa P : List Nat) (hT : ZeroFree T) (hP : ZeroFree P)
    (hlen : sa.length = T.length) (hsa : ∀ x ∈ sa, x < T.length) :
    ∀ (fuel : Nat) (left right : Int) (list : List Nat), 0 ≤ left →
      right < (T.length : Int) → right - left + 1 ≤ fuel → SoundList T P list →
      ∃ l, findLoop (mkTree T sa) (P ++ [0]) P.length fuel left right list = some l ∧
        SoundList T P l := by
  intro fuel
  induction fuel with
  | zero =>
    intro left right list _ _ hf hl
    unfold findLoop
    have : ¬ (left ≤ right) := by omega
    simp only [this, if_false]
    exact ⟨list, rfl, hl⟩
  | succ fuel ih =>
    intro left right list h0 hr hf hl
    unfold findLoop
    by_cases hlr : left ≤ right
    · simp only [hlr, if_true]
      have hdiv : Int.tdiv (right - left) 2 = (right - left) / 2 :=
        Int.tdiv_eq_ediv (by omega) (by omega)
      rw [hdiv]
      have hc0 : 0 ≤ left + (right - left) / 2 := by omega
      have hc1 : left + (right - left) / 2 ≤ right := by omega
      obtain ⟨off, hoff, hlt⟩ := sa_entry hlen hsa (left + (right - left) / 2).toNat (by omega)
      obtain ⟨c, hc, hiff⟩ := strncmp_at T P off hT hP (Nat.le_of_lt hlt)
      rw [readAt_of_nonneg _ _ hc0]
      simp only [mkTree_text, mkTree_suffixArray, hoff, hc]
      by_cases hneg : c < 0
      · simp only [hneg, if_true]
        exact ih _ _ _ h0 (by omega) (by push_cast at hf; omega) hl
      · simp only [hneg, if_false]
        by_cases hz : c = 0
        · simp only [hz, if_true]
          obtain ⟨l2, hl2, hs2⟩ := findLeft_sound T sa P hT hP hlen hsa
            (left + (right - left) / 2 - 1 + 1).toNat (list ++ [off]) (by omega)
            (hl.snoc hlt (hiff.mp hz))
          simp only [hl2]
          exact findRight_sound T sa P hT hP hlen hsa _ _ _ (by omega)
            (by simp only [mkTree_length]; omega) hs2
        · simp only [hz, if_false]
          exact ih _ _ _ (by omega) hr (by push_cast at hf; omega) hl
    · simp only [hlr, if_false]
      exact ⟨list, rfl, hl⟩

/-- C5 (locate soundness): for a text without zero bytes and any array of
`N` entries in `[0, N)`, `find` returns, and every offset `o` it appended
satisfies `o + |P| ≤ N` and `T[o..o+|P|] = P`. -/
theorem find_sound (T sa P : List Nat) (hT : ZeroFree T) (hP : ZeroFree P)
    (hlen : sa.length = T.length) (hsa : ∀ x ∈ sa, x < T.length) :
    ∃ l, find (mkTree T sa) (P ++ [0]) P.length = some l ∧
      ∀ o ∈ l, o + P.length ≤ T.length ∧ occursAt T P o := by
  unfold find
  have h := findLoop_sound T sa P hT hP hlen hsa ((mkTree T sa)._length.toNat + 1) 0
    ((mkTree T sa)._length - 1) [] (le_refl _) (by simp only [mkTree_length]; omega)
    (by simp only [mkTree_length]; omega) (fun o ho => absurd ho (List.not_mem_nil o))
  exact h

theorem find_sound_witness :
    ∃ l, find (mkTree (bytes "banana") [5, 3, 1, 0, 4, 2]) (bytes "ana" ++ [0])
        (bytes "ana").length = some l ∧
      ∀ o ∈ l, o + (bytes "ana").length ≤ (bytes "banana").length ∧
        occursAt (bytes "banana") (bytes "ana") o :=
  find_sound (bytes "banana") [5, 3, 1, 0, 4, 2] (bytes "ana") (by decide) (by decide)
    (by decide) (by decide)

/-! ## The expansions of `count` -/

theorem anchorMatches_at (T sa A : List Nat) (dstart : Int) (off : Nat) (hT : ZeroFree T)
    (hA : ZeroFree A) (hd : dstart ≤ 0) (hb : A = [] ∨ (off : Int) - dstart ≤ T.length) :
    anchorMatches (mkTree T sa) (A ++ [0]) A.length dstart off
      = some (decide (occursAt T A (off + (-dstart).toNat))) := by
  unfold anchorMatches
  have h0 : ¬ ((off : Int) - dstart < 0) := by omega
  have hidx : ((off : Int) - dstart).toNat = off + (-dstart).toNat := by omega
  simp only [h0, if_false, hidx, mkTree_text]
  rcases hb with hb | hb
  · subst hb
    simp [strncmp, occursAt]
  · obtain ⟨c, hc, hiff⟩ := strncmp_at T A (off + (-dstart).toNat) hT hA (by omega)
    rw [hc]
    simp only [Option.map_some', Option.some.injEq]
    exact decide_eq_decide.mpr hiff

theorem sa_getD {sa : List Nat} {k off : Nat} (h : sa[k]? = some off) : sa.getD k 0 = off := by
  simp [List.getD, h]

theorem countLeft_run (T sa P A : List Nat) (dstart : Int) (hT : ZeroFree T)
    (hv : ValidEntries T sa) (hP : ZeroFree P) (hne : P ≠ []) (hA : ZeroFree A)
    (hd : dstart ≤ 0) (hdef : A = [] ∨ -dstart ≤ P.length) :
    ∀ (k c : Nat), k ≤ T.length →
      countLeft (mkTree T sa) (P ++ [0]) P.length (A ++ [0]) A.length dstart k c
        = some (c + leftRun (matchAt T sa P) (anchorAt T sa A (-dstart).toNat) k) := by
  intro k
  induction k with
  | zero => intro c _; rfl
  | succ k ih =>
    intro c hk
    obtain ⟨off, hoff, hlt⟩ := sa_entry hv.1 hv.2 k (by omega)
    obtain ⟨cmp, hc, hiff⟩ := strncmp_at T P off hT hP (Nat.le_of_lt hlt)
    unfold countLeft leftRun
    simp only [readAt_natCast, mkTree_text, mkTree_suffixArray, hoff, hc]
    have hm : matchAt T sa P k = decide (cmp = 0) := by
      unfold matchAt; rw [sa_getD hoff]; exact decide_eq_decide.mpr hiff.symm
    have ha : anchorAt T sa A (-dstart).toNat k
        = decide (occursAt T A (off + (-dstart).toNat)) := by
      unfold anchorAt; rw [sa_getD hoff]
    by_cases hc0 : cmp = 0
    · have hocc : occursAt T P off := hiff.mp hc0
      have hbound : off + P.length ≤ T.length := by
        rcases occursAt_bound T P off hocc with h | h
        · exact h
        · exact absurd h hne
      have hanch := anchorMatches_at T sa A dstart off hT hA hd
        (by rcases hdef with h | h
            · exact Or.inl h
            · right; omega)
      simp only [hc0, if_true, hm, ha, decide_True]
      rw [hanch]
      simp only []
      rw [ih _ (by omega)]
      by_cases hb : occursAt T A (off + (-dstart).toNat)
      · simp [hb]; omega
      · simp [hb]
    · simp [hc0, hm]

theorem countRight_run (T sa P A : List Nat) (dstart : Int) (hT : ZeroFree T)
    (hv : ValidEntries T sa) (hP : ZeroFree P) (hne : P ≠ []) (hA : ZeroFree A)
    (hd : dstart ≤ 0) (hdef : A = [] ∨ -dstart ≤ P.length) :
    ∀ (fuel : Nat) (right : Int) (c : Nat), 0 ≤ right → (T.length : Int) - right ≤ fuel →
      countRight (mkTree T sa) (P ++ [0]) P.length (A ++ [0]) A.length dstart fuel right c
        = some (c + rightRun (matchAt T sa P) (anchorAt T sa A (-dstart).toNat) T.length
            fuel right.toNat) := by
  intro fuel
  induction fuel with
  | zero =>
    intro right c _ hf
    unfold countRight rightRun
    have : ¬ (right < (mkTree T sa)._length) := by simp only [mkTree_length]; omega
    simp only [this, if_false, Nat.add_zero]
  | succ fuel ih =>
    intro right c h0 hf
    unfold countRight rightRun
    by_cases hr : right < (mkTree T sa)._length
    · have hr' : right < (T.length : Int) := by simpa [mkTree_length] using hr
      have hr2 : right.toNat < T.length := by omega
      obtain ⟨off, hoff, hlt⟩ := sa_entry hv.1 hv.2 right.toNat hr2
      obtain ⟨cmp, hc, hiff⟩ := strncmp_at T P off hT hP (Nat.le_of_lt hlt)
      rw [readAt_of_nonneg _ _ h0]
      simp only [hr, hr2, if_true, mkTree_text, mkTree_suffixArray, hoff, hc]
      have hm : matchAt T sa P right.toNat = decide (cmp = 0) := by
        unfold matchAt; rw [sa_getD hoff]; exact decide_eq_decide.mpr hiff.symm
      have ha : anchorAt T sa A (-dstart).toNat right.toNat
          = decide (occursAt T A (off + (-dstart).toNat)) := by
        unfold anchorAt; rw [sa_getD hoff]
      by_cases hc0 : cmp = 0
      · have hocc : occursAt T P off := hiff.mp hc0
        have hbound : off + P.length ≤ T.length := by
          rcases occursAt_bound T P off hocc with h | h
          · exact h
          · exact absurd h hne
        have hanch := anchorMatches_at T sa A dstart off hT hA hd
          (by rcases hdef with h | h
              · exact Or.inl h
              · right; omega)
        simp only [hc0, if_true, hm, ha, decide_True]
        rw [hanch]
        simp only []
        rw [ih _ _ (by omega) (by omega)]
        have hsucc : (right + 1).toNat = right.toNat + 1 := by omega
        rw [hsucc]
        by_cases hb : occursAt T A (off + (-dstart).toNat)
        · simp [hb]; omega
        · simp [hb]
      · simp [hc0, hm]
    · have hr' : ¬ (right < (T.length : Int)) := by simpa [mkTree_length] using hr
      have hr2 : ¬ (right.toNat < T.length) := by omega
      simp only [hr, hr2, if_false, Nat.add_zero]

/-- What the binary search of `count` returns: either no rank of the searched
interval matches, or a matching rank `center` was hit and the two expansions
ran from it. -/
theorem countLoop_run (T sa P A : List Nat) (dstart : Int) (hT : ZeroFree T)
    (hv : ValidEntries T sa) (hP : ZeroFree P) (hne : P ≠ []) (hA : ZeroFree A)
    (hd : dstart ≤ 0) (hdef : A = [] ∨ -dstart ≤ P.length) :
    ∀ (fuel : Nat) (left right : Int) (c : Nat), 0 ≤ left → right < (T.length : Int) →
      right - left + 1 ≤ fuel →
      ∃ n, countLoop (mkTree T sa) (P ++ [0]) P.length (A ++ [0]) A.length dstart
          fuel left right c = some n ∧
        ((n = c ∧ (Monotone3 T sa P → ∀ i : Nat, left ≤ (i : Int) → (i : Int) ≤ right →
            matchAt T sa P i = false)) ∨
         (∃ center : Nat, left ≤ (center : Int) ∧ (center : Int) ≤ right ∧
            matchAt T sa P center = true ∧
            n = (if anchorAt T sa A (-dstart).toNat center then c + 1 else c)
              + leftRun (matchAt T sa P) (anchorAt T sa A (-dstart).toNat) center
              + rightRun (matchAt T sa P) (anchorAt T sa A (-dstart).toNat) T.length
                  T.length (center + 1))) := by
  intro fuel
  induction fuel with
  | zero =>
    intro left right c _ _ hf
    unfold countLoop
    have : ¬ (left ≤ right) := by omega
    simp only [this, if_false]
    exact ⟨c, rfl, Or.inl ⟨rfl, fun _ i h1 h2 => by omega⟩⟩
  | succ fuel ih =>
    intro left right c h0 hr hf
    unfold countLoop
    by_cases hlr : left ≤ right
    · simp only [hlr, if_true]
      have hdiv : Int.tdiv (right - left) 2 = (right - left) / 2 :=
        Int.tdiv_eq_ediv (by omega) (by omega)
      rw [hdiv]
      have hc0 : 0 ≤ left + (right - left) / 2 := by omega
      have hc1 : left + (right - left) / 2 ≤ right := by omega
      have hc2 : left ≤ left + (right - left) / 2 := by omega
      generalize hcen : left + (right - left) / 2 = center at hc0 hc1 hc2
      have hcn : center.toNat < T.length := by omega
      obtain ⟨off, hoff, hlt⟩ := sa_entry hv.1 hv.2 center.toNat hcn
      obtain ⟨cmp, hc, hiff⟩ := strncmp_at T P off hT hP (Nat.le_of_lt hlt)
      rw [readAt_of_nonneg _ _ hc0]
      simp only [mkTree_text, mkTree_suffixArray, hoff, hc]
      have hm : matchAt T sa P center.toNat = decide (cmp = 0) := by
        unfold matchAt; rw [sa_getD hoff]; exact decide_eq_decide.mpr hiff.symm
      have ha : anchorAt T sa A (-dstart).toNat center.toNat
          = decide (occursAt T A (off + (-dstart).toNat)) := by
        unfold anchorAt; rw [sa_getD hoff]
      have hc' : strncmp (P ++ [0]) ((T ++ [0]).drop (sa.getD center.toNat 0)) P.length
          = some cmp := by rw [sa_getD hoff]; exact hc
      by_cases hneg : cmp < 0
      · simp only [hneg, if_true]
        obtain ⟨n, hn, hval⟩ := ih left (center - 1) c h0 (by omega) (by push_cast at hf; omega)
        refine ⟨n, hn, ?_⟩
        rcases hval with ⟨hnc, hno⟩ | ⟨ce, h1, h2, h3, h4⟩
        · left
          refine ⟨hnc, fun hmono i hi1 hi2 => ?_⟩
          by_cases hi : (i : Int) ≤ center - 1
          · exact hno hmono i hi1 hi
          · exact ((hmono center.toNat i cmp hcn (by omega) hc').2 hneg (by omega))
        · right
          exact ⟨ce, h1, by omega, h3, h4⟩
      · simp only [hneg, if_false]
        by_cases hpos : cmp > 0
        · simp only [hpos, if_true]
          obtain ⟨n, hn, hval⟩ := ih (center + 1) right c (by omega) hr
            (by push_cast at hf; omega)
          refine ⟨n, hn, ?_⟩
          rcases hval with ⟨hnc, hno⟩ | ⟨ce, h1, h2, h3, h4⟩
          · left
            refine ⟨hnc, fun hmono i hi1 hi2 => ?_⟩
            by_cases hi : center + 1 ≤ (i : Int)
            · exact hno hmono i hi hi2
            · exact ((hmono center.toNat i cmp hcn (by omega) hc').1 hpos (by omega))
          · right
            exact ⟨ce, by omega, h2, h3, h4⟩
        · simp only [hpos, if_false]
          have hz : cmp = 0 := by omega
          have hocc : occursAt T P off := hiff.mp hz
          have hbound : off + P.length ≤ T.length := by
            rcases occursAt_bound T P off hocc with h | h
            · exact h
            · exact absurd h hne
          have hanch := anchorMatches_at T sa A dstart off hT hA hd
            (by rcases hdef with h | h
                · exact Or.inl h
                · right; omega)
          rw [hanch]
          simp only []
          have hk : (center - 1 + 1).toNat = center.toNat := by
            have : center - 1 + 1 = center := by omega
            rw [this]
          rw [hk, countLeft_run T sa P A dstart hT hv hP hne hA hd hdef _ _ (by omega)]
          simp only []
          rw [mkTree_length, Int.toNat_ofNat,
            countRight_run T sa P A dstart hT hv hP hne hA hd hdef _ _ _ (by omega) (by omega)]
          refine ⟨_, rfl, Or.inr ⟨center.toNat, by omega, by omega, ?_, ?_⟩⟩
          · rw [hm, hz]; simp
          · have hsucc : (center + 1).toNat = center.toNat + 1 := by omega
            rw [hsucc, ha]
    · simp only [hlr, if_false]
      exact ⟨c, rfl, Or.inl ⟨rfl, fun _ i h1 h2 => by omega⟩⟩

/-! ## The order of the suffixes -/

theorem lexLt_nil_right (a : List Nat) : lexLt a [] = false := by
  cases a <;> rfl

theorem lexLt_trans : ∀ (a b c : List Nat), lexLt a b = true → lexLt b c = true →
    lexLt a c = true
  | _, [], _, h, _ => by rw [lexLt_nil_right] at h; cases h
  | _, _ :: _, [], _, h => by rw [lexLt_nil_right] at h; cases h
  | [], _ :: _, _ :: _, _, _ => rfl
  | x :: a, y :: b, z :: c, h1, h2 => by
    simp only [lexLt, Bool.or_eq_true, Bool.and_eq_true, decide_eq_true_eq] at h1 h2 ⊢
    rcases h1 with h1 | ⟨h1, h1'⟩ <;> rcases h2 with h2 | ⟨h2, h2'⟩
    · left; omega
    · left; omega
    · left; omega
    · right; exact ⟨by omega, lexLt_trans a b c h1' h2'⟩

theorem lexLt_irrefl : ∀ (a : List Nat), lexLt a a = false
  | [] => rfl
  | x :: a => by
    simp only [lexLt, Bool.or_eq_false_iff, Bool.and_eq_false_imp, decide_eq_false_iff_not,
      decide_eq_true_eq]
    exact ⟨by omega, fun _ => lexLt_irrefl a⟩

theorem lexLt_asymm (a b : List Nat) (h : lexLt a b = true) : lexLt b a = false := by
  cases hba : lexLt b a with
  | false => rfl
  | true =>
    have := lexLt_trans a b a h hba
    rw [lexLt_irrefl] at this
    cases this

/-- In a sorted suffix array the suffix of a lower rank is below the suffix of
a higher rank. -/
theorem suffix_lt_of_rank_lt (T sa : List Nat)
    (hs : ∀ i, i < sa.length - 1 →
      lexLt (T.drop (sa.getD i 0)) (T.drop (sa.getD (i + 1) 0)) = true) :
    ∀ (j i : Nat), i < j → j < sa.length →
      lexLt (T.drop (sa.getD i 0)) (T.drop (sa.getD j 0)) = true := by
  intro j
  induction j with
  | zero => intro i h _; omega
  | succ j ih =>
    intro i hij hj
    have hadj := hs j (by omega)
    by_cases h : i = j
    · subst h; exact hadj
    · exact lexLt_trans _ _ _ (ih i (by omega) (by omega)) hadj

theorem suffix_not_lt_of_rank_le (T sa : List Nat)
    (hs : ∀ i, i < sa.length - 1 →
      lexLt (T.drop (sa.getD i 0)) (T.drop (sa.getD (i + 1) 0)) = true)
    (i j : Nat) (hij : i ≤ j) (hj : j < sa.length) :
    lexLt (T.drop (sa.getD j 0)) (T.drop (sa.getD i 0)) = false := by
  by_cases h : i = j
  · subst h; exact lexLt_irrefl _
  · exact lexLt_asymm _ _ (suffix_lt_of_rank_lt T sa hs j i (by omega) hj)

/-- A query that is a prefix of `a` does not compare below a string `s ≤ a`. -/
theorem strncmp_nonneg_of_prefix : ∀ (P a s r1 r2 : List Nat) (cmp : Int), ZeroFree P →
    a.take P.length = P → lexLt a s = false →
    strncmp (P ++ 0 :: r1) (s ++ 0 :: r2) P.length = some cmp → 0 ≤ cmp
  | [], _, _, _, _, cmp, _, _, _, h => by
    simp [strncmp] at h; omega
  | p :: P, [], _, _, _, _, _, hpre, _, _ => by simp at hpre
  | p :: P, x :: a, [], r1, r2, cmp, hP, _, _, h => by
    have hp : p ≠ 0 := hP.head
    simp [strncmp, hp] at h
    omega
  | p :: P, x :: a, y :: s, r1, r2, cmp, hP, hpre, hle, h => by
    have hp : p ≠ 0 := hP.head
    simp only [List.length_cons, List.take_succ_cons, List.cons.injEq] at hpre
    obtain ⟨hx, hpre⟩ := hpre
    subst hx
    simp only [lexLt, Bool.or_eq_false_iff, Bool.and_eq_false_imp, decide_eq_false_iff_not,
      decide_eq_true_eq] at hle
    by_cases hxy : x = y
    · subst hxy
      have h' : strncmp (P ++ 0 :: r1) (s ++ 0 :: r2) P.length = some cmp := by
        simpa [strncmp, hp] using h
      exact strncmp_nonneg_of_prefix P a s r1 r2 cmp hP.tail hpre (hle.2 rfl) h'
    · have h' : (x : Int) - (y : Int) = cmp := by simpa [strncmp, hxy] using h
      omega

/-- A query that is a prefix of `a` does not compare above a string `s ≥ a`. -/
theorem strncmp_nonpos_of_prefix : ∀ (P a s r1 r2 : List Nat) (cmp : Int), ZeroFree P →
    a.take P.length = P → lexLt s a = false →
    strncmp (P ++ 0 :: r1) (s ++ 0 :: r2) P.length = some cmp → cmp ≤ 0
  | [], _, _, _, _, cmp, _, _, _, h => by
    simp [strncmp] at h; omega
  | p :: P, [], _, _, _, _, _, hpre, _, _ => by simp at hpre
  | p :: P, x :: a, [], r1, r2, cmp, hP, _, hle, _ => by
    simp [lexLt] at hle
  | p :: P, x :: a, y :: s, r1, r2, cmp, hP, hpre, hle, h => by
    have hp : p ≠ 0 := hP.head
    simp only [List.length_cons, List.take_succ_cons, List.cons.injEq] at hpre
    obtain ⟨hx, hpre⟩ := hpre
    subst hx
    simp only [lexLt, Bool.or_eq_false_iff, Bool.and_eq_false_imp, decide_eq_false_iff_not,
      decide_eq_true_eq] at hle
    by_cases hxy : x = y
    · subst hxy
      have h' : strncmp (P ++ 0 :: r1) (s ++ 0 :: r2) P.length = some cmp := by
        simpa [strncmp, hp] using h
      exact strncmp_nonpos_of_prefix P a s r1 r2 cmp hP.tail hpre (hle.2 rfl) h'
    · have h' : (x : Int) - (y : Int) = cmp := by simpa [strncmp, hxy] using h
      omega

theorem monotone3_of_sorted (T sa P : List Nat) (hv : ValidEntries T sa) (hP : ZeroFree P)
    (hs : ∀ i, i < sa.length - 1 →
      lexLt (T.drop (sa.getD i 0)) (T.drop (sa.getD (i + 1) 0)) = true) :
    Monotone3 T sa P := by
  intro c i cmp hc hi hcmp
  obtain ⟨off, hoff, hlt⟩ := sa_entry hv.1 hv.2 c hc
  rw [sa_getD hoff, text_drop T off (Nat.le_of_lt hlt)] at hcmp
  have hoffc : off = sa.getD c 0 := (sa_getD hoff).symm
  constructor
  · intro hpos hic
    cases hm : matchAt T sa P i with
    | false => rfl
    | true =>
      exfalso
      have hocc : occursAt T P (sa.getD i 0) := by simpa [matchAt] using hm
      have hle := suffix_not_lt_of_rank_le T sa hs i c hic (by rw [hv.1]; exact hc)
      rw [← hoffc] at hle
      have := strncmp_nonpos_of_prefix P _ _ [] [] cmp hP hocc hle hcmp
      omega
  · intro hneg hci
    cases hm : matchAt T sa P i with
    | false => rfl
    | true =>
      exfalso
      have hocc : occursAt T P (sa.getD i 0) := by simpa [matchAt] using hm
      have hle := suffix_not_lt_of_rank_le T sa hs c i hci (by rw [hv.1]; exact hi)
      rw [← hoffc] at hle
      have := strncmp_nonneg_of_prefix P _ _ [] [] cmp hP hocc hle hcmp
      omega

/-- The matching ranks form an interval. -/
theorem match_convex (T sa P : List Nat) (hT : ZeroFree T) (hv : ValidEntries T sa)
    (hP : ZeroFree P) (hmono : Monotone3 T sa P) (i j k : Nat) (hij : i ≤ j) (hjk : j ≤ k)
    (hk : k < T.length) (hi : matchAt T sa P i = true) (hkm : matchAt T sa P k = true) :
    matchAt T sa P j = true := by
  obtain ⟨off, hoff, hlt⟩ := sa_entry hv.1 hv.2 j (by omega)
  obtain ⟨cmp, hc, hiff⟩ := strncmp_at T P off hT hP (Nat.le_of_lt hlt)
  have hc' : strncmp (P ++ [0]) ((T ++ [0]).drop (sa.getD j 0)) P.length = some cmp := by
    rw [sa_getD hoff]; exact hc
  have h := hmono j
  have hz : cmp = 0 := by
    by_contra hne
    by_cases hpos : 0 < cmp
    · have := (h i cmp (by omega) (by omega) hc').1 hpos hij
      rw [hi] at this; cases this
    · have := (h k cmp (by omega) hk hc').2 (by omega) hjk
      rw [hkm] at this; cases this
  unfold matchAt
  rw [sa_getD hoff]
  exact decide_eq_true (hiff.mp hz)

/-! ## The value of `count` -/

theorem countP_range_succ (f : Nat → Bool) (k : Nat) :
    (List.range (k + 1)).countP f = (List.range k).countP f + (if f k then 1 else 0) := by
  rw [List.range_succ, List.countP_append]
  by_cases h : f k = true <;> simp [h]

theorem countP_range_zero_of_false (f : Nat → Bool) :
    ∀ (k : Nat), (∀ i, i < k → f i = false) → (List.range k).countP f = 0 := by
  intro k
  induction k with
  | zero => intro _; rfl
  | succ k ih =>
    intro h
    rw [countP_range_succ, ih (fun i hi => h i (by omega)), h k (by omega)]
    simp

theorem countP_range_extend (f : Nat → Bool) (r : Nat) :
    ∀ (n : Nat), r ≤ n → (∀ i, r ≤ i → i < n → f i = false) →
      (List.range n).countP f = (List.range r).countP f := by
  intro n
  induction n with
  | zero => intro h _; have : r = 0 := by omega
            subst this; rfl
  | succ n ih =>
    intro hr h
    by_cases hrn : r = n + 1
    · subst hrn; rfl
    · rw [countP_range_succ, ih (by omega) (fun i h1 h2 => h i h1 (by omega)),
        h n (by omega) (by omega)]
      simp

theorem leftRun_eq (m a : Nat → Bool) :
    ∀ (k : Nat), (∀ i j, i ≤ j → j < k → m i = true → m j = true) →
      leftRun m a k = (List.range k).countP (fun i => m i && a i) := by
  intro k
  induction k with
  | zero => intro _; rfl
  | succ k ih =>
    intro h
    unfold leftRun
    by_cases hm : m k = true
    · rw [countP_range_succ, ih (fun i j h1 h2 => h i j h1 (by omega))]
      simp only [hm, if_true, Bool.true_and]
      omega
    · have hall : ∀ i, i < k + 1 → (m i && a i) = false := by
        intro i hi
        cases hmi : m i with
        | false => rfl
        | true => exact absurd (h i k (by omega) (by omega) hmi) hm
      rw [countP_range_zero_of_false _ _ hall]
      simp [hm]

theorem rightRun_eq (m a : Nat → Bool) (N : Nat) :
    ∀ (fuel r : Nat), r ≤ N → N - r ≤ fuel →
      (∀ i j, r ≤ i → i ≤ j → j < N → m j = true → m i = true) →
      (List.range r).countP (fun i => m i && a i) + rightRun m a N fuel r
        = (List.range N).countP (fun i => m i && a i) := by
  intro fuel
  induction fuel with
  | zero =>
    intro r hr hf _
    have : r = N := by omega
    subst this; rfl
  | succ fuel ih =>
    intro r hr hf h
    unfold rightRun
    by_cases hrN : r < N
    · simp only [hrN, if_true]
      by_cases hm : m r = true
      · have := ih (r + 1) (by omega) (by omega)
          (fun i j h1 h2 h3 h4 => h i j (by omega) h2 h3 h4)
        rw [countP_range_succ] at this
        simp only [hm, if_true, Bool.true_and] at this ⊢
        omega
      · have hall : ∀ i, r ≤ i → i < N → (m i && a i) = false := by
          intro i h1 h2
          cases hmi : m i with
          | false => rfl
          | true => exact absurd (h r i (le_refl _) h1 h2 hmi) hm
        rw [countP_range_extend _ r N hr hall]
        simp [hm]
    · have : r = N := by omega
      subst this
      simp

theorem map_getD_range (sa : List Nat) :
    (List.range sa.length).map (fun i => sa.getD i 0) = sa := by
  apply List.ext_getElem
  · simp
  · intro n h1 h2
    simp only [List.getElem_map, List.getElem_range]
    simp [List.getD, List.getElem?_eq_getElem h2]

/-- Counting over the ranks of a suffix array is counting over the offsets. -/
theorem countP_ranks (T sa : List Nat) (hperm : sa.Perm (List.range T.length))
    (f : Nat → Bool) :
    (List.range T.length).countP (fun i => f (sa.getD i 0)) = (List.range T.length).countP f := by
  have hlen : sa.length = T.length := by simpa using hperm.length_eq
  have h1 : (List.range T.length).countP (fun i => f (sa.getD i 0)) = sa.countP f := by
    conv_rhs => rw [← map_getD_range sa]
    rw [List.countP_map, hlen]
    rfl
  rw [h1]
  exact hperm.countP_eq f

theorem validEntries_of_perm (T sa : List Nat) (hperm : sa.Perm (List.range T.length)) :
    ValidEntries T sa := by
  refine ⟨by simpa using hperm.length_eq, fun x hx => ?_⟩
  have := hperm.mem_iff.mp hx
  simpa using this

theorem count_unfold (T sa P A : List Nat) (dstart : Int) (hP : ZeroFree P) (hA : ZeroFree A) :
    count (mkTree T sa) (P ++ [0]) (A ++ [0]) dstart
      = countLoop (mkTree T sa) (P ++ [0]) P.length (A ++ [0]) A.length dstart
          (T.length + 1) 0 ((T.length : Int) - (P.length : Int)) 0 := by
  unfold count
  rw [strlen_terminated P [] hP, strlen_terminated A [] hA]
  simp only [mkTree_length, Int.toNat_ofNat]

/-- On well-formed arguments `count` returns. -/
theorem count_returns (T sa P A : List Nat) (dstart : Int) (hT : ZeroFree T)
    (hv : ValidEntries T sa) (hP : ZeroFree P) (hne : P ≠ []) (hA : ZeroFree A)
    (hd : dstart ≤ 0) (hdef : A = [] ∨ -dstart ≤ P.length) :
    ∃ n, count (mkTree T sa) (P ++ [0]) (A ++ [0]) dstart = some n := by
  rw [count_unfold T sa P A dstart hP hA]
  have hpos : 0 < P.length := List.length_pos.mpr hne
  obtain ⟨n, hn, _⟩ := countLoop_run T sa P A dstart hT hv hP hne hA hd hdef (T.length + 1) 0
    ((T.length : Int) - (P.length : Int)) 0 (le_refl _) (by omega) (by push_cast; omega)
  exact ⟨n, hn⟩

theorem countWithAnchorAfter_eq (T sa P A : List Nat) (off : Nat)
    (hperm : sa.Perm (List.range T.length)) :
    countWithAnchorAfter T P A off
      = (List.range T.length).countP (fun i => matchAt T sa P i && anchorAt T sa A off i) := by
  unfold countWithAnchorAfter
  rw [← List.countP_eq_length_filter]
  have h := countP_ranks T sa hperm (fun o => decide (occursAt T P o ∧ occursAt T A (o + off)))
  rw [← h]
  congr 1
  funext i
  simp [matchAt, anchorAt, Bool.decide_and]

/-- The value of `count` on a sorted suffix array when the query has an
occurrence of rank at most `N - |P|`. -/
theorem count_value_of_rank (T sa P A : List Nat) (dstart : Int) (hT : ZeroFree T)
    (hsa : IsSuffixArray T sa) (hP : ZeroFree P) (hne : P ≠ []) (hA : ZeroFree A)
    (hd : dstart ≤ 0) (hdef : A = [] ∨ -dstart ≤ P.length)
    (r : Nat) (hr : (r : Int) ≤ (T.length : Int) - P.length)
    (hocc : occursAt T P (sa.getD r 0)) :
    count (mkTree T sa) (P ++ [0]) (A ++ [0]) dstart
      = some (countWithAnchorAfter T P A (-dstart).toNat) := by
  have hv := validEntries_of_perm T sa hsa.1
  have hmono := monotone3_of_sorted T sa P hv hP hsa.2
  have hpos : 0 < P.length := List.length_pos.mpr hne
  rw [count_unfold T sa P A dstart hP hA, countWithAnchorAfter_eq T sa P A _ hsa.1]
  obtain ⟨n, hn, hval⟩ := countLoop_run T sa P A dstart hT hv hP hne hA hd hdef
    (T.length + 1) 0 ((T.length : Int) - (P.length : Int)) 0 (le_refl _) (by omega)
    (by push_cast; omega)
  rw [hn]
  congr 1
  rcases hval with ⟨hn0, hno⟩ | ⟨c, hc0, hc1, hmc, hnc⟩
  · exfalso
    have := hno hmono r (by omega) hr
    unfold matchAt at this
    rw [decide_eq_false_iff_not] at this
    exact this hocc
  · have hcN : c < T.length := by omega
    have hleft := leftRun_eq (matchAt T sa P) (anchorAt T sa A (-dstart).toNat) c
      (fun i j h1 h2 h3 => match_convex T sa P hT hv hP hmono i j c h1 (by omega) hcN h3 hmc)
    have hright := rightRun_eq (matchAt T sa P) (anchorAt T sa A (-dstart).toNat) T.length
      T.length (c + 1) (by omega) (by omega)
      (fun i j h1 h2 h3 h4 =>
        match_convex T sa P hT hv hP hmono c i j (by omega) h2 h3 hmc h4)
    rw [countP_range_succ] at hright
    rw [hnc, hleft]
    cases ha : anchorAt T sa A (-dstart).toNat c with
    | true =>
      simp only [hmc, ha, Bool.and_self, if_true] at hright ⊢
      omega
    | false =>
      simp only [hmc, ha, Bool.and_false, Bool.false_eq_true, if_false] at hright ⊢
      omega

/-- C2 (count_with_prefix), as the code computes it: for a text without zero
bytes with its sorted suffix array, a non-empty query `P`, an anchor text `A`
and a window start `dstart ≤ 0` with `A` empty or `-dstart ≤ |P|`, and provided
`P` has no occurrence or an occurrence of suffix-array rank at most `N - |P|`,
`count` returns the number of offsets `o` with `T[o..o+|P|] = P` and
`T[o+offset..o+offset+|A|] = A` for `offset = -dstart`. -/
theorem count_anchor_after (T sa P A : List Nat) (dstart : Int) (hT : ZeroFree T)
    (hsa : IsSuffixArray T sa) (hP : ZeroFree P) (hne : P ≠ []) (hA : ZeroFree A)
    (hd : dstart ≤ 0) (hdef : A = [] ∨ -dstart ≤ P.length)
    (hrank : (∀ o, ¬ occursAt T P o) ∨
      ∃ i : Nat, (i : Int) ≤ (T.length : Int) - P.length ∧ occursAt T P (sa.getD i 0)) :
    count (mkTree T sa) (P ++ [0]) (A ++ [0]) dstart
      = some (countWithAnchorAfter T P A (-dstart).toNat) := by
  have hv := validEntries_of_perm T sa hsa.1
  have hmono := monotone3_of_sorted T sa P hv hP hsa.2
  have hpos : 0 < P.length := List.length_pos.mpr hne
  rw [count_unfold T sa P A dstart hP hA, countWithAnchorAfter_eq T sa P A _ hsa.1]
  obtain ⟨n, hn, hval⟩ := countLoop_run T sa P A dstart hT hv hP hne hA hd hdef
    (T.length + 1) 0 ((T.length : Int) - (P.length : Int)) 0 (le_refl _) (by omega)
    (by push_cast; omega)
  rw [hn]
  congr 1
  rcases hval with ⟨hn0, hno⟩ | ⟨c, hc0, hc1, hmc, hnc⟩
  · have hno' := hno hmono
    have hnone : ∀ i, i < T.length → matchAt T sa P i = false := by
      rcases hrank with hr | ⟨i, hi, hocc⟩
      · intro i _
        unfold matchAt
        exact decide_eq_false (hr _)
      · exfalso
        have := hno' i (by omega) hi
        unfold matchAt at this
        rw [decide_eq_false_iff_not] at this
        exact this hocc
    rw [hn0, countP_range_zero_of_false _ _ (fun i hi => by rw [hnone i hi]; rfl)]
  · have hcN : c < T.length := by omega
    have hleft := leftRun_eq (matchAt T sa P) (anchorAt T sa A (-dstart).toNat) c
      (fun i j h1 h2 h3 => match_convex T sa P hT hv hP hmono i j c h1 (by omega) hcN h3 hmc)
    have hright := rightRun_eq (matchAt T sa P) (anchorAt T sa A (-dstart).toNat) T.length
      T.length (c + 1) (by omega) (by omega)
      (fun i j h1 h2 h3 h4 =>
        match_convex T sa P hT hv hP hmono c i j (by omega) h2 h3 hmc h4)
    rw [countP_range_succ] at hright
    rw [hnc, hleft]
    cases ha : anchorAt T sa A (-dstart).toNat c with
    | true =>
      simp only [hmc, ha, Bool.and_self, if_true] at hright ⊢
      omega
    | false =>
      simp only [hmc, ha, Bool.and_false, Bool.false_eq_true, if_false] at hright ⊢
      omega

theorem count_anchor_after_witness :
    count (mkTree (bytes "ACAC") [2, 0, 3, 1]) (bytes "A" ++ [0]) (bytes "C" ++ [0]) (-1)
      = some (countWithAnchorAfter (bytes "ACAC") (bytes "A") (bytes "C") (-(-1 : Int)).toNat) :=
  count_anchor_after (bytes "ACAC") [2, 0, 3, 1] (bytes "A") (bytes "C") (-1) (by decide)
    ⟨by decide, by decide⟩ (by decide) (by decide) (by decide) (by decide)
    (Or.inr (by decide)) (Or.inr ⟨0, by decide, by decide⟩)

/-- C2 (count_with_prefix), as stated, fails on `T = AC` with query `A`, anchor
text `C` and `dstart = -1`: `count` returns 1, the anchor text being found one
byte after the match, while no offset `o ≥ 1` carries the query with the anchor
text one byte before it. -/
theorem count_prefix_direction :
    IsSuffixArray (bytes "AC") [0, 1] ∧
    count (mkTree (bytes "AC") [0, 1]) (cstr "A") (cstr "C") (-1) = some 1 ∧
    countWithPrefixSpec (bytes "AC") (bytes "A") (bytes "C") 1 = 0 ∧
    countWithAnchorAfter (bytes "AC") (bytes "A") (bytes "C") 1 = 1 := by
  refine ⟨⟨by decide, by decide⟩, by decide, by decide, by decide⟩

/-! ## The traversal of `find_inexact` -/

theorem runCalls_nil {σ : Type} (visit : Nat → List Nat → σ → Option σ) (s : σ) :
    runCalls visit s [] = some s := rfl

theorem runCalls_cons {σ : Type} (visit : Nat → List Nat → σ → Option σ) (s : σ)
    (c : Nat × List Nat) (calls : List (Nat × List Nat)) :
    runCalls visit s (c :: calls) = (visit c.1 c.2 s).bind (fun s1 => runCalls visit s1 calls) := by
  unfold runCalls
  rw [List.foldlM_cons]
  rfl

theorem runCalls_append {σ : Type} (visit : Nat → List Nat → σ → Option σ) (s : σ)
    (l1 l2 : List (Nat × List Nat)) :
    runCalls visit s (l1 ++ l2) = (runCalls visit s l1).bind (fun s1 => runCalls visit s1 l2) := by
  unfold runCalls
  rw [List.foldlM_append]
  rfl

theorem set_getD_self : ∀ (q : List Nat) (i : Nat), q.set i (q.getD i 0) = q
  | [], _ => rfl
  | _ :: _, 0 => rfl
  | a :: q, i + 1 => by
    have := set_getD_self q i
    simp only [List.set_cons_succ, List.getD_cons_succ, this]

theorem optionLoop_eq {σ : Type} (visit : Nat → List Nat → σ → Option σ)
    (recurse : σ → List Nat → Nat → Option (σ × List Nat)) (L rem depth i : Nat)
    (q : List Nat) (hi : i < q.length)
    (hrec : ∀ s x, recurse s (q.set i x) (i + 1)
      = (runCalls visit s (callsFrom L rem (depth + 1) (q.set i x) (i + 1))).map
          (fun s1 => (s1, q.set i x))) :
    ∀ (opts : List Nat) (s : σ) (qcur : List Nat), qcur.set i (q.getD i 0) = q →
      ∃ q1, q1.set i (q.getD i 0) = q ∧
        optionLoop recurse i (q.getD i 0) opts (s, qcur)
          = (runCalls visit s ((opts.filter (fun x => decide (x ≠ q.getD i 0))).flatMap
              (fun x => callsFrom L rem (depth + 1) (q.set i x) (i + 1)))).map
              (fun s1 => (s1, q1)) := by
  intro opts
  induction opts with
  | nil =>
    intro s qcur hq
    exact ⟨qcur, hq, rfl⟩
  | cons o rest ih =>
    intro s qcur hq
    unfold optionLoop
    by_cases ho : o = q.getD i 0
    · obtain ⟨q1, hq1, h⟩ := ih s qcur hq
      refine ⟨q1, hq1, ?_⟩
      simp only [ho, if_true]
      rw [← ho] at h ⊢
      rw [h]
      simp [ho]
    · have hlen : qcur.length = q.length := by
        rw [← hq, List.length_set]
      have hset : qcur.set i o = q.set i o := by
        rw [← hq, List.set_set]
      have hw : writeAt qcur i o = some (q.set i o) := by
        unfold writeAt
        rw [hlen]
        simp [hi, hset]
      simp only [ho, if_false, hw, hrec]
      have hfilter : (o :: rest).filter (fun x => decide (x ≠ q.getD i 0))
          = o :: rest.filter (fun x => decide (x ≠ q.getD i 0)) := by
        have hdec : decide (o ≠ q.getD i 0) = true := decide_eq_true ho
        rw [List.filter_cons, if_pos hdec]
      rw [hfilter, List.flatMap_cons, runCalls_append]
      cases hr : runCalls visit s (callsFrom L rem (depth + 1) (q.set i o) (i + 1)) with
      | none => exact ⟨qcur, hq, rfl⟩
      | some s1 =>
        obtain ⟨q1, hq1, h⟩ := ih s1 (q.set i o) (by rw [List.set_set, set_getD_self])
        exact ⟨q1, hq1, by simpa using h⟩

theorem positionLoop_eq {σ : Type} (visit : Nat → List Nat → σ → Option σ)
    (recurse : σ → List Nat → Nat → Option (σ × List Nat)) (dstart dend : Int)
    (L rem depth cs : Nat) (q : List Nat) (hL : L = (dend - dstart).toNat)
    (hq : L ≤ q.length)
    (hrec : ∀ s i x, cs ≤ i → i < L → recurse s (q.set i x) (i + 1)
      = (runCalls visit s (callsFrom L rem (depth + 1) (q.set i x) (i + 1))).map
          (fun s1 => (s1, q.set i x))) :
    ∀ (fuel i : Nat) (s : σ), cs ≤ i → L - i ≤ fuel →
      positionLoop recurse dstart dend fuel i (s, q)
        = (runCalls visit s ((List.range' i (L - i)).flatMap (fun i =>
            (options.filter (fun x => decide (x ≠ q.getD i 0))).flatMap (fun x =>
              callsFrom L rem (depth + 1) (q.set i x) (i + 1))))).map (fun s1 => (s1, q)) := by
  intro fuel
  induction fuel with
  | zero =>
    intro i s _ hf
    unfold positionLoop
    have hc : ¬ (dstart + (i : Int) < dend) := by omega
    have hz : L - i = 0 := by omega
    simp only [hc, if_false, hz, List.range'_zero, List.flatMap_nil, runCalls_nil,
      Option.map_some']
  | succ fuel ih =>
    intro i s hcs hf
    unfold positionLoop
    by_cases hc : dstart + (i : Int) < dend
    · have hiL : i < L := by omega
      have hiq : i < q.length := by omega
      have hread : q[i]? = some (q.getD i 0) := by
        simp [List.getD, List.getElem?_eq_getElem hiq]
      have hstep : L - i = (L - (i + 1)) + 1 := by omega
      simp only [hc, if_true, hread]
      rw [hstep, List.range'_succ, List.flatMap_cons, runCalls_append]
      obtain ⟨q1, hq1, hopt⟩ := optionLoop_eq visit recurse L rem depth i q hiq
        (fun s x => hrec s i x hcs hiL) options s q (set_getD_self q i)
      rw [hopt]
      cases hr : runCalls visit s ((options.filter (fun x => decide (x ≠ q.getD i 0))).flatMap
          (fun x => callsFrom L rem (depth + 1) (q.set i x) (i + 1))) with
      | none => rfl
      | some s1 =>
        have hlen : q1.length = q.length := by
          rw [← hq1, List.length_set]
        have hw : writeAt q1 i (q.getD i 0) = some q := by
          unfold writeAt
          rw [hlen, if_pos hiq, hq1]
        simp only [Option.map_some', hw, Option.some_bind]
        exact ih (i + 1) s1 (by omega) (by omega)
    · have hz : L - i = 0 := by omega
      simp only [hc, if_false, hz, List.range'_zero, List.flatMap_nil, runCalls_nil,
        Option.map_some']

/-- The enumerator performs the calls of `callsFrom` in order and returns the
buffer as it received it. -/
theorem enumerate_eq {σ : Type} (visit : Nat → List Nat → σ → Option σ)
    (dstart dend K : Int) (L : Nat) (hL : L = (dend - dstart).toNat) :
    ∀ (fuel depth rem : Nat) (s : σ) (q : List Nat) (cs : Nat),
      (depth : Int) + (rem : Int) = K → L ≤ q.length → L - cs < fuel →
      enumerate visit dstart dend K fuel depth s q cs
        = (runCalls visit s (callsFrom L rem depth q cs)).map (fun s1 => (s1, q)) := by
  intro fuel
  induction fuel with
  | zero => intro depth rem s q cs _ _ hf; omega
  | succ fuel ih =>
    intro depth rem s q cs hK hq hf
    unfold enumerate
    cases rem with
    | zero =>
      have hd : (depth : Int) = K := by simpa using hK
      simp only [callsFrom, runCalls_cons, runCalls_nil]
      cases hv : visit depth q s with
      | none => rfl
      | some s1 => simp [hd]
    | succ rem =>
      have hd : ¬ ((depth : Int) = K) := by push_cast at hK; omega
      simp only [callsFrom, runCalls_cons]
      cases hv : visit depth q s with
      | none => rfl
      | some s1 =>
        simp only [hd, if_false, Option.some_bind]
        rw [← hL]
        exact positionLoop_eq visit _ dstart dend L rem depth cs q hL hq
          (fun s2 i x h1 h2 => ih (depth + 1) rem s2 (q.set i x) (i + 1)
            (by push_cast at hK ⊢; omega) (by rw [List.length_set]; exact hq) (by omega))
          L cs s1 (le_refl _) (by omega)

/-! ## The variants reached by the traversal -/

theorem callsAt_append (d : Nat) (l1 l2 : List (Nat × List Nat)) :
    callsAt d (l1 ++ l2) = callsAt d l1 ++ callsAt d l2 := by
  simp [callsAt]

theorem callsAt_flatMap {α : Type} (d : Nat) (l : List α) (f : α → List (Nat × List Nat)) :
    callsAt d (l.flatMap f) = l.flatMap (fun x => callsAt d (f x)) := by
  induction l with
  | nil => rfl
  | cons a l ih => simp only [List.flatMap_cons, callsAt_append, ih]

theorem callsAt_singleton (d depth : Nat) (q : List Nat) :
    callsAt d [(depth, q)] = if depth = d then [q] else [] := by
  by_cases h : depth = d <;> simp [callsAt, h]

theorem callsAt_perm (d : Nat) {l1 l2 : List (Nat × List Nat)} (h : l1.Perm l2) :
    (callsAt d l1).Perm (callsAt d l2) :=
  (h.filter _).map _

theorem variantsAt_zero : ∀ (w : List Nat), variantsAt 0 w = [w]
  | [] => rfl
  | c :: w => by simp [variantsAt, variantsAt_zero w]

theorem flatMap_nil_of_forall {α β : Type} (l : List α) (f : α → List β)
    (h : ∀ a ∈ l, f a = []) : l.flatMap f = [] := by
  induction l with
  | nil => rfl
  | cons a l ih =>
    rw [List.flatMap_cons, h a (List.mem_cons_self _ _),
      ih (fun b hb => h b (List.mem_cons_of_mem _ hb))]
    rfl

theorem getD_at_length : ∀ (pre : List Nat) (c : Nat) (t : List Nat),
    (pre ++ c :: t).getD pre.length 0 = c
  | [], _, _ => rfl
  | _ :: pre, c, t => by
    simpa only [List.cons_append, List.length_cons, List.getD_cons_succ] using
      getD_at_length pre c t

theorem set_at_length : ∀ (pre : List Nat) (c x : Nat) (t : List Nat),
    (pre ++ c :: t).set pre.length x = pre ++ x :: t
  | [], _, _, _ => rfl
  | a :: pre, c, x, t => by
    simp only [List.cons_append, List.length_cons, List.set_cons_succ, set_at_length pre c x t]

theorem callsFrom_succ_ge (L rem depth cs : Nat) (q : List Nat) (h : L ≤ cs) :
    callsFrom L (rem + 1) depth q cs = [(depth, q)] := by
  have hz : L - cs = 0 := by omega
  simp [callsFrom, hz]

theorem callsFrom_succ_lt (L rem depth cs : Nat) (q : List Nat) (h : cs < L) :
    (callsFrom L (rem + 1) depth q cs).Perm
      (callsFrom L (rem + 1) depth q (cs + 1) ++
        (options.filter (fun x => decide (x ≠ q.getD cs 0))).flatMap (fun x =>
          callsFrom L rem (depth + 1) (q.set cs x) (cs + 1))) := by
  have hstep : L - cs = (L - (cs + 1)) + 1 := by omega
  simp only [callsFrom]
  rw [hstep, List.range'_succ, List.flatMap_cons, List.cons_append]
  exact List.Perm.cons _ List.perm_append_comm

/-- The calls made at depth `d` are, up to their order, the variants with
`d - depth` replaced letters of the part of the buffer from `changeStart` to
the end of the window. -/
theorem calls_perm (L : Nat) : ∀ (rem depth : Nat) (w pre post : List Nat) (d : Nat),
    L = pre.length + w.length →
    (callsAt d (callsFrom L rem depth (pre ++ (w ++ post)) pre.length)).Perm
      (if depth ≤ d ∧ d ≤ depth + rem then
        (variantsAt (d - depth) w).map (fun v => pre ++ (v ++ post))
      else []) := by
  intro rem
  induction rem with
  | zero =>
    intro depth w pre post d _
    simp only [callsFrom, callsAt_singleton]
    by_cases h : depth = d
    · subst h
      simp [variantsAt_zero]
    · have h' : ¬ (depth ≤ d ∧ d ≤ depth + 0) := by omega
      rw [if_neg h, if_neg h']
  | succ rem ihr =>
    intro depth w
    induction w with
    | nil =>
      intro pre post d hL
      rw [callsFrom_succ_ge L rem depth _ _ (by simp at hL; omega), callsAt_singleton]
      by_cases h : depth = d
      · subst h
        simp [variantsAt]
      · by_cases h' : depth ≤ d ∧ d ≤ depth + (rem + 1)
        · obtain ⟨k, hk⟩ : ∃ k, d - depth = k + 1 := ⟨d - depth - 1, by omega⟩
          simp [h, h', hk, variantsAt]
        · simp [h, h']
    | cons c w ihw =>
      intro pre post d hL
      have hL' : L = (pre ++ [c]).length + w.length := by
        simp only [List.length_append, List.length_cons, List.length_nil] at hL ⊢; omega
      have hq : pre ++ (c :: w ++ post) = pre ++ c :: (w ++ post) := rfl
      have hq1 : ∀ x, pre ++ x :: (w ++ post) = (pre ++ [x]) ++ (w ++ post) := by
        intro x; simp
      have hlen1 : pre.length + 1 = (pre ++ [c]).length := by simp
      have hlenx : ∀ x, pre.length + 1 = (pre ++ [x]).length := by intro x; simp
      have hK := callsAt_perm d (callsFrom_succ_lt L rem depth pre.length
        (pre ++ (c :: w ++ post)) (by simp only [List.length_cons] at hL; omega))
      rw [callsAt_append, callsAt_flatMap, hq, getD_at_length] at hK
      have hX := ihw (pre ++ [c]) post d hL'
      rw [← hq1 c, ← hlen1] at hX
      have hY : ((options.filter (fun x => decide (x ≠ c))).flatMap (fun x =>
          callsAt d (callsFrom L rem (depth + 1) ((pre ++ c :: (w ++ post)).set pre.length x)
            (pre.length + 1)))).Perm
          ((options.filter (fun x => decide (x ≠ c))).flatMap (fun x =>
            if depth + 1 ≤ d ∧ d ≤ depth + 1 + rem then
              (variantsAt (d - (depth + 1)) w).map (fun v => (pre ++ [x]) ++ (v ++ post))
            else [])) := by
        apply List.Perm.flatMap_left
        intro x _
        rw [set_at_length, hq1 x, hlenx x]
        exact ihr (depth + 1) w (pre ++ [x]) post d
          (by simp only [List.length_append, List.length_cons, List.length_nil] at hL ⊢; omega)
      refine (hK.trans (hX.append hY)).trans ?_
      by_cases h1 : depth ≤ d ∧ d ≤ depth + (rem + 1)
      · simp only [h1, and_self, if_true]
        by_cases h2 : d = depth
        · subst h2
          have h3 : ¬ (d + 1 ≤ d ∧ d ≤ d + 1 + rem) := by omega
          simp only [h3, if_false, Nat.sub_self, variantsAt, List.map_map]
          rw [flatMap_nil_of_forall _ _ (fun _ _ => rfl), List.append_nil]
          apply List.Perm.of_eq
          apply List.map_congr_left
          intro v _
          simp
        · obtain ⟨e, he⟩ : ∃ e, d - depth = e + 1 := ⟨d - depth - 1, by omega⟩
          have h3 : depth + 1 ≤ d ∧ d ≤ depth + 1 + rem := by omega
          have h4 : d - (depth + 1) = e := by omega
          simp only [h3, and_self, if_true, he, h4, variantsAt, List.map_append, List.map_map,
            List.map_flatMap]
          apply List.Perm.of_eq
          congr 1
          · apply List.map_congr_left
            intro v _
            simp
          · congr 1
            funext x
            apply List.map_congr_left
            intro v _
            simp
      · have h3 : ¬ (depth + 1 ≤ d ∧ d ≤ depth + 1 + rem) := by omega
        simp only [h1, h3, if_false]
        rw [flatMap_nil_of_forall _ _ (fun _ _ => rfl)]
        exact List.Perm.refl _

theorem options_nodup : options.Nodup := by decide

theorem nodup_variantsAt : ∀ (w : List Nat) (d : Nat), (variantsAt d w).Nodup
  | [], 0 => by simp [variantsAt]
  | [], _ + 1 => by simp [variantsAt]
  | c :: w, 0 => by
    rw [variantsAt_zero]
    exact List.nodup_singleton _
  | c :: w, d + 1 => by
    have hinj : ∀ x : Nat, Function.Injective (fun v : List Nat => x :: v) :=
      fun x a b h => (List.cons.inj h).2
    simp only [variantsAt]
    rw [List.nodup_append]
    refine ⟨(nodup_variantsAt w (d + 1)).map (hinj c), ?_, ?_⟩
    · rw [List.nodup_flatMap]
      refine ⟨fun x _ => (nodup_variantsAt w d).map (hinj x), ?_⟩
      refine (options_nodup.filter _).imp ?_
      intro x y hxy v h1 h2
      obtain ⟨v1, _, hv1⟩ := List.mem_map.mp h1
      obtain ⟨v2, _, hv2⟩ := List.mem_map.mp h2
      rw [← hv2] at hv1
      exact hxy (List.cons.inj hv1).1
    · intro v h1 h2
      obtain ⟨v1, _, hv1⟩ := List.mem_map.mp h1
      obtain ⟨x, hx, h3⟩ := List.mem_flatMap.mp h2
      obtain ⟨v2, _, hv2⟩ := List.mem_map.mp h3
      rw [← hv2] at hv1
      have hcx : c = x := (List.cons.inj hv1).1
      have := (List.mem_filter.mp hx).2
      simp only [decide_eq_true_eq] at this
      exact this hcx.symm

/-- Membership in `variantsAt`: the strings of the same length that differ from
`w` in exactly `d` positions and carry an option at each of them. -/
theorem mem_variantsAt : ∀ (w : List Nat) (d : Nat) (v : List Nat),
    v ∈ variantsAt d w ↔
      List.Forall₂ (fun c y => y = c ∨ y ∈ options) w v ∧ hamming w v = d
  | [], 0, v => by
    simp only [variantsAt, List.mem_singleton, List.forall₂_nil_left_iff]
    constructor
    · intro h; subst h; exact ⟨rfl, rfl⟩
    · intro h; exact h.1
  | [], d + 1, v => by
    simp only [variantsAt, List.not_mem_nil, List.forall₂_nil_left_iff, false_iff, not_and]
    intro h; subst h
    simp [hamming]
  | c :: w, 0, v => by
    simp only [variantsAt, List.mem_map, mem_variantsAt w 0]
    constructor
    · rintro ⟨v1, ⟨h1, h2⟩, rfl⟩
      exact ⟨List.Forall₂.cons (Or.inl rfl) h1, by simp [hamming, h2]⟩
    · rintro ⟨h1, h2⟩
      cases h1 with
      | cons hy hrest =>
        rename_i y v1
        simp only [hamming] at h2
        have hcy : c = y := by
          by_contra hne
          simp [hne] at h2
        subst hcy
        simp only [if_true, Nat.zero_add] at h2
        exact ⟨v1, ⟨hrest, h2⟩, rfl⟩
  | c :: w, d + 1, v => by
    simp only [variantsAt, List.mem_append, List.mem_map, List.mem_flatMap, List.mem_filter,
      decide_eq_true_eq, mem_variantsAt w (d + 1), mem_variantsAt w d]
    constructor
    · rintro (⟨v1, ⟨h1, h2⟩, rfl⟩ | ⟨x, ⟨hx, hxc⟩, v1, ⟨h1, h2⟩, rfl⟩)
      · exact ⟨List.Forall₂.cons (Or.inl rfl) h1, by simp [hamming, h2]⟩
      · refine ⟨List.Forall₂.cons (Or.inr hx) h1, ?_⟩
        have : ¬ (c = x) := fun h => hxc h.symm
        simp only [hamming, this, if_false, h2]
        omega
    · rintro ⟨h1, h2⟩
      cases h1 with
      | cons hy hrest =>
        rename_i y v1
        simp only [hamming] at h2
        by_cases hcy : c = y
        · subst hcy
          simp only [if_true, Nat.zero_add] at h2
          exact Or.inl ⟨v1, ⟨hrest, h2⟩, rfl⟩
        · simp only [hcy, if_false] at h2
          right
          rcases hy with hy | hy
          · exact absurd hy.symm hcy
          · exact ⟨y, ⟨hy, fun h => hcy h.symm⟩, v1, ⟨hrest, by omega⟩, rfl⟩

theorem forall₂_length_eq {w v : List Nat}
    (h : List.Forall₂ (fun c y => y = c ∨ y ∈ options) w v) : v.length = w.length :=
  h.length_eq.symm

theorem forall₂_of_options : ∀ (w v : List Nat), v.length = w.length →
    (∀ x ∈ v, x ∈ options) → List.Forall₂ (fun c y => y = c ∨ y ∈ options) w v
  | [], [], _, _ => List.Forall₂.nil
  | [], _ :: _, h, _ => by simp at h
  | _ :: _, [], h, _ => by simp at h
  | c :: w, y :: v, h, hv =>
    List.Forall₂.cons (Or.inr (hv y (List.mem_cons_self _ _)))
      (forall₂_of_options w v (by simpa using h)
        (fun x hx => hv x (List.mem_cons_of_mem _ hx)))

theorem options_of_forall₂ : ∀ (w v : List Nat),
    List.Forall₂ (fun c y => y = c ∨ y ∈ options) w v → (∀ x ∈ w, x ∈ options) →
    ∀ x ∈ v, x ∈ options := by
  intro w v h
  induction h with
  | nil => intro _ x hx; exact absurd hx (List.not_mem_nil x)
  | @cons c y w v hy _ ih =>
    intro hw x hx
    rcases List.mem_cons.mp hx with hx | hx
    · subst hx
      rcases hy with hy | hy
      · rw [hy]; exact hw c (List.mem_cons_self _ _)
      · exact hy
    · exact ih (fun z hz => hw z (List.mem_cons_of_mem _ hz)) x hx

theorem runCalls_record (calls : List (Nat × List Nat)) :
    ∀ (s : List (Nat × List Nat)),
      runCalls (fun d q (c : List (Nat × List Nat)) => some (c ++ [(d, q)])) s calls
        = some (s ++ calls) := by
  induction calls with
  | nil => intro s; simp [runCalls_nil]
  | cons c calls ih =>
    intro s
    rw [runCalls_cons]
    simp only [Option.some_bind, ih]
    simp

theorem find_inexact_eq (tree : SuffixArray) (anchor : List Nat) (dstart dend K : Int)
    (hK : 0 ≤ K) (q counts : List Nat) (hq : (dend - dstart).toNat ≤ q.length) :
    find_inexact tree dstart dend K 0 counts q 0 anchor
      = (runCalls (tally tree anchor dstart) counts
          (callsFrom (dend - dstart).toNat K.toNat 0 q 0)).map (fun c => (c, q)) := by
  unfold find_inexact
  exact enumerate_eq _ dstart dend K (dend - dstart).toNat rfl _ 0 K.toNat counts q 0
    (by simp only [Int.toNat_of_nonneg hK]; omega) hq (by omega)

theorem find_inexact_calls_eq (dstart dend K : Int) (hK : 0 ≤ K) (q : List Nat)
    (hq : (dend - dstart).toNat ≤ q.length) :
    find_inexact_calls dstart dend K 0 q 0
      = some (callsFrom (dend - dstart).toNat K.toNat 0 q 0, q) := by
  unfold find_inexact_calls
  rw [enumerate_eq _ dstart dend K (dend - dstart).toNat rfl _ 0 K.toNat [] q 0
    (by simp only [Int.toNat_of_nonneg hK]; omega) hq (by omega), runCalls_record]
  simp

theorem callsAt_window (w : List Nat) (L rem d : Nat) (hL : L = w.length) :
    (callsAt d (callsFrom L rem 0 (w ++ [0]) 0)).Perm
      (if d ≤ rem then (variantsAt d w).map (fun v => v ++ [0]) else []) := by
  have h := calls_perm L rem 0 w [] [0] d (by simp [hL])
  simpa using h

/-- C6 (each variant once, at its exact distance): the traversal of
`find_inexact` started on a window `w` makes a list `calls` of calls, to which
`find_inexact` applies `count` in order; the query strings of the calls at depth
`d` are pairwise distinct, each has the length of `w` and Hamming distance `d`
from it, and for `d ≤ K` and `w` over `ACGT` they are exactly the strings over
`ACGT` of that length at Hamming distance `d` from `w`. -/
theorem calls_exact (w : List Nat) (dstart dend K : Int) (hK : 0 ≤ K)
    (hL : (w.length : Int) = dend - dstart) :
    ∃ calls, find_inexact_calls dstart dend K 0 (w ++ [0]) 0 = some (calls, w ++ [0]) ∧
      (∀ tree anchor counts, find_inexact tree dstart dend K 0 counts (w ++ [0]) 0 anchor
        = (runCalls (tally tree anchor dstart) counts calls).map (fun c => (c, w ++ [0]))) ∧
      ∀ d : Nat,
        (callsAt d calls).Nodup ∧
        (∀ q ∈ callsAt d calls, ∃ v, q = v ++ [0] ∧ v.length = w.length ∧ hamming w v = d) ∧
        ((d : Int) ≤ K → (∀ x ∈ w, x ∈ options) →
          ∀ v, v ++ [0] ∈ callsAt d calls ↔
            (v.length = w.length ∧ (∀ x ∈ v, x ∈ options) ∧ hamming w v = d)) := by
  have hLn : (dend - dstart).toNat = w.length := by omega
  refine ⟨_, find_inexact_calls_eq dstart dend K hK (w ++ [0]) (by simp [hLn]),
    fun tree anchor counts =>
      find_inexact_eq tree anchor dstart dend K hK (w ++ [0]) counts (by simp [hLn]), ?_⟩
  intro d
  have hperm := callsAt_window w (dend - dstart).toNat K.toNat d hLn
  have hinj : Function.Injective (fun v : List Nat => v ++ [0]) :=
    fun a b h => List.append_cancel_right h
  refine ⟨?_, ?_, ?_⟩
  · rw [hperm.nodup_iff]
    by_cases hd : d ≤ K.toNat
    · simp only [hd, if_true]
      exact (nodup_variantsAt w d).map hinj
    · simp only [hd, if_false]
      exact List.nodup_nil
  · intro q hq
    rw [hperm.mem_iff] at hq
    by_cases hd : d ≤ K.toNat
    · simp only [hd, if_true, List.mem_map] at hq
      obtain ⟨v, hv, rfl⟩ := hq
      have := (mem_variantsAt w d v).mp hv
      exact ⟨v, rfl, forall₂_length_eq this.1, this.2⟩
    · simp only [hd, if_false, List.not_mem_nil] at hq
  · intro hdK hw v
    have hd : d ≤ K.toNat := by omega
    rw [hperm.mem_iff]
    simp only [hd, if_true]
    rw [List.mem_map_of_injective hinj, mem_variantsAt]
    constructor
    · rintro ⟨h1, h2⟩
      exact ⟨forall₂_length_eq h1, options_of_forall₂ w v h1 hw, h2⟩
    · rintro ⟨h1, h2, h3⟩
      exact ⟨forall₂_of_options w v h1 h2, h3⟩

theorem calls_exact_witness :
    ∃ calls, find_inexact_calls (-2) 0 1 0 (bytes "AC" ++ [0]) 0
        = some (calls, bytes "AC" ++ [0]) ∧
      (∀ tree anchor counts, find_inexact tree (-2) 0 1 0 counts (bytes "AC" ++ [0]) 0 anchor
        = (runCalls (tally tree anchor (-2)) counts calls).map
            (fun c => (c, bytes "AC" ++ [0]))) ∧
      ∀ d : Nat,
        (callsAt d calls).Nodup ∧
        (∀ q ∈ callsAt d calls,
          ∃ v, q = v ++ [0] ∧ v.length = (bytes "AC").length ∧ hamming (bytes "AC") v = d) ∧
        ((d : Int) ≤ 1 → (∀ x ∈ bytes "AC", x ∈ options) →
          ∀ v, v ++ [0] ∈ callsAt d calls ↔
            (v.length = (bytes "AC").length ∧ (∀ x ∈ v, x ∈ options) ∧
              hamming (bytes "AC") v = d)) :=
  calls_exact (bytes "AC") (-2) 0 1 (by decide) (by decide)

/-! ## Subsets of positions and assignments of letters -/

theorem flatMap_swap {α β γ : Type} (l1 : List α) (l2 : List β) (f : α → β → List γ) :
    (l1.flatMap fun x => l2.flatMap fun y => f x y).Perm
      (l2.flatMap fun y => l1.flatMap fun x => f x y) := by
  induction l1 with
  | nil =>
    have h : (l2.flatMap fun y => ([] : List α).flatMap fun x => f x y) = [] :=
      flatMap_nil_of_forall l2 _ (fun _ _ => rfl)
    rw [h]
    exact List.Perm.refl _
  | cons x l1 ih =>
    simp only [List.flatMap_cons]
    exact (ih.append_left _).trans (List.flatMap_append_perm l2 _ _)

theorem flatMap_map_swap {α β γ : Type} (l1 : List α) (l2 : List β) (f : α → β → γ) :
    (l1.flatMap fun x => l2.map fun y => f x y).Perm
      (l2.flatMap fun y => l1.map fun x => f x y) := by
  have h := flatMap_swap l1 l2 (fun x y => [f x y])
  simpa only [← List.map_eq_flatMap] using h

theorem choices_set (q S : List Nat) (p a : Nat) (h : ∀ j ∈ S, j ≠ p) :
    choices (q.set p a) S = choices q S := by
  unfold choices
  apply List.map_congr_left
  intro j hj
  have hne : p ≠ j := fun e => h j hj e.symm
  simp only [List.getD_eq_getElem?_getD, List.getElem?_set_ne hne]

theorem sublistsLen_mem_range' {S : List Nat} {d s n : Nat}
    (h : S ∈ List.sublistsLen d (List.range' (s + 1) n)) : ∀ j ∈ S, j ≠ s := by
  intro j hj
  have hsub := (List.mem_sublistsLen.mp h).1
  have := List.mem_range'_1.mp (hsub.subset hj)
  omega

/-- The pairs of a subset of the positions and an assignment give the variants,
up to their order. -/
theorem substitutions_perm_aux : ∀ (w pre : List Nat) (d : Nat),
    ((List.sublistsLen d (List.range' pre.length w.length)).flatMap (fun S =>
      (List.sections (choices (pre ++ w) S)).map (fun f => subst (pre ++ w) S f))).Perm
      ((variantsAt d w).map (fun v => pre ++ v))
  | [], pre, 0 => by
    simp [variantsAt, choices, subst]
  | [], pre, d + 1 => by
    simp [variantsAt]
  | c :: w, pre, 0 => by
    simp [variantsAt_zero, choices, subst]
  | c :: w, pre, d + 1 => by
    have hq : ∀ x, pre ++ x :: w = (pre ++ [x]) ++ w := by intro x; simp
    have hlen : ∀ x, pre.length + 1 = (pre ++ [x]).length := by intro x; simp
    simp only [List.length_cons, List.range'_succ, List.sublistsLen_succ_cons,
      List.flatMap_append, variantsAt, List.map_append, List.map_map, List.map_flatMap]
    apply List.Perm.append
    · have ih := substitutions_perm_aux w (pre ++ [c]) (d + 1)
      rw [← hq c, ← hlen c] at ih
      refine ih.trans (List.Perm.of_eq ?_)
      apply List.map_congr_left
      intro v _
      simp
    · rw [List.flatMap_map]
      have hstep : ∀ S ∈ List.sublistsLen d (List.range' (pre.length + 1) w.length),
          ((List.sections (choices (pre ++ c :: w) (pre.length :: S))).map
              (fun f => subst (pre ++ c :: w) (pre.length :: S) f)).Perm
            ((options.filter (fun x => decide (x ≠ c))).flatMap (fun a =>
              (List.sections (choices (pre ++ a :: w) S)).map
                (fun f => subst (pre ++ a :: w) S f))) := by
        intro S hS
        have hch : ∀ a, choices (pre ++ a :: w) S = choices (pre ++ c :: w) S := by
          intro a
          rw [← set_at_length pre c a w]
          exact choices_set _ S _ a (sublistsLen_mem_range' hS)
        have hunf : choices (pre ++ c :: w) (pre.length :: S)
            = options.filter (fun x => decide (x ≠ c)) :: choices (pre ++ c :: w) S := by
          simp only [choices, List.map_cons, getD_at_length]
        rw [hunf]
        simp only [List.sections, List.map_flatMap, List.map_map, hch]
        refine (flatMap_map_swap _ _ _).trans (List.Perm.of_eq ?_)
        congr 1
        funext a
        apply List.map_congr_left
        intro f _
        simp only [Function.comp, subst, set_at_length]
      refine (List.Perm.flatMap_left _ hstep).trans ?_
      refine (flatMap_swap _ _ _).trans ?_
      apply List.Perm.flatMap_left
      intro a _
      have ih := substitutions_perm_aux w (pre ++ [a]) d
      rw [← hq a, ← hlen a] at ih
      refine ih.trans (List.Perm.of_eq ?_)
      apply List.map_congr_left
      intro v _
      simp

theorem substitutions_perm (w : List Nat) (d : Nat) :
    (substitutions w d).Perm (variantsAt d w) := by
  have h := substitutions_perm_aux w [] d
  simpa [substitutions, List.range_eq_range'] using h

/-! ## The counts accumulated by `find_inexact` -/

theorem callsAt_cons (d : Nat) (c : Nat × List Nat) (calls : List (Nat × List Nat)) :
    callsAt d (c :: calls) = if c.1 = d then c.2 :: callsAt d calls else callsAt d calls := by
  by_cases h : c.1 = d <;> simp [callsAt, h]

theorem mem_callsAt {d : Nat} {q : List Nat} {calls : List (Nat × List Nat)} :
    q ∈ callsAt d calls ↔ (d, q) ∈ calls := by
  simp only [callsAt, List.mem_map, List.mem_filter, decide_eq_true_eq]
  constructor
  · rintro ⟨⟨d1, q1⟩, ⟨h1, h2⟩, h3⟩
    simp only at h2 h3
    subst h2; subst h3
    exact h1
  · intro h
    exact ⟨(d, q), ⟨h, rfl⟩, rfl⟩

theorem tally_some {tree : SuffixArray} {anchor : List Nat} {dstart : Int} {depth : Nat}
    {q counts counts1 : List Nat} (h : tally tree anchor dstart depth q counts = some counts1) :
    ∃ hits, count tree q anchor dstart = some hits ∧ depth < counts.length ∧
      counts1 = counts.set depth (counts.getD depth 0 + hits) := by
  unfold tally at h
  cases hc : count tree q anchor dstart with
  | none => simp [hc] at h
  | some hits =>
    cases ho : counts[depth]? with
    | none => simp [hc, ho] at h
    | some old =>
      simp only [hc, ho, Option.some.injEq] at h
      have hlt : depth < counts.length := by
        by_contra hge
        rw [List.getElem?_eq_none (by omega)] at ho
        cases ho
      refine ⟨hits, rfl, hlt, ?_⟩
      rw [← h]
      simp [List.getD, ho]

/-- The counts after a list of calls: each call added the value of `count` on its
query to the entry of its depth. -/
theorem runCalls_tally (tree : SuffixArray) (anchor : List Nat) (dstart : Int) :
    ∀ (calls : List (Nat × List Nat)) (counts counts1 : List Nat),
      runCalls (tally tree anchor dstart) counts calls = some counts1 →
      counts1.length = counts.length ∧
      (∀ c ∈ calls, (count tree c.2 anchor dstart).isSome) ∧
      ∀ d, counts1.getD d 0 = counts.getD d 0 +
        ((callsAt d calls).map (fun q => (count tree q anchor dstart).getD 0)).sum := by
  intro calls
  induction calls with
  | nil =>
    intro counts counts1 h
    rw [runCalls_nil] at h
    cases h
    exact ⟨rfl, fun c hc => absurd hc (List.not_mem_nil c), fun d => by simp [callsAt]⟩
  | cons c calls ih =>
    intro counts counts1 h
    rw [runCalls_cons] at h
    cases ht : tally tree anchor dstart c.1 c.2 counts with
    | none => simp [ht] at h
    | some counts2 =>
      rw [ht, Option.some_bind] at h
      obtain ⟨hits, hcount, hlt, hset⟩ := tally_some ht
      obtain ⟨h1, h2, h3⟩ := ih counts2 counts1 h
      refine ⟨?_, ?_, ?_⟩
      · rw [h1, hset, List.length_set]
      · intro x hx
        rcases List.mem_cons.mp hx with hx | hx
        · subst hx; simp [hcount]
        · exact h2 x hx
      · intro d
        rw [h3 d, hset, callsAt_cons]
        by_cases hd : c.1 = d
        · subst hd
          have hget : (counts.set c.1 (counts.getD c.1 0 + hits)).getD c.1 0
              = counts.getD c.1 0 + hits := by
            simp [List.getD, List.getElem?_set_self hlt]
          simp only [if_true, List.map_cons, List.sum_cons, hget, hcount, Option.getD_some]
          omega
        · have hget : (counts.set c.1 (counts.getD c.1 0 + hits)).getD d 0 = counts.getD d 0 := by
            simp only [List.getD_eq_getElem?_getD, List.getElem?_set_ne hd]
          simp only [hd, if_false, hget]

theorem runCalls_tally_returns (tree : SuffixArray) (anchor : List Nat) (dstart : Int) :
    ∀ (calls : List (Nat × List Nat)) (counts : List Nat),
      (∀ c ∈ calls, c.1 < counts.length ∧ (count tree c.2 anchor dstart).isSome) →
      ∃ counts1, runCalls (tally tree anchor dstart) counts calls = some counts1 := by
  intro calls
  induction calls with
  | nil => intro counts _; exact ⟨counts, rfl⟩
  | cons c calls ih =>
    intro counts h
    obtain ⟨hlt, hsome⟩ := h c (List.mem_cons_self _ _)
    obtain ⟨hits, hhits⟩ := Option.isSome_iff_exists.mp hsome
    rw [runCalls_cons]
    have ht : tally tree anchor dstart c.1 c.2 counts
        = some (counts.set c.1 (counts[c.1] + hits)) := by
      unfold tally
      simp [hhits, List.getElem?_eq_getElem hlt]
    rw [ht, Option.some_bind]
    exact ih _ (fun x hx => by
      rw [List.length_set]
      exact h x (List.mem_cons_of_mem _ hx))

theorem options_ne_zero : ∀ x ∈ options, x ≠ 0 := by decide

theorem zeroFree_of_forall₂ : ∀ (w v : List Nat),
    List.Forall₂ (fun c y => y = c ∨ y ∈ options) w v → ZeroFree w → ZeroFree v := by
  intro w v h
  induction h with
  | nil => intro _ x hx; exact absurd hx (List.not_mem_nil x)
  | @cons c y w v hy _ ih =>
    intro hw x hx
    rcases List.mem_cons.mp hx with hx | hx
    · subst hx
      rcases hy with hy | hy
      · rw [hy]; exact hw.head
      · exact options_ne_zero x hy
    · exact ih hw.tail x hx

/-- Every call of the traversal started on a window is at a depth up to the
maximum and on a variant of the window. -/
theorem mem_calls_window (w : List Nat) (L rem : Nat) (hL : L = w.length)
    (c : Nat × List Nat) (hc : c ∈ callsFrom L rem 0 (w ++ [0]) 0) :
    c.1 ≤ rem ∧ ∃ v, c.2 = v ++ [0] ∧ v ∈ variantsAt c.1 w := by
  have hmem : c.2 ∈ callsAt c.1 (callsFrom L rem 0 (w ++ [0]) 0) := mem_callsAt.mpr hc
  rw [(callsAt_window w L rem c.1 hL).mem_iff] at hmem
  by_cases hd : c.1 ≤ rem
  · simp only [hd, if_true, List.mem_map] at hmem
    obtain ⟨v, hv, hcv⟩ := hmem
    exact ⟨hd, v, hcv.symm, hv⟩
  · simp only [hd, if_false, List.not_mem_nil] at hmem

/-- On a well-formed index and window `find_inexact` returns. -/
theorem find_inexact_returns (T sa A w : List Nat) (dstart dend K : Int) (hK : 0 ≤ K)
    (hL : (w.length : Int) = dend - dstart) (hT : ZeroFree T) (hv : ValidEntries T sa)
    (hw : ZeroFree w) (hne : w ≠ []) (hA : ZeroFree A) (hd : dstart ≤ 0)
    (hdef : A = [] ∨ 0 ≤ dend) :
    ∃ counts1, find_inexact (mkTree T sa) dstart dend K 0 (List.replicate (K + 1).toNat 0)
        (w ++ [0]) 0 (A ++ [0]) = some (counts1, w ++ [0]) := by
  have hLn : (dend - dstart).toNat = w.length := by omega
  rw [find_inexact_eq _ _ dstart dend K hK (w ++ [0]) _ (by simp [hLn])]
  obtain ⟨counts1, h⟩ := runCalls_tally_returns (mkTree T sa) (A ++ [0]) dstart
    (callsFrom (dend - dstart).toNat K.toNat 0 (w ++ [0]) 0) (List.replicate (K + 1).toNat 0)
    (by
      intro c hc
      obtain ⟨h1, v, h2, h3⟩ := mem_calls_window w _ K.toNat hLn c hc
      have hf := (mem_variantsAt w c.1 v).mp h3
      have hlen : v.length = w.length := forall₂_length_eq hf.1
      have hvne : v ≠ [] := by
        intro e; rw [e] at hlen
        exact hne (List.length_eq_zero.mp hlen.symm)
      refine ⟨by rw [List.length_replicate]; omega, ?_⟩
      rw [h2]
      obtain ⟨n, hn⟩ := count_returns T sa v A dstart hT hv (zeroFree_of_forall₂ w v hf.1 hw)
        hvne hA hd (by rcases hdef with h | h
                       · exact Or.inl h
                       · right; omega)
      simp [hn])
  exact ⟨counts1, by rw [h]; rfl⟩

/-- C4 (counting semantics of the enumerator relative to `count`): when
`find_inexact` returns from the call on a window `w` with `counts` all zero,
the buffer is unchanged, `counts` has `K + 1` entries and for each `d ≤ K`
`count` returned on every string obtained from `w` by a `d`-element subset of
positions and an assignment of non-original letters, and `counts[d]` is the sum
of the values of `count` on these strings; on a well-formed index and window
`find_inexact` returns. -/
theorem find_inexact_counts (tree : SuffixArray) (anchor w : List Nat) (dstart dend K : Int)
    (hK : 0 ≤ K) (hL : (w.length : Int) = dend - dstart) :
    (∀ counts1 q1, find_inexact tree dstart dend K 0 (List.replicate (K + 1).toNat 0)
        (w ++ [0]) 0 anchor = some (counts1, q1) →
      q1 = w ++ [0] ∧ counts1.length = (K + 1).toNat ∧
      ∀ d : Nat, (d : Int) ≤ K →
        (∀ v ∈ substitutions w d, (count tree (v ++ [0]) anchor dstart).isSome) ∧
        counts1[d]? = some (((substitutions w d).map
          (fun v => (count tree (v ++ [0]) anchor dstart).getD 0)).sum)) ∧
    (∀ T sa A, tree = mkTree T sa → anchor = A ++ [0] → ZeroFree T → ValidEntries T sa →
      ZeroFree w → w ≠ [] → ZeroFree A → dstart ≤ 0 → (A = [] ∨ 0 ≤ dend) →
      ∃ counts1, find_inexact tree dstart dend K 0 (List.replicate (K + 1).toNat 0)
        (w ++ [0]) 0 anchor = some (counts1, w ++ [0])) := by
  have hLn : (dend - dstart).toNat = w.length := by omega
  constructor
  · intro counts1 q1 h
    rw [find_inexact_eq _ _ dstart dend K hK (w ++ [0]) _ (by simp [hLn])] at h
    cases hr : runCalls (tally tree anchor dstart) (List.replicate (K + 1).toNat 0)
        (callsFrom (dend - dstart).toNat K.toNat 0 (w ++ [0]) 0) with
    | none => simp [hr] at h
    | some c1 =>
      rw [hr] at h
      simp only [Option.map_some', Option.some.injEq, Prod.mk.injEq] at h
      obtain ⟨hc, hq⟩ := h
      subst hc
      obtain ⟨h1, h2, h3⟩ := runCalls_tally tree anchor dstart _ _ _ hr
      rw [List.length_replicate] at h1
      refine ⟨hq.symm, h1, ?_⟩
      intro d hd
      have hdr : d ≤ K.toNat := by omega
      have hperm := callsAt_window w (dend - dstart).toNat K.toNat d hLn
      simp only [hdr, if_true] at hperm
      have hperm2 : (callsAt d (callsFrom (dend - dstart).toNat K.toNat 0 (w ++ [0]) 0)).Perm
          ((substitutions w d).map (fun v => v ++ [0])) :=
        hperm.trans ((substitutions_perm w d).symm.map _)
      constructor
      · intro v hv
        have hmem : v ++ [0] ∈ callsAt d (callsFrom (dend - dstart).toNat K.toNat 0
            (w ++ [0]) 0) :=
          hperm2.mem_iff.mpr (List.mem_map.mpr ⟨v, hv, rfl⟩)
        exact h2 (d, v ++ [0]) (mem_callsAt.mp hmem)
      · have hsum := h3 d
        have hzero : (List.replicate (K + 1).toNat 0).getD d 0 = 0 := by
          have hlt0 : d < (List.replicate (K + 1).toNat 0).length := by
            rw [List.length_replicate]; omega
          rw [List.getD_eq_getElem _ _ hlt0, List.getElem_replicate]
        rw [hzero, Nat.zero_add, (hperm2.map _).sum_eq, List.map_map] at hsum
        have hlt : d < c1.length := by omega
        rw [List.getElem?_eq_getElem hlt]
        rw [List.getD_eq_getElem _ _ hlt] at hsum
        rw [hsum]
        rfl
  · intro T sa A ht ha hT hv hw hne hA hd hdef
    subst ht; subst ha
    exact find_inexact_returns T sa A w dstart dend K hK hL hT hv hw hne hA hd hdef

theorem find_inexact_counts_witness :
    (∀ counts1 q1, find_inexact (mkTree (bytes "ACAC") [2, 0, 3, 1]) (-2) 0 1 0
        (List.replicate ((1 : Int) + 1).toNat 0) (bytes "AC" ++ [0]) 0 (cstr "") = some (counts1, q1) →
      q1 = bytes "AC" ++ [0] ∧ counts1.length = ((1 : Int) + 1).toNat ∧
      ∀ d : Nat, (d : Int) ≤ 1 →
        (∀ v ∈ substitutions (bytes "AC") d,
          (count (mkTree (bytes "ACAC") [2, 0, 3, 1]) (v ++ [0]) (cstr "") (-2)).isSome) ∧
        counts1[d]? = some (((substitutions (bytes "AC") d).map
          (fun v => (count (mkTree (bytes "ACAC") [2, 0, 3, 1]) (v ++ [0]) (cstr "")
            (-2)).getD 0)).sum)) ∧
    (∀ T sa A, mkTree (bytes "ACAC") [2, 0, 3, 1] = mkTree T sa → cstr "" = A ++ [0] →
      ZeroFree T → ValidEntries T sa →
      ZeroFree (bytes "AC") → bytes "AC" ≠ [] → ZeroFree A → (-2 : Int) ≤ 0 →
      (A = [] ∨ (0 : Int) ≤ 0) →
      ∃ counts1, find_inexact (mkTree (bytes "ACAC") [2, 0, 3, 1]) (-2) 0 1 0
        (List.replicate ((1 : Int) + 1).toNat 0) (bytes "AC" ++ [0]) 0 (cstr "")
          = some (counts1, bytes "AC" ++ [0])) :=
  find_inexact_counts (mkTree (bytes "ACAC") [2, 0, 3, 1]) (cstr "") (bytes "AC") (-2) 0 1
    (by decide) (by decide)

/-! ## `find_mismatches` -/

theorem strndup_terminated : ∀ (n : Nat) (s r : List Nat), ZeroFree s →
    strndup (s ++ 0 :: r) n = some (s.take n ++ [0])
  | 0, _, _, _ => by simp [strndup]
  | n + 1, [], r, _ => by simp [strndup]
  | n + 1, c :: s, r, hs => by
    have hc : c ≠ 0 := hs.head
    simp [strndup, hc, strndup_terminated n s r hs.tail]

theorem size_t_of_small (x : Int) (h0 : 0 ≤ x) (h1 : x < 2 ^ 64) : size_t x = x.toNat := by
  unfold size_t
  rw [Int.emod_eq_of_lt h0 h1]

theorem wrapInt_of_range (x : Int) (h0 : -(2 ^ 31) ≤ x) (h1 : x < 2 ^ 31) : wrapInt x = x := by
  unfold wrapInt
  omega

theorem wrapInt_lower (x : Int) : -(2 ^ 31) ≤ wrapInt x := by
  unfold wrapInt
  omega

theorem wrapLong_of_range (x : Int) (h0 : -(2 ^ 63) ≤ x) (h1 : x < 2 ^ 63) :
    wrapLong x = x := by
  unfold wrapLong
  omega

theorem wrapLong_le (x : Int) (h : -(2 ^ 63) ≤ x) : wrapLong x ≤ x := by
  unfold wrapLong
  omega

/-- The length handed to `strndup` for a validated window of `int` bounds is
not zero. -/
theorem window_size_pos {dstart dend : Int} (hwin : dstart < dend) (hend : dend ≤ 0)
    (hint : -(2 ^ 31) ≤ dstart) : size_t (wrapInt (dend - dstart)) ≠ 0 := by
  unfold size_t wrapInt
  omega

theorem strndup_nil_pos {n : Nat} (hn : n ≠ 0) : strndup [] n = none := by
  cases n with
  | zero => exact absurd rfl hn
  | succ n => rfl

/-- What a task that emits a pair has done: the anchor was not skipped, the
counts were allocated, the window was cut and the traversal returned. -/
theorem anchorTask_some {tree other : SuffixArray} {anchorText : List Nat}
    {K dstart dend a : Int} {p : Int × List Nat}
    (h : anchorTask tree anchorText K dstart dend other a = some (some p)) :
    wrapInt (-dstart) ≤ a ∧ 0 ≤ wrapInt (K + 1) ∧ ∃ query st,
      strndup (ptrAdd tree._text (wrapLong (a + dstart)))
        (size_t (wrapInt (dend - dstart))) = some query ∧
      find_inexact other dstart dend K 0 (List.replicate (wrapInt (K + 1)).toNat 0) query 0
        anchorText = some st ∧ p = (a, st.1) := by
  unfold anchorTask at h
  by_cases hskip : a < wrapInt (-dstart)
  · rw [if_pos hskip] at h
    cases h
  · rw [if_neg hskip] at h
    unfold allocCounts at h
    by_cases hK : wrapInt (K + 1) < 0
    · simp [hK] at h
    · simp only [hK, if_false] at h
      cases hdup : strndup (ptrAdd tree._text (wrapLong (a + dstart)))
          (size_t (wrapInt (dend - dstart))) with
      | none => simp [hdup] at h
      | some query =>
        cases hfi : find_inexact other dstart dend K 0
            (List.replicate (wrapInt (K + 1)).toNat 0) query 0 anchorText with
        | none => simp [hdup, hfi] at h
        | some st =>
          simp only [hdup, hfi, Option.some.injEq] at h
          exact ⟨by omega, by omega, query, st, rfl, hfi, h.symm⟩

/-- A task that emits a pair for a validated window of `int` bounds has cut the
window at a position inside the text: `a + dstart` is not negative. -/
theorem anchorTask_some_offset {tree other : SuffixArray} {anchorText : List Nat}
    {K dstart dend a : Int} {p : Int × List Nat} (hwin : dstart < dend) (hend : dend ≤ 0)
    (hint : -(2 ^ 31) ≤ dstart)
    (h : anchorTask tree anchorText K dstart dend other a = some (some p)) :
    0 ≤ a + dstart := by
  obtain ⟨hskip, _, query, st, hdup, _, _⟩ := anchorTask_some h
  have hlow := wrapInt_lower (-dstart)
  by_cases hneg : wrapLong (a + dstart) < 0
  · unfold ptrAdd at hdup
    rw [if_pos hneg, strndup_nil_pos (window_size_pos hwin hend hint)] at hdup
    cases hdup
  · have := wrapLong_le (a + dstart) (by omega)
    omega

theorem anchorTask_returns (Ta saA T sa A : List Nat) (K dstart dend : Int) (a : Int)
    (hK : 0 ≤ K) (hKmax : K < 2 ^ 31 - 1) (hwin : dstart < dend) (hend : dend ≤ 0)
    (hint : -(2 ^ 31) < dstart) (hlen : (Ta.length : Int) < 2 ^ 31)
    (hTa : ZeroFree Ta) (ha : a + dend ≤ Ta.length) (hT : ZeroFree T)
    (hv : ValidEntries T sa) (hA : ZeroFree A) (hdef : A = [] ∨ 0 ≤ dend) :
    ∃ r, anchorTask (mkTree Ta saA) (A ++ [0]) K dstart dend (mkTree T sa) a = some r := by
  unfold anchorTask
  rw [wrapInt_of_range (-dstart) (by omega) (by omega)]
  by_cases hskip : a < -dstart
  · simp only [hskip, if_true]
    exact ⟨none, rfl⟩
  · simp only [hskip, if_false]
    have hal : allocCounts K = some (List.replicate (K + 1).toNat 0) := by
      unfold allocCounts
      rw [wrapInt_of_range (K + 1) (by omega) (by omega)]
      have : ¬ (K + 1 < 0) := by omega
      simp only [this, if_false]
    have hidx : (a + dstart).toNat ≤ Ta.length := by omega
    have hsize : size_t (wrapInt (dend - dstart)) = (dend - dstart).toNat := by
      rw [wrapInt_of_range (dend - dstart) (by omega) (by omega)]
      exact size_t_of_small _ (by omega) (by omega)
    have hptr : ptrAdd (mkTree Ta saA)._text (wrapLong (a + dstart))
        = Ta.drop (a + dstart).toNat ++ [0] := by
      rw [wrapLong_of_range (a + dstart) (by omega) (by omega)]
      unfold ptrAdd
      rw [if_neg (by omega), mkTree_text, text_drop Ta _ hidx]
    have hdup : strndup (ptrAdd (mkTree Ta saA)._text (wrapLong (a + dstart)))
        (size_t (wrapInt (dend - dstart)))
        = some ((Ta.drop (a + dstart).toNat).take (dend - dstart).toNat ++ [0]) := by
      rw [hptr, hsize]
      exact strndup_terminated _ _ [] (hTa.drop _)
    have hwl : (((Ta.drop (a + dstart).toNat).take (dend - dstart).toNat).length : Int)
        = dend - dstart := by
      rw [List.length_take, List.length_drop]
      omega
    have hwz : ZeroFree ((Ta.drop (a + dstart).toNat).take (dend - dstart).toNat) :=
      fun x hx => hTa.drop _ x (List.mem_of_mem_take hx)
    have hwne : (Ta.drop (a + dstart).toNat).take (dend - dstart).toNat ≠ [] := by
      intro e
      rw [e] at hwl
      simp at hwl
      omega
    obtain ⟨counts1, hfi⟩ := find_inexact_returns T sa A _ dstart dend K hK hwl hT hv hwz hwne
      hA (by omega) hdef
    simp only [hal, hdup, hfi]
    exact ⟨_, rfl⟩

theorem find_mismatches_returns (Ta saA T sa A : List Nat) (K dstart dend : Int)
    (hK : 0 ≤ K) (hKmax : K < 2 ^ 31 - 1) (hwin : dstart < dend) (hend : dend ≤ 0)
    (hint : -(2 ^ 31) < dstart) (hlen : (Ta.length : Int) < 2 ^ 31)
    (hTa : ZeroFree Ta) (hT : ZeroFree T) (hv : ValidEntries T sa) (hA : ZeroFree A)
    (hdef : A = [] ∨ 0 ≤ dend) :
    ∀ (anchors : List Int), (∀ a ∈ anchors, a + dend ≤ Ta.length) →
      ∃ out, find_mismatches (mkTree Ta saA) (A ++ [0]) K dstart dend (mkTree T sa) anchors
        = some out := by
  intro anchors
  induction anchors with
  | nil => intro _; exact ⟨[], rfl⟩
  | cons a anchors ih =>
    intro ha
    obtain ⟨r, hr⟩ := anchorTask_returns Ta saA T sa A K dstart dend a hK hKmax hwin hend hint
      hlen hTa (ha a (List.mem_cons_self _ _)) hT hv hA hdef
    obtain ⟨list, hlist⟩ := ih (fun x hx => ha x (List.mem_cons_of_mem _ hx))
    unfold find_mismatches
    simp only [hr, hlist]
    cases r with
    | none => exact ⟨list, rfl⟩
    | some p => exact ⟨p :: list, rfl⟩

/-- At `dstart = INT_MIN` the negation of the skip test overflows: an anchor in
the range of `int` is not skipped, the window is cut before the text and the
call faults.  At `K = INT_MAX` the sum `maxDistance + 1` overflows and no
`counts` buffer is obtained. -/
theorem find_mismatches_overflow :
    find_mismatches (mkTree (bytes "AC") [0, 1]) (cstr "") 0 (-(2 ^ 31)) 0
      (mkTree (bytes "AC") [0, 1]) [1] = none ∧
    find_mismatches (mkTree (bytes "AC") [0, 1]) (cstr "") 0 (-(2 ^ 31) + 1) 0
      (mkTree (bytes "AC") [0, 1]) [1] = some [] ∧
    find_mismatches (mkTree (bytes "AC") [0, 1]) (cstr "") (2 ^ 31 - 1) (-1) 0
      (mkTree (bytes "AC") [0, 1]) [1] = none ∧
    allocCounts (2 ^ 31 - 1) = none := by
  refine ⟨by decide, by decide, by decide, by decide⟩

/-- Scenario 4: the only anchor is skipped and the result is the empty list. -/
theorem scenario4_empty :
    find_mismatches (mkTree (bytes "AAACAAA") [6, 5, 4, 0, 1, 2, 3]) (cstr "") 1 (-3) 0
      (mkTree (bytes "AAACAAA") [6, 5, 4, 0, 1, 2, 3]) [0] = some [] := by
  decide

/-- C1 (locate completeness), evaluated on the specification's own scenarios:
on `banana` with its sorted suffix array `find` returns only offset 4 for
`na`, which occurs at 2 and 4, and on `AAAA` it returns 2, 3, 1 for `A`, which
occurs at 0, 1, 2, 3; `ana` is located in full. -/
theorem find_misses_last_rank :
    IsSuffixArray (bytes "banana") [5, 3, 1, 0, 4, 2] ∧
    find (mkTree (bytes "banana") [5, 3, 1, 0, 4, 2]) (cstr "na") 2 = some [4] ∧
    occurrences (bytes "banana") (bytes "na") = [2, 4] ∧
    find (mkTree (bytes "banana") [5, 3, 1, 0, 4, 2]) (cstr "ana") 3 = some [1, 3] ∧
    occurrences (bytes "banana") (bytes "ana") = [1, 3] ∧
    IsSuffixArray (bytes "AAAA") [3, 2, 1, 0] ∧
    find (mkTree (bytes "AAAA") [3, 2, 1, 0]) (cstr "A") 1 = some [2, 3, 1] ∧
    occurrences (bytes "AAAA") (bytes "A") = [0, 1, 2, 3] := by
  refine ⟨⟨by decide, by decide⟩, by decide, by decide, by decide, by decide,
    ⟨by decide, by decide⟩, by decide, by decide⟩

/-- C10 (vacuous prefix), evaluated on `T' = ACC` with sorted suffix array
`[0, 2, 1]`: `count` returns 0 for the query `CC` with an empty anchor text,
although `CC` occurs at offset 1. -/
theorem count_misses_high_rank :
    IsSuffixArray (bytes "ACC") [0, 2, 1] ∧
    count (mkTree (bytes "ACC") [0, 2, 1]) (cstr "CC") (cstr "") (-2) = some 0 ∧
    occurrences (bytes "ACC") (bytes "CC") = [1] := by
  refine ⟨⟨by decide, by decide⟩, by decide, by decide⟩

/-- C3 (agreement with the brute-force oracle), evaluated on scenario 5: the
emitted vector is `[2, 3]`, while the nine single-substitution variants of
`AAA` occur 4 times in `AAACAAAC` (2 times at offsets `o ≥ 3`). -/
theorem scenario5_disagrees_with_oracle :
    IsSuffixArray (bytes "AAACAAAC") [4, 0, 5, 1, 6, 2, 7, 3] ∧
    find_mismatches (mkTree (bytes "XAAAC") [1, 2, 3, 4, 0]) (cstr "") 1 (-3) 0
      (mkTree (bytes "AAACAAAC") [4, 0, 5, 1, 6, 2, 7, 3]) [4] = some [(4, [2, 3])] ∧
    oracle (bytes "AAACAAAC") (fun _ => true) (bytes "AAA") 1 = 4 ∧
    oracle (bytes "AAACAAAC") (fun o => decide (3 ≤ o)) (bytes "AAA") 1 = 2 ∧
    oracle (bytes "AAACAAAC") (fun _ => true) (bytes "AAA") 0 = 2 := by
  refine ⟨⟨by decide, by decide⟩, by decide, by decide, by decide, by decide⟩

/-- C9 (negative K is rejected), evaluated at `K = -1` with a valid window:
no exception is raised; with no anchor the empty list is returned, and with an
anchor the search runs and writes `counts[0]` outside the empty `counts`
buffer. -/
theorem negative_K_not_rejected :
    Tree_find_repeat_counts (fun _ _ => [0, 1]) (mkTree (bytes "AC") [0, 1]) []
      (cstr "") (-1) (-1) 0 (cstr "AC") = Except.ok (some []) ∧
    Tree_find_repeat_counts (fun _ _ => [0, 1]) (mkTree (bytes "AC") [0, 1]) [1]
      (cstr "") (-1) (-1) 0 (cstr "AC") = Except.ok none := by
  refine ⟨rfl, rfl⟩

/-- C8 (window validation): `find_repeat_counts` raises an exception exactly
when `dstart ≥ dend` or `dstart > 0` or `dend > 0`, the exception is
`ValueError`, and otherwise the call proceeds to the search. -/
theorem window_validation (sais : List Nat → Nat → List Nat) (tree : SuffixArray)
    (anchors : List Int) (anchorText : List Nat) (K dstart dend : Int) (text : List Nat) :
    ((∃ e, Tree_find_repeat_counts sais tree anchors anchorText K dstart dend text
        = Except.error e) ↔ (dstart ≥ dend ∨ dstart > 0 ∨ dend > 0)) ∧
    (∀ e, Tree_find_repeat_counts sais tree anchors anchorText K dstart dend text
        = Except.error e → e = PyExc.ValueError) ∧
    ((dstart < dend ∧ dstart ≤ 0 ∧ dend ≤ 0) →
      Tree_find_repeat_counts sais tree anchors anchorText K dstart dend text
        = match strlen text with
          | none => Except.ok none
          | some n => Except.ok (find_mismatches tree anchorText K dstart dend
              { _text := text, _suffixArray := sais text n, _length := (n : Int) } anchors)) := by
  unfold Tree_find_repeat_counts
  refine ⟨?_, ?_, ?_⟩
  · by_cases h1 : dstart ≥ dend
    · simp [h1]
    · by_cases h2 : dstart ≥ 0 ∨ dend > 0
      · simp only [h1, h2, if_true, if_false]
        constructor
        · intro _; omega
        · intro _; exact ⟨_, rfl⟩
      · simp only [h1, h2, if_false]
        constructor
        · rintro ⟨e, he⟩; cases hs : strlen text <;> simp [hs] at he
        · rintro (h | h | h)
          · exact h.elim
          · exfalso; omega
          · exfalso; omega
  · intro e he
    by_cases h1 : dstart ≥ dend
    · simp [h1] at he; exact he.symm
    · by_cases h2 : dstart ≥ 0 ∨ dend > 0
      · simp only [h1, h2, if_true, if_false] at he
        cases he; rfl
      · simp only [h1, h2, if_false] at he
        cases hs : strlen text <;> simp [hs] at he
  · rintro ⟨h1, h2, h3⟩
    have h1' : ¬ dstart ≥ dend := by omega
    have h2' : ¬ (dstart ≥ 0 ∨ dend > 0) := by omega
    simp only [h1', h2', if_false]

/-! ## The empty pattern and the literal scenarios -/

/-- C13 (empty pattern): on every index `find_anchors` returns the empty list
for the empty pattern, that is for every query buffer that starts with the
terminator; `find` is called for the other patterns only, and the test of
`query[0]` is what keeps the positions out: on `banana`, `find` with a query of
length 0 appends five of the six positions. -/
theorem find_anchors_empty (tree : SuffixArray) (rest : List Nat) :
    Tree_find_anchors tree (0 :: rest) = some [] ∧
    (∀ c, c ≠ 0 → Tree_find_anchors tree (c :: rest)
      = match strlen (c :: rest) with
        | none => none
        | some n => find tree (c :: rest) n) ∧
    find (mkTree (bytes "banana") [5, 3, 1, 0, 4, 2]) (cstr "") 0 = some [1, 3, 5, 0, 4] := by
  refine ⟨?_, ?_, ?_⟩
  · unfold Tree_find_anchors
    simp only [List.getElem?_cons_zero, ne_eq, not_true_eq_false, if_false]
  · intro c hc
    unfold Tree_find_anchors
    simp only [List.getElem?_cons_zero, ne_eq, hc, not_false_eq_true, if_true]
  · decide

/-- C14 (scenario 5, literal value), as stated, fails: the emitted vector does
not hold 3 at index 0. -/
theorem scenario5_counts0_not_three :
    ¬ ∃ counts, find_mismatches (mkTree (bytes "XAAAC") [1, 2, 3, 4, 0]) (cstr "") 1 (-3) 0
        (mkTree (bytes "AAACAAAC") [4, 0, 5, 1, 6, 2, 7, 3]) [4] = some [(4, counts)] ∧
      counts[0]? = some 3 := by
  rintro ⟨counts, h1, h2⟩
  have h : find_mismatches (mkTree (bytes "XAAAC") [1, 2, 3, 4, 0]) (cstr "") 1 (-3) 0
      (mkTree (bytes "AAACAAAC") [4, 0, 5, 1, 6, 2, 7, 3]) [4] = some [(4, [2, 3])] := by
    decide
  rw [h] at h1
  simp only [Option.some.injEq, List.cons.injEq, Prod.mk.injEq, and_true, true_and] at h1
  subst h1
  simp at h2

/-- C14 (scenario 5, literal value), with the value corrected: exactly one
pair `(4, counts)` is emitted, the window is `AAA`, and `counts[0] = 2`, the
number of occurrences of `AAA` in `AAACAAAC` (offsets 0 and 4; offset 5 carries
`AAC`). -/
theorem scenario5_counts0 :
    IsSuffixArray (bytes "AAACAAAC") [4, 0, 5, 1, 6, 2, 7, 3] ∧
    strndup ((mkTree (bytes "XAAAC") [1, 2, 3, 4, 0])._text.drop 1) 3 = some (cstr "AAA") ∧
    (∃ counts, find_mismatches (mkTree (bytes "XAAAC") [1, 2, 3, 4, 0]) (cstr "") 1 (-3) 0
        (mkTree (bytes "AAACAAAC") [4, 0, 5, 1, 6, 2, 7, 3]) [4] = some [(4, counts)] ∧
      counts[0]? = some 2) ∧
    occurrences (bytes "AAACAAAC") (bytes "AAA") = [0, 4] ∧
    occursAt (bytes "AAACAAAC") (bytes "AAC") 5 := by
  refine ⟨⟨by decide, by decide⟩, by decide, ⟨[2, 3], by decide, by decide⟩, by decide,
    by decide⟩

/-- C20 (prefix comparison inside the target text), evaluated on the window
`dstart = -2`, `dend = -1` with target text `AC`, query `C` and anchor text
`A`: the query matches at offset 1, the comparison with the anchor text starts
at index `1 - dstart = 3`, beyond the terminator at index `N = 2`, and the call
of `find_repeat_counts` that leads there passes the validation. -/
theorem anchor_comparison_outside_text :
    IsSuffixArray (bytes "AC") [0, 1] ∧
    occursAt (bytes "AC") (bytes "C") 1 ∧
    ((1 : Int) - (-2) > ((bytes "AC").length : Int)) ∧
    anchorMatches (mkTree (bytes "AC") [0, 1]) (cstr "A") 1 (-2) 1 = none ∧
    count (mkTree (bytes "AC") [0, 1]) (cstr "C") (cstr "A") (-2) = none ∧
    Tree_find_repeat_counts (fun _ _ => [0, 1]) (mkTree (bytes "CTA") [2, 0, 1]) [2]
      (cstr "A") 0 (-2) (-1) (cstr "AC") = Except.ok none := by
  refine ⟨⟨by decide, by decide⟩, by decide, by decide, by decide, by decide, rfl⟩

/-! ## The suffix array of the index constructor -/

/-- When no rank up to `N - |P|` carries a match, the binary search of `count`
ends without a hit and `count` returns 0. -/
theorem count_zero_of_high_ranks (T sa P A : List Nat) (dstart : Int) (hT : ZeroFree T)
    (hv : ValidEntries T sa) (hP : ZeroFree P) (hne : P ≠ []) (hA : ZeroFree A)
    (hd : dstart ≤ 0) (hdef : A = [] ∨ -dstart ≤ P.length)
    (hhigh : ∀ i : Nat, (i : Int) ≤ (T.length : Int) - P.length → matchAt T sa P i = false) :
    count (mkTree T sa) (P ++ [0]) (A ++ [0]) dstart = some 0 := by
  have hpos : 0 < P.length := List.length_pos.mpr hne
  rw [count_unfold T sa P A dstart hP hA]
  obtain ⟨n, hn, hval⟩ := countLoop_run T sa P A dstart hT hv hP hne hA hd hdef
    (T.length + 1) 0 ((T.length : Int) - (P.length : Int)) 0 (le_refl _) (by omega)
    (by push_cast; omega)
  rw [hn]
  rcases hval with ⟨hn0, _⟩ | ⟨c, _, hc1, hmc, _⟩
  · rw [hn0]
  · rw [hhigh c hc1] at hmc
    cases hmc

/-- C18 (what `count` computes): for a text without zero bytes with its sorted
suffix array, a non-empty query `P` of length `m`, an anchor text `A` and
`s ≤ 0` with `-s ≤ m`, `count` returns the number of offsets `o` with
`T[o..o+m] = P` and `T[o-s..o-s+|A|] = A` when a suffix that begins with `P`
has a rank of at most `N - m`, and returns 0 when every suffix that begins with
`P` has a rank above `N - m`. -/
theorem count_computes (T sa P A : List Nat) (s : Int) (hT : ZeroFree T)
    (hsa : IsSuffixArray T sa) (hP : ZeroFree P) (hne : P ≠ []) (hA : ZeroFree A)
    (hs : s ≤ 0) (hm : -s ≤ P.length) :
    ((∃ i : Nat, i < T.length ∧ (i : Int) ≤ (T.length : Int) - P.length ∧
        occursAt T P (sa.getD i 0)) →
      count (mkTree T sa) (P ++ [0]) (A ++ [0]) s
        = some (countWithAnchorAfter T P A (-s).toNat)) ∧
    ((∀ i : Nat, i < T.length → occursAt T P (sa.getD i 0) →
        (T.length : Int) - P.length < i) →
      count (mkTree T sa) (P ++ [0]) (A ++ [0]) s = some 0) := by
  have hv := validEntries_of_perm T sa hsa.1
  have hpos : 0 < P.length := List.length_pos.mpr hne
  constructor
  · rintro ⟨i, _, hi, hocc⟩
    exact count_value_of_rank T sa P A s hT hsa hP hne hA hs (Or.inr hm) i hi hocc
  · intro hhigh
    apply count_zero_of_high_ranks T sa P A s hT hv hP hne hA hs (Or.inr hm)
    intro i hi
    cases hmi : matchAt T sa P i with
    | false => rfl
    | true =>
      exfalso
      have hocc : occursAt T P (sa.getD i 0) := by simpa [matchAt] using hmi
      have := hhigh i (by omega) hocc
      omega

theorem count_computes_witness :
    ((∃ i : Nat, i < (bytes "ACC").length ∧
        (i : Int) ≤ ((bytes "ACC").length : Int) - (bytes "CC").length ∧
        occursAt (bytes "ACC") (bytes "CC") (([0, 2, 1] : List Nat).getD i 0)) →
      count (mkTree (bytes "ACC") [0, 2, 1]) (bytes "CC" ++ [0]) (bytes "" ++ [0]) (-2)
        = some (countWithAnchorAfter (bytes "ACC") (bytes "CC") (bytes "") (-(-2 : Int)).toNat)) ∧
    ((∀ i : Nat, i < (bytes "ACC").length →
        occursAt (bytes "ACC") (bytes "CC") (([0, 2, 1] : List Nat).getD i 0) →
        ((bytes "ACC").length : Int) - (bytes "CC").length < i) →
      count (mkTree (bytes "ACC") [0, 2, 1]) (bytes "CC" ++ [0]) (bytes "" ++ [0]) (-2)
        = some 0) :=
  count_computes (bytes "ACC") [0, 2, 1] (bytes "CC") (bytes "") (-2) (by decide)
    ⟨by decide, by decide⟩ (by decide) (by decide) (by decide) (by decide) (by decide)

/-! ## Invariants of the traversal -/

theorem enumerate_eq_enumerateCS {σ : Type} (visit : Nat → List Nat → σ → Option σ)
    (dstart dend K : Int) :
    ∀ (fuel depth : Nat) (s : σ) (q : List Nat) (cs : Nat),
      enumerate visit dstart dend K fuel depth s q cs
        = enumerateCS (fun d _ q1 s1 => visit d q1 s1) dstart dend K fuel depth s q cs := by
  intro fuel
  induction fuel with
  | zero => intro depth s q cs; rfl
  | succ fuel ih =>
    intro depth s q cs
    unfold enumerate enumerateCS
    have hfun : (fun s2 q1 cs1 => enumerate visit dstart dend K fuel (depth + 1) s2 q1 cs1)
        = (fun s2 q1 cs1 =>
            enumerateCS (fun d _ q2 s3 => visit d q2 s3) dstart dend K fuel (depth + 1) s2 q1 cs1) := by
      funext s2 q1 cs1
      exact ih (depth + 1) s2 q1 cs1
    rw [hfun]

theorem writeAt_some {buf : List Nat} {i c : Nat} {r : List Nat} (h : writeAt buf i c = some r) :
    i < buf.length ∧ r = buf.set i c := by
  unfold writeAt at h
  by_cases hi : i < buf.length
  · rw [if_pos hi] at h
    exact ⟨hi, (Option.some.inj h).symm⟩
  · rw [if_neg hi] at h
    cases h

theorem optionLoop_inv {σ : Type} (I : σ → Prop)
    (recurse : σ → List Nat → Nat → Option (σ × List Nat)) (i original : Nat)
    (hrec : ∀ s q r, recurse s q (i + 1) = some r → I s → I r.1) :
    ∀ (opts : List Nat) (st r : σ × List Nat),
      optionLoop recurse i original opts st = some r → I st.1 → I r.1 := by
  intro opts
  induction opts with
  | nil =>
    intro st r h hI
    simp only [optionLoop, Option.some.injEq] at h
    subst h; exact hI
  | cons o rest ih =>
    intro st r h hI
    unfold optionLoop at h
    by_cases ho : o = original
    · rw [if_pos ho] at h
      exact ih st r h hI
    · rw [if_neg ho] at h
      cases hw : writeAt st.2 i o with
      | none => simp [hw] at h
      | some q1 =>
        cases hr : recurse st.1 q1 (i + 1) with
        | none => simp [hw, hr] at h
        | some st1 =>
          simp only [hw, hr] at h
          exact ih st1 r h (hrec st.1 q1 st1 hr hI)

theorem positionLoop_inv {σ : Type} (I : σ → Prop)
    (recurse : σ → List Nat → Nat → Option (σ × List Nat)) (dstart dend : Int) (i0 : Nat)
    (hrec : ∀ s q j r, i0 ≤ j → dstart + (j : Int) < dend →
      recurse s q (j + 1) = some r → I s → I r.1) :
    ∀ (fuel i : Nat) (st r : σ × List Nat), i0 ≤ i →
      positionLoop recurse dstart dend fuel i st = some r → I st.1 → I r.1 := by
  intro fuel
  induction fuel with
  | zero =>
    intro i st r _ h hI
    unfold positionLoop at h
    by_cases hc : dstart + (i : Int) < dend
    · rw [if_pos hc] at h; cases h
    · rw [if_neg hc] at h
      simp only [Option.some.injEq] at h
      subst h; exact hI
  | succ fuel ih =>
    intro i st r hi h hI
    unfold positionLoop at h
    by_cases hc : dstart + (i : Int) < dend
    · rw [if_pos hc] at h
      cases hread : st.2[i]? with
      | none => simp [hread] at h
      | some original =>
        cases hopt : optionLoop recurse i original options st with
        | none => simp [hread, hopt] at h
        | some st1 =>
          cases hw : writeAt st1.2 i original with
          | none => simp [hread, hopt, hw] at h
          | some query2 =>
            simp only [hread, hopt, hw] at h
            have hI1 : I st1.1 := optionLoop_inv I recurse i original
              (fun s q r1 hr hs => hrec s q i r1 hi hc hr hs) options st st1 hopt hI
            exact ih (i + 1) (st1.1, query2) r (by omega) h hI1
    · rw [if_neg hc] at h
      simp only [Option.some.injEq] at h
      subst h; exact hI

/-- An invariant `I` of the accumulated state is kept by the traversal when
`visit` keeps it at every call whose parameters satisfy `C`, a condition that
holds at the first call and passes from a call to the calls it makes. -/
theorem enumerateCS_inv {σ : Type} (I : σ → Prop) (C : Nat → Nat → Prop)
    (visit : Nat → Nat → List Nat → σ → Option σ) (dstart dend K : Int)
    (hstep : ∀ d cs j, C d cs → (d : Int) ≠ K → cs ≤ j → dstart + (j : Int) < dend →
      C (d + 1) (j + 1))
    (hvisit : ∀ d cs q s s1, C d cs → visit d cs q s = some s1 → I s → I s1) :
    ∀ (fuel depth : Nat) (s : σ) (q : List Nat) (cs : Nat) (r : σ × List Nat),
      C depth cs → enumerateCS visit dstart dend K fuel depth s q cs = some r → I s → I r.1 := by
  intro fuel
  induction fuel with
  | zero => intro depth s q cs r _ h _; simp [enumerateCS] at h
  | succ fuel ih =>
    intro depth s q cs r hC h hI
    unfold enumerateCS at h
    cases hv : visit depth cs q s with
    | none => simp [hv] at h
    | some s1 =>
      have hI1 : I s1 := hvisit depth cs q s s1 hC hv hI
      simp only [hv] at h
      by_cases hd : (depth : Int) = K
      · rw [if_pos hd] at h
        simp only [Option.some.injEq] at h
        subst h; exact hI1
      · rw [if_neg hd] at h
        exact positionLoop_inv I _ dstart dend cs
          (fun s2 q2 j r2 hj hlt hr hs =>
            ih (depth + 1) s2 q2 (j + 1) r2 (hstep depth cs j hC hd hj hlt) hr hs)
          _ cs (s1, q) r (le_refl _) h hI1

theorem set_of_getElem? {l : List Nat} {i a : Nat} (h : l[i]? = some a) : l.set i a = l := by
  have hg : l.getD i 0 = a := by simp [List.getD, h]
  rw [← hg]
  exact set_getD_self l i

theorem optionLoop_buffer {σ : Type}
    (recurse : σ → List Nat → Nat → Option (σ × List Nat)) (i original : Nat)
    (hrec : ∀ s q r, recurse s q (i + 1) = some r → r.2 = q) :
    ∀ (opts : List Nat) (st r : σ × List Nat),
      optionLoop recurse i original opts st = some r →
      r.2.set i original = st.2.set i original := by
  intro opts
  induction opts with
  | nil =>
    intro st r h
    simp only [optionLoop, Option.some.injEq] at h
    subst h; rfl
  | cons o rest ih =>
    intro st r h
    unfold optionLoop at h
    by_cases ho : o = original
    · rw [if_pos ho] at h
      exact ih st r h
    · rw [if_neg ho] at h
      cases hw : writeAt st.2 i o with
      | none => simp [hw] at h
      | some q1 =>
        cases hr : recurse st.1 q1 (i + 1) with
        | none => simp [hw, hr] at h
        | some st1 =>
          simp only [hw, hr] at h
          have h1 := ih st1 r h
          have h2 : st1.2 = q1 := hrec st.1 q1 st1 hr
          have h3 : q1 = st.2.set i o := (writeAt_some hw).2
          rw [h1, h2, h3, List.set_set]

theorem positionLoop_buffer {σ : Type}
    (recurse : σ → List Nat → Nat → Option (σ × List Nat)) (dstart dend : Int)
    (hrec : ∀ s q cs r, recurse s q cs = some r → r.2 = q) :
    ∀ (fuel i : Nat) (st r : σ × List Nat),
      positionLoop recurse dstart dend fuel i st = some r → r.2 = st.2 := by
  intro fuel
  induction fuel with
  | zero =>
    intro i st r h
    unfold positionLoop at h
    by_cases hc : dstart + (i : Int) < dend
    · rw [if_pos hc] at h; cases h
    · rw [if_neg hc] at h
      simp only [Option.some.injEq] at h
      subst h; rfl
  | succ fuel ih =>
    intro i st r h
    unfold positionLoop at h
    by_cases hc : dstart + (i : Int) < dend
    · rw [if_pos hc] at h
      cases hread : st.2[i]? with
      | none => simp [hread] at h
      | some original =>
        cases hopt : optionLoop recurse i original options st with
        | none => simp [hread, hopt] at h
        | some st1 =>
          cases hw : writeAt st1.2 i original with
          | none => simp [hread, hopt, hw] at h
          | some query2 =>
            simp only [hread, hopt, hw] at h
            have h1 := optionLoop_buffer recurse i original
              (fun s q r1 hr => hrec s q (i + 1) r1 hr) options st st1 hopt
            have h2 : query2 = st1.2.set i original := (writeAt_some hw).2
            have h3 := ih (i + 1) (st1.1, query2) r h
            rw [h3]
            show query2 = st.2
            rw [h2, h1, set_of_getElem? hread]
    · rw [if_neg hc] at h
      simp only [Option.some.injEq] at h
      subst h; rfl

/-- Whenever the traversal returns, the buffer is as it was on entry. -/
theorem enumerateCS_buffer {σ : Type} (visit : Nat → Nat → List Nat → σ → Option σ)
    (dstart dend K : Int) :
    ∀ (fuel depth : Nat) (s : σ) (q : List Nat) (cs : Nat) (r : σ × List Nat),
      enumerateCS visit dstart dend K fuel depth s q cs = some r → r.2 = q := by
  intro fuel
  induction fuel with
  | zero => intro depth s q cs r h; simp [enumerateCS] at h
  | succ fuel ih =>
    intro depth s q cs r h
    unfold enumerateCS at h
    cases hv : visit depth cs q s with
    | none => simp [hv] at h
    | some s1 =>
      simp only [hv] at h
      by_cases hd : (depth : Int) = K
      · rw [if_pos hd] at h
        simp only [Option.some.injEq] at h
        subst h; rfl
      · rw [if_neg hd] at h
        exact positionLoop_buffer _ dstart dend
          (fun s2 q2 cs2 r2 hr => ih (depth + 1) s2 q2 cs2 r2 hr) _ cs (s1, q) r h

theorem optionLoop_returns {σ : Type}
    (recurse : σ → List Nat → Nat → Option (σ × List Nat)) (i original n : Nat) (hi : i < n)
    (hrec : ∀ s q, q.length = n → ∃ s1, recurse s q (i + 1) = some (s1, q)) :
    ∀ (opts : List Nat) (st : σ × List Nat), st.2.length = n →
      ∃ r, optionLoop recurse i original opts st = some r ∧ r.2.length = n := by
  intro opts
  induction opts with
  | nil => intro st hst; exact ⟨st, rfl, hst⟩
  | cons o rest ih =>
    intro st hst
    unfold optionLoop
    by_cases ho : o = original
    · rw [if_pos ho]
      exact ih st hst
    · rw [if_neg ho]
      have hw : writeAt st.2 i o = some (st.2.set i o) := by
        unfold writeAt
        rw [if_pos (by omega)]
      obtain ⟨s1, hs1⟩ := hrec st.1 (st.2.set i o) (by rw [List.length_set]; exact hst)
      simp only [hw, hs1]
      exact ih (s1, st.2.set i o) (by rw [List.length_set]; exact hst)

theorem positionLoop_returns {σ : Type}
    (recurse : σ → List Nat → Nat → Option (σ × List Nat)) (dstart dend : Int)
    (L n i0 : Nat) (hL : L = (dend - dstart).toNat) (hn : L ≤ n)
    (hrec : ∀ s q j, i0 ≤ j → j < L → q.length = n → ∃ s1, recurse s q (j + 1) = some (s1, q)) :
    ∀ (fuel i : Nat) (st : σ × List Nat), i0 ≤ i → L - i ≤ fuel → st.2.length = n →
      ∃ r, positionLoop recurse dstart dend fuel i st = some r := by
  intro fuel
  induction fuel with
  | zero =>
    intro i st _ hf _
    unfold positionLoop
    have hc : ¬ (dstart + (i : Int) < dend) := by omega
    rw [if_neg hc]
    exact ⟨st, rfl⟩
  | succ fuel ih =>
    intro i st hi hf hst
    unfold positionLoop
    by_cases hc : dstart + (i : Int) < dend
    · rw [if_pos hc]
      have hiL : i < L := by omega
      have hin : i < st.2.length := by omega
      rw [List.getElem?_eq_getElem hin]
      obtain ⟨st1, hopt, hlen1⟩ := optionLoop_returns recurse i st.2[i] n (by omega)
        (fun s q hq => hrec s q i hi hiL hq) options st hst
      have hw : writeAt st1.2 i st.2[i] = some (st1.2.set i st.2[i]) := by
        unfold writeAt
        rw [if_pos (by omega)]
      simp only [hopt, hw]
      exact ih (i + 1) _ (by omega) (by omega) (by rw [List.length_set]; exact hlen1)
    · rw [if_neg hc]
      exact ⟨st, rfl⟩

/-- With a `visit` that always returns, the traversal returns on every buffer
that holds the window, within the bound on the recursion depth. -/
theorem enumerateCS_returns {σ : Type} (visit : Nat → Nat → List Nat → σ → Option σ)
    (dstart dend K : Int) (L : Nat) (hL : L = (dend - dstart).toNat)
    (hvisit : ∀ d cs q s, ∃ s1, visit d cs q s = some s1) :
    ∀ (fuel depth : Nat) (s : σ) (q : List Nat) (cs : Nat), L ≤ q.length → L - cs < fuel →
      ∃ s1, enumerateCS visit dstart dend K fuel depth s q cs = some (s1, q) := by
  intro fuel
  induction fuel with
  | zero => intro depth s q cs _ hf; omega
  | succ fuel ih =>
    intro depth s q cs hq hf
    have hsome : ∃ r, enumerateCS visit dstart dend K (fuel + 1) depth s q cs = some r := by
      unfold enumerateCS
      obtain ⟨s1, hs1⟩ := hvisit depth cs q s
      simp only [hs1]
      by_cases hd : (depth : Int) = K
      · rw [if_pos hd]; exact ⟨_, rfl⟩
      · rw [if_neg hd, ← hL]
        exact positionLoop_returns _ dstart dend L q.length cs hL hq
          (fun s2 q2 j hj hjL hq2 => ih (depth + 1) s2 q2 (j + 1) (by omega) (by omega))
          L cs (s1, q) (le_refl _) (by omega) rfl
    obtain ⟨r, hr⟩ := hsome
    have hb := enumerateCS_buffer visit dstart dend K _ depth s q cs r hr
    refine ⟨r.1, ?_⟩
    rw [hr, ← hb]

/-! ## The emitted vectors -/

theorem wellFormedSearch_returns {tree other : SuffixArray} {anchorText : List Nat}
    {K dstart dend : Int} {anchors : List Int}
    (h : WellFormedSearch tree other anchorText K dstart dend anchors) :
    ∃ out, find_mismatches tree anchorText K dstart dend other anchors = some out := by
  obtain ⟨Ta, saA, T, sa, A, ht, ho, ha, hK, hKmax, hwin, hend, hint, hlen, hTa, hT, hv, hA,
    hdef, hanch⟩ := h
  subst ht; subst ho; subst ha
  exact find_mismatches_returns Ta saA T sa A K dstart dend hK hKmax hwin hend hint hlen hTa
    hT hv hA hdef anchors hanch

theorem find_mismatches_mem (tree other : SuffixArray) (anchorText : List Nat)
    (K dstart dend : Int) :
    ∀ (anchors : List Int) (out : List (Int × List Nat)),
      find_mismatches tree anchorText K dstart dend other anchors = some out →
      ∀ p ∈ out, ∃ a ∈ anchors,
        anchorTask tree anchorText K dstart dend other a = some (some p) := by
  intro anchors
  induction anchors with
  | nil =>
    intro out h p hp
    simp only [find_mismatches, Option.some.injEq] at h
    subst h
    exact absurd hp (List.not_mem_nil p)
  | cons a anchors ih =>
    intro out h p hp
    unfold find_mismatches at h
    cases ht : anchorTask tree anchorText K dstart dend other a with
    | none => simp [ht] at h
    | some r =>
      cases hrec : find_mismatches tree anchorText K dstart dend other anchors with
      | none => simp [ht, hrec] at h
      | some list =>
        simp only [ht, hrec] at h
        cases r with
        | none =>
          simp only [Option.some.injEq] at h
          subst h
          obtain ⟨b, hb, hbt⟩ := ih list hrec p hp
          exact ⟨b, List.mem_cons_of_mem _ hb, hbt⟩
        | some p1 =>
          simp only [Option.some.injEq] at h
          subst h
          rcases List.mem_cons.mp hp with hp | hp
          · subst hp
            exact ⟨a, List.mem_cons_self _ _, ht⟩
          · obtain ⟨b, hb, hbt⟩ := ih list hrec p hp
            exact ⟨b, List.mem_cons_of_mem _ hb, hbt⟩

/-- The first call of the traversal applies `visit` to the buffer as received,
and an invariant kept by `visit` at every greater depth passes from the state
after this call to the final state. -/
theorem enumerate_head {σ : Type} (visit : Nat → List Nat → σ → Option σ)
    (dstart dend K : Int) (fuel depth : Nat) (s : σ) (q : List Nat) (cs : Nat)
    (r : σ × List Nat) (h : enumerate visit dstart dend K (fuel + 1) depth s q cs = some r) :
    ∃ s1, visit depth q s = some s1 ∧ ((depth : Int) = K → r.1 = s1) ∧
      ∀ I : σ → Prop, I s1 →
        (∀ d q2 s2 s3, depth < d → visit d q2 s2 = some s3 → I s2 → I s3) → I r.1 := by
  unfold enumerate at h
  cases hv : visit depth q s with
  | none => simp [hv] at h
  | some s1 =>
    simp only [hv] at h
    refine ⟨s1, rfl, ?_, ?_⟩
    · intro hd
      rw [if_pos hd] at h
      simp only [Option.some.injEq] at h
      subst h; rfl
    · intro I hI1 hkeep
      by_cases hd : (depth : Int) = K
      · rw [if_pos hd] at h
        simp only [Option.some.injEq] at h
        subst h; exact hI1
      · rw [if_neg hd] at h
        refine positionLoop_inv I _ dstart dend cs ?_ _ cs (s1, q) r (le_refl _) h hI1
        intro s2 q2 j r2 _ _ hr hs
        rw [enumerate_eq_enumerateCS] at hr
        exact enumerateCS_inv I (fun d _ => depth < d) _ dstart dend K
          (fun d _ _ hd1 _ _ _ => by omega)
          (fun d _ q3 s3 s4 hd1 hvis hI3 => hkeep d q3 s3 s4 hd1 hvis hI3)
          fuel (depth + 1) s2 q2 (j + 1) r2 (by omega) hr hs

theorem tally_length {tree : SuffixArray} {anchor : List Nat} {dstart : Int} {depth : Nat}
    {q counts counts1 : List Nat} (h : tally tree anchor dstart depth q counts = some counts1) :
    counts1.length = counts.length := by
  obtain ⟨_, _, _, hset⟩ := tally_some h
  rw [hset, List.length_set]

/-- The arguments of scenario 5 are well formed. -/
theorem scenario5_well_formed :
    WellFormedSearch (mkTree (bytes "XAAAC") [1, 2, 3, 4, 0])
      (mkTree (bytes "AAACAAAC") [4, 0, 5, 1, 6, 2, 7, 3]) (cstr "") 1 (-3) 0 [4] :=
  ⟨bytes "XAAAC", [1, 2, 3, 4, 0], bytes "AAACAAAC", [4, 0, 5, 1, 6, 2, 7, 3], [], rfl, rfl,
    rfl, by decide, by decide, by decide, by decide, by decide, by decide, by decide,
    by decide, ⟨by decide, by decide⟩, by decide, Or.inl rfl, by simp [bytes]⟩

/-- C12 (depth bound): for a distance bound `K` of type `int`, every pair
emitted by `find_mismatches` carries a vector of exactly `K + 1` counts (and
pairs are emitted only for `K ≥ 0`); on well-formed arguments, which leave out
`K = INT_MAX` and `dstart = INT_MIN`, `find_mismatches` returns. -/
theorem counts_length (tree other : SuffixArray) (anchorText : List Nat)
    (K dstart dend : Int) (anchors : List Int) (hK : IsInt K) :
    (∀ out, find_mismatches tree anchorText K dstart dend other anchors = some out →
      ∀ p ∈ out, 0 ≤ K ∧ (p.2.length : Int) = K + 1) ∧
    (WellFormedSearch tree other anchorText K dstart dend anchors →
      ∃ out, find_mismatches tree anchorText K dstart dend other anchors = some out) := by
  refine ⟨?_, wellFormedSearch_returns⟩
  intro out h p hp
  obtain ⟨a, _, ht⟩ := find_mismatches_mem tree other anchorText K dstart dend anchors out h p hp
  obtain ⟨_, hK1, query, st, _, hfi, hp2⟩ := anchorTask_some ht
  have hwrap : wrapInt (K + 1) = K + 1 := by
    unfold IsInt at hK
    unfold wrapInt at hK1 ⊢
    omega
  rw [hwrap] at hK1 hfi
  unfold find_inexact at hfi
  obtain ⟨s1, hs1, _, hinv⟩ := enumerate_head _ dstart dend K _ 0 _ query 0 st hfi
  have hlen1 : s1.length = (K + 1).toNat := by
    rw [tally_length hs1, List.length_replicate]
  have hlen : st.1.length = (K + 1).toNat :=
    hinv (fun s => s.length = (K + 1).toNat) hlen1
      (fun d q2 s2 s3 _ hv hs2 => (tally_length hv).trans hs2)
  obtain ⟨_, _, hlt, _⟩ := tally_some hs1
  rw [List.length_replicate] at hlt
  rw [hp2]
  simp only [hlen]
  omega

theorem counts_length_witness :
    IsInt 1 ∧
    find_mismatches (mkTree (bytes "XAAAC") [1, 2, 3, 4, 0]) (cstr "") 1 (-3) 0
      (mkTree (bytes "AAACAAAC") [4, 0, 5, 1, 6, 2, 7, 3]) [4] = some [(4, [2, 3])] ∧
    ((∀ out, find_mismatches (mkTree (bytes "XAAAC") [1, 2, 3, 4, 0]) (cstr "") 1 (-3) 0
        (mkTree (bytes "AAACAAAC") [4, 0, 5, 1, 6, 2, 7, 3]) [4] = some out →
      ∀ p ∈ out, (0 : Int) ≤ 1 ∧ (p.2.length : Int) = 1 + 1) ∧
    (WellFormedSearch (mkTree (bytes "XAAAC") [1, 2, 3, 4, 0])
        (mkTree (bytes "AAACAAAC") [4, 0, 5, 1, 6, 2, 7, 3]) (cstr "") 1 (-3) 0 [4] →
      ∃ out, find_mismatches (mkTree (bytes "XAAAC") [1, 2, 3, 4, 0]) (cstr "") 1 (-3) 0
        (mkTree (bytes "AAACAAAC") [4, 0, 5, 1, 6, 2, 7, 3]) [4] = some out)) :=
  ⟨⟨by decide, by decide⟩, by decide,
    counts_length (mkTree (bytes "XAAAC") [1, 2, 3, 4, 0])
      (mkTree (bytes "AAACAAAC") [4, 0, 5, 1, 6, 2, 7, 3]) (cstr "") 1 (-3) 0 [4]
      ⟨by decide, by decide⟩⟩

theorem tally_keeps_zero {tree : SuffixArray} {anchor : List Nat} {dstart : Int} {d : Nat}
    {q s2 s3 : List Nat} (hd : 0 < d) (h : tally tree anchor dstart d q s2 = some s3) :
    s3[0]? = s2[0]? := by
  obtain ⟨_, _, _, hset⟩ := tally_some h
  rw [hset, List.getElem?_set_ne (by omega)]

/-- C11 (the original window is counted once, at depth 0): for a validated
window with `INT_MIN < dstart` and anchors of type `long`, every pair emitted by
`find_mismatches` belongs to an input anchor, and its vector holds at index 0
the value of `count` on the unmodified window cut at that anchor; for `K = 0`
the vector is exactly this one value; among the calls of the traversal the one
on the unmodified window is the only one at depth 0; and on well-formed
arguments, which leave out `K = INT_MAX`, `find_mismatches` returns. -/
theorem original_window_once (tree other : SuffixArray) (anchorText : List Nat)
    (K dstart dend : Int) (anchors : List Int) (hwin : dstart < dend) (hend : dend ≤ 0)
    (hint : -(2 ^ 31) < dstart) (hlong : ∀ a ∈ anchors, IsLong a) :
    (∀ out, find_mismatches tree anchorText K dstart dend other anchors = some out →
      ∀ p ∈ out, p.1 ∈ anchors ∧ ∃ query hits,
        strndup (tree._text.drop (p.1 + dstart).toNat) (size_t (dend - dstart)) = some query ∧
        count other query anchorText dstart = some hits ∧
        p.2[0]? = some hits ∧
        (K = 0 → p.2 = [hits]) ∧
        (∀ calls q1, find_inexact_calls dstart dend K 0 query 0 = some (calls, q1) →
          callsAt 0 calls = [query])) ∧
    (WellFormedSearch tree other anchorText K dstart dend anchors →
      ∃ out, find_mismatches tree anchorText K dstart dend other anchors = some out) := by
  refine ⟨?_, wellFormedSearch_returns⟩
  intro out h p hp
  obtain ⟨a, ha, ht⟩ := find_mismatches_mem tree other anchorText K dstart dend anchors out h p hp
  obtain ⟨_, hK1, query, st, hdup, hfi, hp2⟩ := anchorTask_some ht
  have hoff : 0 ≤ a + dstart := anchorTask_some_offset hwin hend (by omega) ht
  have hupper : a < 2 ^ 63 := (hlong a ha).2
  rw [wrapLong_of_range (a + dstart) (by omega) (by omega),
    wrapInt_of_range (dend - dstart) (by omega) (by omega)] at hdup
  unfold ptrAdd at hdup
  rw [if_neg (by omega)] at hdup
  unfold find_inexact at hfi
  obtain ⟨s1, hs1, hK0, hinv⟩ := enumerate_head _ dstart dend K _ 0 _ query 0 st hfi
  obtain ⟨hits, hcount, hlt, hset⟩ := tally_some hs1
  have hget0 : (List.replicate (wrapInt (K + 1)).toNat 0).getD 0 0 = 0 := by
    rw [List.getD_eq_getElem _ _ hlt, List.getElem_replicate]
  rw [hget0, Nat.zero_add] at hset
  have hs10 : s1[0]? = some hits := by
    rw [hset, List.getElem?_set_self hlt]
  have hst0 : st.1[0]? = some hits :=
    hinv (fun s => s[0]? = some hits) hs10
      (fun d q2 s2 s3 hd hv hs2 => (tally_keeps_zero hd hv).trans hs2)
  subst hp2
  refine ⟨ha, query, hits, hdup, hcount, hst0, ?_, ?_⟩
  · intro hK
    have h1 : st.1 = s1 := hK0 (by rw [hK]; rfl)
    have hone : (wrapInt (K + 1)).toNat = 1 := by
      rw [hK]
      decide
    show st.1 = [hits]
    rw [h1, hset, hone]
    rfl
  · intro calls q1 hcalls
    unfold find_inexact_calls at hcalls
    obtain ⟨c1, hc1, _, hinvc⟩ := enumerate_head _ dstart dend K _ 0 _ query 0 (calls, q1) hcalls
    simp only [List.nil_append, Option.some.injEq] at hc1
    refine hinvc (fun c => callsAt 0 c = [query]) (by rw [← hc1]; simp [callsAt]) ?_
    intro d q2 s2 s3 hd hv hs2
    simp only [Option.some.injEq] at hv
    rw [← hv, callsAt_append, callsAt_singleton, if_neg (by omega), List.append_nil]
    exact hs2

theorem original_window_once_witness :
    ((-3 : Int) < 0 ∧ (0 : Int) ≤ 0 ∧ -(2 ^ 31) < (-3 : Int) ∧ ∀ a ∈ [(4 : Int)], IsLong a) ∧
    find_mismatches (mkTree (bytes "XAAAC") [1, 2, 3, 4, 0]) (cstr "") 1 (-3) 0
      (mkTree (bytes "AAACAAAC") [4, 0, 5, 1, 6, 2, 7, 3]) [4] = some [(4, [2, 3])] ∧
    count (mkTree (bytes "AAACAAAC") [4, 0, 5, 1, 6, 2, 7, 3]) (cstr "AAA") (cstr "") (-3)
      = some 2 ∧
    ((∀ out, find_mismatches (mkTree (bytes "XAAAC") [1, 2, 3, 4, 0]) (cstr "") 1 (-3) 0
        (mkTree (bytes "AAACAAAC") [4, 0, 5, 1, 6, 2, 7, 3]) [4] = some out →
      ∀ p ∈ out, p.1 ∈ [(4 : Int)] ∧ ∃ query hits,
        strndup ((mkTree (bytes "XAAAC") [1, 2, 3, 4, 0])._text.drop (p.1 + (-3 : Int)).toNat)
          (size_t (0 - (-3))) = some query ∧
        count (mkTree (bytes "AAACAAAC") [4, 0, 5, 1, 6, 2, 7, 3]) query (cstr "") (-3)
          = some hits ∧
        p.2[0]? = some hits ∧
        ((1 : Int) = 0 → p.2 = [hits]) ∧
        (∀ calls q1, find_inexact_calls (-3) 0 1 0 query 0 = some (calls, q1) →
          callsAt 0 calls = [query])) ∧
    (WellFormedSearch (mkTree (bytes "XAAAC") [1, 2, 3, 4, 0])
        (mkTree (bytes "AAACAAAC") [4, 0, 5, 1, 6, 2, 7, 3]) (cstr "") 1 (-3) 0 [4] →
      ∃ out, find_mismatches (mkTree (bytes "XAAAC") [1, 2, 3, 4, 0]) (cstr "") 1 (-3) 0
        (mkTree (bytes "AAACAAAC") [4, 0, 5, 1, 6, 2, 7, 3]) [4] = some out)) :=
  ⟨⟨by decide, by decide, by decide, by simp [IsLong]⟩, by decide, by decide,
    original_window_once (mkTree (bytes "XAAAC") [1, 2, 3, 4, 0])
      (mkTree (bytes "AAACAAAC") [4, 0, 5, 1, 6, 2, 7, 3]) (cstr "") 1 (-3) 0 [4]
      (by decide) (by decide) (by decide) (by simp [IsLong])⟩

/-! ## The scratch buffer -/

theorem mem_calls_from (L rem depth : Nat) (w pre post : List Nat)
    (hL : L = pre.length + w.length) (c : Nat × List Nat)
    (hc : c ∈ callsFrom L rem depth (pre ++ (w ++ post)) pre.length) :
    c.1 ≤ depth + rem ∧ ∃ v, c.2 = pre ++ (v ++ post) ∧ v ∈ variantsAt (c.1 - depth) w := by
  have hmem : c.2 ∈ callsAt c.1 (callsFrom L rem depth (pre ++ (w ++ post)) pre.length) :=
    mem_callsAt.mpr hc
  rw [(calls_perm L rem depth w pre post c.1 hL).mem_iff] at hmem
  by_cases hd : depth ≤ c.1 ∧ c.1 ≤ depth + rem
  · rw [if_pos hd, List.mem_map] at hmem
    obtain ⟨v, hv, hcv⟩ := hmem
    exact ⟨hd.2, v, hcv.symm, hv⟩
  · rw [if_neg hd] at hmem
    exact absurd hmem (List.not_mem_nil _)

/-- On a well-formed index and window `find_inexact` returns from every call
with `depth ≤ K` and `changeStart ≤ L`. -/
theorem find_inexact_returns_from (T sa A w : List Nat) (dstart dend K : Int)
    (depth cs : Nat) (counts : List Nat) (hK : (depth : Int) ≤ K)
    (hcounts : (counts.length : Int) = K + 1) (hL : (w.length : Int) = dend - dstart)
    (hcs : cs ≤ w.length) (hT : ZeroFree T) (hv : ValidEntries T sa) (hw : ZeroFree w)
    (hne : w ≠ []) (hA : ZeroFree A) (hd : dstart ≤ 0) (hdef : A = [] ∨ 0 ≤ dend) :
    ∃ c1, find_inexact (mkTree T sa) dstart dend K depth counts (w ++ [0]) cs (A ++ [0])
      = some (c1, w ++ [0]) := by
  have hLn : (dend - dstart).toNat = w.length := by omega
  have hwpos : 0 < w.length := List.length_pos.mpr hne
  unfold find_inexact
  rw [enumerate_eq _ dstart dend K (dend - dstart).toNat rfl _ depth (K - depth).toNat counts
    (w ++ [0]) cs (by omega) (by simp [hLn]) (by omega)]
  have hsplit : w ++ [0] = w.take cs ++ (w.drop cs ++ [0]) := by
    rw [← List.append_assoc, List.take_append_drop]
  have hprelen : (w.take cs).length = cs := by
    rw [List.length_take]; omega
  obtain ⟨c1, h⟩ := runCalls_tally_returns (mkTree T sa) (A ++ [0]) dstart
    (callsFrom (dend - dstart).toNat (K - depth).toNat depth (w ++ [0]) cs) counts
    (by
      intro c hc
      have hc' : c ∈ callsFrom (dend - dstart).toNat (K - depth).toNat depth
          (w.take cs ++ (w.drop cs ++ [0])) (w.take cs).length := by
        rw [hprelen, ← hsplit]; exact hc
      obtain ⟨h1, v, h2, h3⟩ := mem_calls_from _ _ depth (w.drop cs) (w.take cs) [0]
        (by rw [hprelen, List.length_drop, hLn]; omega) c hc'
      have hf := (mem_variantsAt (w.drop cs) _ v).mp h3
      have hlen : v.length = (w.drop cs).length := forall₂_length_eq hf.1
      have hvz : ZeroFree v := zeroFree_of_forall₂ _ v hf.1 (hw.drop cs)
      have hfull : ZeroFree (w.take cs ++ v) := by
        intro x hx
        rcases List.mem_append.mp hx with hx | hx
        · exact hw x (List.mem_of_mem_take hx)
        · exact hvz x hx
      have hfl : (w.take cs ++ v).length = w.length := by
        rw [List.length_append, hprelen, hlen, List.length_drop]; omega
      have hfne : w.take cs ++ v ≠ [] := by
        intro e; rw [e] at hfl; simp at hfl; omega
      refine ⟨by omega, ?_⟩
      obtain ⟨n, hn⟩ := count_returns T sa (w.take cs ++ v) A dstart hT hv hfull hfne hA hd
        (by rcases hdef with h | h
            · exact Or.inl h
            · right; omega)
      rw [h2, ← List.append_assoc, hn]
      rfl)
  exact ⟨c1, by rw [h]; rfl⟩

/-- C17 (the scratch buffer is restored): from every call, whatever the depth,
`K` and `changeStart`, whenever `find_inexact` returns the contents of `query`
are those on entry; and on a well-formed index and window it returns from every
call with `depth ≤ K` and `changeStart ≤ L`. -/
theorem buffer_restored (tree : SuffixArray) (anchor : List Nat) (dstart dend K : Int)
    (depth : Nat) (counts q : List Nat) (cs : Nat) :
    (∀ c1 q1, find_inexact tree dstart dend K depth counts q cs anchor = some (c1, q1) →
      q1 = q) ∧
    (∀ T sa A w, tree = mkTree T sa → anchor = A ++ [0] → q = w ++ [0] → (depth : Int) ≤ K →
      (counts.length : Int) = K + 1 → (w.length : Int) = dend - dstart → cs ≤ w.length →
      ZeroFree T → ValidEntries T sa → ZeroFree w → w ≠ [] → ZeroFree A → dstart ≤ 0 →
      (A = [] ∨ 0 ≤ dend) →
      ∃ c1, find_inexact tree dstart dend K depth counts q cs anchor = some (c1, q)) := by
  constructor
  · intro c1 q1 h
    unfold find_inexact at h
    rw [enumerate_eq_enumerateCS] at h
    exact enumerateCS_buffer _ dstart dend K _ depth counts q cs (c1, q1) h
  · intro T sa A w ht ha hq hK hcounts hL hcs hT hv hw hne hA hd hdef
    subst ht; subst ha; subst hq
    exact find_inexact_returns_from T sa A w dstart dend K depth cs counts hK hcounts hL hcs
      hT hv hw hne hA hd hdef

/-! ## Index safety of the traversal -/

/-- C19 (index safety of the enumerator): for `K ≥ 0`, on a buffer of exactly
`L = dend - dstart` bytes, the traversal of `find_inexact` started at depth 0
and `changeStart = 0` returns within its bound on the recursion depth, with the
buffer as received; no access `query[i]` left the `L` bytes of the buffer, an
access outside of it being a fault; every call made has `depth ≤ K`, so that
`counts[depth]` lies in a vector of `K + 1` entries, `depth ≤ changeStart` and
`changeStart ≤ L`, hence `depth ≤ min(K, L)`; and `find_inexact` is this
traversal with lines 166-167 in the place of the recording. -/
theorem enumerator_index_safety (q : List Nat) (dstart dend K : Int) (hK : 0 ≤ K)
    (hq : (q.length : Int) = dend - dstart) :
    ∃ log, find_inexact_log dstart dend K 0 q 0 = some (log, q) ∧
      (∀ e ∈ log, (e.1 : Int) ≤ K ∧ e.1 < (List.replicate (K + 1).toNat 0).length ∧
        e.1 ≤ e.2 ∧ (e.2 : Int) ≤ dend - dstart ∧ (e.1 : Int) ≤ min K (dend - dstart)) ∧
      (∀ tree anchor counts b, find_inexact tree dstart dend K 0 counts b 0 anchor
        = enumerateCS (fun d _ q1 s => tally tree anchor dstart d q1 s) dstart dend K
            ((dend - dstart).toNat + 1) 0 counts b 0) := by
  obtain ⟨log, hlog⟩ := enumerateCS_returns
    (fun d cs _ (l : List (Nat × Nat)) => some (l ++ [(d, cs)])) dstart dend K
    (dend - dstart).toNat rfl (fun d cs _ s => ⟨_, rfl⟩)
    ((dend - dstart).toNat + 1) 0 [] q 0 (by omega) (by omega)
  refine ⟨log, hlog, ?_, ?_⟩
  · have hinv := enumerateCS_inv
      (fun l : List (Nat × Nat) => ∀ e ∈ l, (e.1 : Int) ≤ K ∧ e.1 ≤ e.2 ∧
        (e.2 : Int) ≤ dend - dstart)
      (fun d cs => (d : Int) ≤ K ∧ d ≤ cs ∧ (cs : Int) ≤ dend - dstart)
      (fun d cs _ (l : List (Nat × Nat)) => some (l ++ [(d, cs)])) dstart dend K
      (fun d cs j hC hd hj hlt => by
        obtain ⟨h1, h2, _⟩ := hC
        refine ⟨?_, ?_, ?_⟩
        · push_cast; omega
        · omega
        · push_cast; omega)
      (fun d cs _ s s1 hC hv hI => by
        simp only [Option.some.injEq] at hv
        subst hv
        intro e he
        rcases List.mem_append.mp he with he | he
        · exact hI e he
        · have : e = (d, cs) := by simpa using he
          subst this
          exact hC)
      ((dend - dstart).toNat + 1) 0 [] q 0 (log, q) ⟨by simpa using hK, le_refl _, by omega⟩
      hlog (fun e he => absurd he (List.not_mem_nil e))
    intro e he
    obtain ⟨h1, h2, h3⟩ := hinv e he
    refine ⟨h1, ?_, h2, h3, ?_⟩
    · rw [List.length_replicate]; omega
    · rw [le_min_iff]
      exact ⟨h1, by omega⟩
  · intro tree anchor counts b
    unfold find_inexact
    exact enumerate_eq_enumerateCS _ dstart dend K _ 0 counts b 0

theorem enumerator_index_safety_witness :
    ∃ log, find_inexact_log (-2) 0 1 0 (bytes "AC") 0 = some (log, bytes "AC") ∧
      (∀ e ∈ log, (e.1 : Int) ≤ 1 ∧ e.1 < (List.replicate ((1 : Int) + 1).toNat 0).length ∧
        e.1 ≤ e.2 ∧ (e.2 : Int) ≤ 0 - (-2) ∧ (e.1 : Int) ≤ min 1 (0 - (-2))) ∧
      (∀ tree anchor counts b, find_inexact tree (-2) 0 1 0 counts b 0 anchor
        = enumerateCS (fun d _ q1 s => tally tree anchor (-2) d q1 s) (-2) 0 1
            (((0 : Int) - (-2)).toNat + 1) 0 counts b 0) :=
  enumerator_index_safety (bytes "AC") (-2) 0 1 (by decide) (by decide)

/-! ## The exact effect of `find` -/

theorem findLeft_run (T sa P : List Nat) (hT : ZeroFree T) (hv : ValidEntries T sa)
    (hP : ZeroFree P) :
    ∀ (k : Nat) (list : List Nat), k ≤ T.length →
      findLeft (mkTree T sa) (P ++ [0]) P.length k list
        = some (list ++ (leftRanks (matchAt T sa P) k).map (fun i => sa.getD i 0)) := by
  intro k
  induction k with
  | zero => intro list _; simp [findLeft, leftRanks]
  | succ k ih =>
    intro list hk
    obtain ⟨off, hoff, hlt⟩ := sa_entry hv.1 hv.2 k (by omega)
    obtain ⟨cmp, hc, hiff⟩ := strncmp_at T P off hT hP (Nat.le_of_lt hlt)
    unfold findLeft leftRanks
    simp only [readAt_natCast, mkTree_text, mkTree_suffixArray, hoff, hc]
    have hm : matchAt T sa P k = decide (cmp = 0) := by
      unfold matchAt; rw [sa_getD hoff]; exact decide_eq_decide.mpr hiff.symm
    by_cases hc0 : cmp = 0
    · simp only [hc0, if_true, hm, decide_True, List.map_cons]
      rw [ih _ (by omega), sa_getD hoff]
      simp
    · simp [hc0, hm]

theorem findRight_run (T sa P : List Nat) (hT : ZeroFree T) (hv : ValidEntries T sa)
    (hP : ZeroFree P) :
    ∀ (fuel : Nat) (right : Int) (list : List Nat), 0 ≤ right →
      (T.length : Int) - 1 - right ≤ fuel →
      findRight (mkTree T sa) (P ++ [0]) P.length fuel right list
        = some (list ++ (rightRanks (matchAt T sa P) (T.length - 1) fuel right.toNat).map
            (fun i => sa.getD i 0)) := by
  intro fuel
  induction fuel with
  | zero =>
    intro right list _ hf
    unfold findRight rightRanks
    have : ¬ (right < (mkTree T sa)._length - 1) := by simp only [mkTree_length]; omega
    simp only [this, if_false, List.map_nil, List.append_nil]
  | succ fuel ih =>
    intro right list h0 hf
    unfold findRight rightRanks
    by_cases hr : right < (mkTree T sa)._length - 1
    · have hr' : right < (T.length : Int) - 1 := by simpa [mkTree_length] using hr
      have hr2 : right.toNat < T.length - 1 := by omega
      obtain ⟨off, hoff, hlt⟩ := sa_entry hv.1 hv.2 right.toNat (by omega)
      obtain ⟨cmp, hc, hiff⟩ := strncmp_at T P off hT hP (Nat.le_of_lt hlt)
      rw [readAt_of_nonneg _ _ h0]
      simp only [hr, hr2, if_true, mkTree_text, mkTree_suffixArray, hoff, hc]
      have hm : matchAt T sa P right.toNat = decide (cmp = 0) := by
        unfold matchAt; rw [sa_getD hoff]; exact decide_eq_decide.mpr hiff.symm
      by_cases hc0 : cmp = 0
      · simp only [hc0, if_true, hm, decide_True, List.map_cons]
        rw [ih _ _ (by omega) (by omega)]
        have hsucc : (right + 1).toNat = right.toNat + 1 := by omega
        rw [hsucc, sa_getD hoff]
        simp
      · simp [hc0, hm]
    · have hr' : ¬ (right < (T.length : Int) - 1) := by simpa [mkTree_length] using hr
      have hr2 : ¬ (right.toNat < T.length - 1) := by omega
      simp only [hr, hr2, if_false, List.map_nil, List.append_nil]

/-- What the binary search of `find` returns: either nothing is appended and no
rank of the searched interval matches, or a matching rank `center` was hit, its
offset and those of the two expansions were appended, and a hit at the upper end
of the interval was reached through comparisons that exclude every lower rank
of the interval. -/
theorem findLoop_run (T sa P : List Nat) (hT : ZeroFree T) (hv : ValidEntries T sa)
    (hP : ZeroFree P) :
    ∀ (fuel : Nat) (left right : Int) (list : List Nat), 0 ≤ left → right < (T.length : Int) →
      right - left + 1 ≤ fuel →
      ∃ l, findLoop (mkTree T sa) (P ++ [0]) P.length fuel left right list = some l ∧
        ((l = list ∧ (Monotone3 T sa P → ∀ i : Nat, left ≤ (i : Int) → (i : Int) ≤ right →
            matchAt T sa P i = false)) ∨
         (∃ center : Nat, left ≤ (center : Int) ∧ (center : Int) ≤ right ∧
            matchAt T sa P center = true ∧
            l = list ++ [sa.getD center 0]
              ++ (leftRanks (matchAt T sa P) center).map (fun i => sa.getD i 0)
              ++ (rightRanks (matchAt T sa P) (T.length - 1) T.length (center + 1)).map
                  (fun i => sa.getD i 0) ∧
            ((center : Int) = right → Monotone3 T sa P →
              ∀ i : Nat, left ≤ (i : Int) → i < center → matchAt T sa P i = false))) := by
  intro fuel
  induction fuel with
  | zero =>
    intro left right list _ _ hf
    unfold findLoop
    have : ¬ (left ≤ right) := by omega
    simp only [this, if_false]
    exact ⟨list, rfl, Or.inl ⟨rfl, fun _ i h1 h2 => by omega⟩⟩
  | succ fuel ih =>
    intro left right list h0 hr hf
    unfold findLoop
    by_cases hlr : left ≤ right
    · simp only [hlr, if_true]
      have hdiv : Int.tdiv (right - left) 2 = (right - left) / 2 :=
        Int.tdiv_eq_ediv (by omega) (by omega)
      rw [hdiv]
      have hc0 : 0 ≤ left + (right - left) / 2 := by omega
      have hc1 : left + (right - left) / 2 ≤ right := by omega
      have hc2 : left ≤ left + (right - left) / 2 := by omega
      have hc3 : left + (right - left) / 2 = right → left = right := by omega
      generalize hcen : left + (right - left) / 2 = center at hc0 hc1 hc2 hc3
      have hcn : center.toNat < T.length := by omega
      obtain ⟨off, hoff, hlt⟩ := sa_entry hv.1 hv.2 center.toNat hcn
      obtain ⟨cmp, hc, hiff⟩ := strncmp_at T P off hT hP (Nat.le_of_lt hlt)
      rw [readAt_of_nonneg _ _ hc0]
      simp only [mkTree_text, mkTree_suffixArray, hoff, hc]
      have hm : matchAt T sa P center.toNat = decide (cmp = 0) := by
        unfold matchAt; rw [sa_getD hoff]; exact decide_eq_decide.mpr hiff.symm
      have hc' : strncmp (P ++ [0]) ((T ++ [0]).drop (sa.getD center.toNat 0)) P.length
          = some cmp := by rw [sa_getD hoff]; exact hc
      by_cases hneg : cmp < 0
      · simp only [hneg, if_true]
        obtain ⟨l, hl, hval⟩ := ih left (center - 1) list h0 (by omega)
          (by push_cast at hf; omega)
        refine ⟨l, hl, ?_⟩
        rcases hval with ⟨hnc, hno⟩ | ⟨ce, h1, h2, h3, h4, _⟩
        · left
          refine ⟨hnc, fun hmono i hi1 hi2 => ?_⟩
          by_cases hi : (i : Int) ≤ center - 1
          · exact hno hmono i hi1 hi
          · exact ((hmono center.toNat i cmp hcn (by omega) hc').2 hneg (by omega))
        · right
          exact ⟨ce, h1, by omega, h3, h4, fun he => by omega⟩
      · simp only [hneg, if_false]
        by_cases hz : cmp = 0
        · simp only [hz, if_true]
          have hk : (center - 1 + 1).toNat = center.toNat := by
            have : center - 1 + 1 = center := by omega
            rw [this]
          rw [hk, findLeft_run T sa P hT hv hP _ _ (by omega)]
          simp only []
          rw [mkTree_length, Int.toNat_ofNat,
            findRight_run T sa P hT hv hP _ _ _ (by omega) (by omega)]
          have hsucc : (center + 1).toNat = center.toNat + 1 := by omega
          refine ⟨_, rfl, Or.inr ⟨center.toNat, by omega, by omega, ?_, ?_, ?_⟩⟩
          · rw [hm, hz]; simp
          · rw [hsucc, sa_getD hoff]
          · intro he _ i hi1 hi2
            have := hc3 (by omega)
            omega
        · simp only [hz, if_false]
          have hpos : 0 < cmp := by omega
          obtain ⟨l, hl, hval⟩ := ih (center + 1) right list (by omega) hr
            (by push_cast at hf; omega)
          refine ⟨l, hl, ?_⟩
          rcases hval with ⟨hnc, hno⟩ | ⟨ce, h1, h2, h3, h4, h5⟩
          · left
            refine ⟨hnc, fun hmono i hi1 hi2 => ?_⟩
            by_cases hi : center + 1 ≤ (i : Int)
            · exact hno hmono i hi hi2
            · exact ((hmono center.toNat i cmp hcn (by omega) hc').1 hpos (by omega))
          · right
            refine ⟨ce, by omega, h2, h3, h4, fun he hmono i hi1 hi2 => ?_⟩
            by_cases hi : center + 1 ≤ (i : Int)
            · exact h5 he hmono i hi hi2
            · exact ((hmono center.toNat i cmp hcn (by omega) hc').1 hpos (by omega))
    · simp only [hlr, if_false]
      exact ⟨list, rfl, Or.inl ⟨rfl, fun _ i h1 h2 => by omega⟩⟩

theorem mem_leftRanks (m : Nat → Bool) :
    ∀ (k : Nat), (∀ i j, i ≤ j → j < k → m i = true → m j = true) →
      ∀ i, i ∈ leftRanks m k ↔ (i < k ∧ m i = true) := by
  intro k
  induction k with
  | zero => intro _ i; simp [leftRanks]
  | succ k ih =>
    intro h i
    unfold leftRanks
    by_cases hm : m k = true
    · rw [if_pos hm, List.mem_cons, ih (fun a b h1 h2 => h a b h1 (by omega))]
      constructor
      · rintro (he | ⟨h1, h2⟩)
        · subst he; exact ⟨by omega, hm⟩
        · exact ⟨by omega, h2⟩
      · rintro ⟨h1, h2⟩
        by_cases he : i = k
        · exact Or.inl he
        · exact Or.inr ⟨by omega, h2⟩
    · rw [if_neg hm]
      constructor
      · intro hi; exact absurd hi (List.not_mem_nil i)
      · rintro ⟨h1, h2⟩
        exact absurd (h i k (by omega) (by omega) h2) hm

theorem mem_rightRanks (m : Nat → Bool) (bound : Nat) :
    ∀ (fuel r : Nat), bound - r ≤ fuel →
      (∀ i j, r ≤ i → i ≤ j → j < bound → m j = true → m i = true) →
      ∀ i, i ∈ rightRanks m bound fuel r ↔ (r ≤ i ∧ i < bound ∧ m i = true) := by
  intro fuel
  induction fuel with
  | zero =>
    intro r hf _ i
    simp only [rightRanks, List.not_mem_nil, false_iff]
    omega
  | succ fuel ih =>
    intro r hf h i
    unfold rightRanks
    by_cases hr : r < bound
    · rw [if_pos hr]
      by_cases hm : m r = true
      · rw [if_pos hm, List.mem_cons,
          ih (r + 1) (by omega) (fun a b h1 h2 => h a b (by omega) h2)]
        constructor
        · rintro (he | ⟨h1, h2, h3⟩)
          · subst he; exact ⟨le_refl _, hr, hm⟩
          · exact ⟨by omega, h2, h3⟩
        · rintro ⟨h1, h2, h3⟩
          by_cases he : i = r
          · exact Or.inl he
          · exact Or.inr ⟨by omega, h2, h3⟩
      · rw [if_neg hm]
        constructor
        · intro hi; exact absurd hi (List.not_mem_nil i)
        · rintro ⟨h1, h2, h3⟩
          exact absurd (h r i (le_refl _) h1 h2 h3) hm
    · rw [if_neg hr]
      constructor
      · intro hi; exact absurd hi (List.not_mem_nil i)
      · rintro ⟨h1, h2, _⟩
        omega

/-- The occurrences of `P` are the offsets of the matching ranks. -/
theorem mem_occurrences_iff_rank (T sa P : List Nat) (hperm : sa.Perm (List.range T.length))
    (o : Nat) :
    o ∈ occurrences T P ↔ ∃ i, i < T.length ∧ matchAt T sa P i = true ∧ sa.getD i 0 = o := by
  have hlen : sa.length = T.length := by simpa using hperm.length_eq
  unfold occurrences matchAt
  simp only [List.mem_filter, List.mem_range, decide_eq_true_eq]
  constructor
  · rintro ⟨ho, hocc⟩
    have hmem : o ∈ sa := hperm.mem_iff.mpr (List.mem_range.mpr ho)
    obtain ⟨i, hi, hio⟩ := List.getElem_of_mem hmem
    have hget : sa.getD i 0 = o := by rw [List.getD_eq_getElem _ _ hi, hio]
    exact ⟨i, by omega, by rw [hget]; exact hocc, hget⟩
  · rintro ⟨i, hi, hocc, hget⟩
    have hi' : i < sa.length := by omega
    have hmem : sa.getD i 0 ∈ sa := by
      rw [List.getD_eq_getElem _ _ hi']; exact List.getElem_mem hi'
    rw [hget] at hmem hocc
    exact ⟨List.mem_range.mp (hperm.mem_iff.mp hmem), hocc⟩

theorem occurrences_length (T sa P : List Nat) (hperm : sa.Perm (List.range T.length)) :
    (occurrences T P).length = (List.range T.length).countP (matchAt T sa P) := by
  unfold occurrences
  rw [← List.countP_eq_length_filter,
    ← countP_ranks T sa hperm (fun o => decide (occursAt T P o))]
  rfl

theorem rank_injective (T sa : List Nat) (hperm : sa.Perm (List.range T.length))
    (i j : Nat) (hi : i < T.length) (hj : j < T.length)
    (h : sa.getD i 0 = sa.getD j 0) : i = j := by
  have hlen : sa.length = T.length := by simpa using hperm.length_eq
  have hnodup : sa.Nodup := hperm.symm.nodup (List.nodup_range _)
  have hi' : i < sa.length := by omega
  have hj' : j < sa.length := by omega
  rw [List.getD_eq_getElem _ _ hi', List.getD_eq_getElem _ _ hj'] at h
  exact (hnodup.getElem_inj_iff).mp h

theorem countP_range_pos (f : Nat → Bool) :
    ∀ (n c : Nat), c < n → f c = true → 1 ≤ (List.range n).countP f := by
  intro n
  induction n with
  | zero => intro c hc _; omega
  | succ n ih =>
    intro c hc hf
    rw [countP_range_succ]
    by_cases he : c = n
    · subst he; simp [hf]
    · have := ih c (by omega) hf
      omega

/-- C16 (exact effect of the right-expansion bound in `find`): for a text
without zero bytes with its sorted suffix array and a pattern `P`, `find`
returns, and the offsets it appended are the occurrences of `P` other than
`SA[N-1]` when `SA[N-1]` is an occurrence of `P` and `P` has at least two
occurrences, and exactly the occurrences of `P` in every other case. -/
theorem find_exact_effect (T sa P : List Nat) (hT : ZeroFree T) (hsa : IsSuffixArray T sa)
    (hP : ZeroFree P) (hN : 1 ≤ T.length) :
    ∃ l, find (mkTree T sa) (P ++ [0]) P.length = some l ∧
      ((occursAt T P (sa.getD (T.length - 1) 0) ∧ 2 ≤ (occurrences T P).length →
          ∀ o, o ∈ l ↔ (o ∈ occurrences T P ∧ o ≠ sa.getD (T.length - 1) 0)) ∧
       (¬ (occursAt T P (sa.getD (T.length - 1) 0) ∧ 2 ≤ (occurrences T P).length) →
          ∀ o, o ∈ l ↔ o ∈ occurrences T P)) := by
  have hv := validEntries_of_perm T sa hsa.1
  have hmono := monotone3_of_sorted T sa P hv hP hsa.2
  have hocc := mem_occurrences_iff_rank T sa P hsa.1
  have hcount := occurrences_length T sa P hsa.1
  have hlast : occursAt T P (sa.getD (T.length - 1) 0)
      ↔ matchAt T sa P (T.length - 1) = true := by
    unfold matchAt; rw [decide_eq_true_eq]
  have hsplit : (List.range T.length).countP (matchAt T sa P)
      = (List.range (T.length - 1)).countP (matchAt T sa P)
        + (if matchAt T sa P (T.length - 1) then 1 else 0) := by
    have hN1 : T.length = (T.length - 1) + 1 := by omega
    conv_lhs => rw [hN1]
    exact countP_range_succ _ _
  unfold find
  rw [mkTree_length, Int.toNat_ofNat]
  obtain ⟨l, hl, hval⟩ := findLoop_run T sa P hT hv hP (T.length + 1) 0
    ((T.length : Int) - 1) [] (le_refl _) (by omega) (by push_cast; omega)
  refine ⟨l, hl, ?_⟩
  rcases hval with ⟨hnil, hno⟩ | ⟨c, _, hc1, hmc, hlc, hend⟩
  · have hnone : ∀ i, i < T.length → matchAt T sa P i = false :=
      fun i hi => hno hmono i (by omega) (by omega)
    have hempty : ∀ o, ¬ o ∈ occurrences T P := by
      intro o ho
      obtain ⟨i, hi, hmi, _⟩ := (hocc o).mp ho
      rw [hnone i hi] at hmi
      cases hmi
    subst hnil
    constructor
    · rintro ⟨h1, _⟩
      rw [hlast, hnone _ (by omega)] at h1
      cases h1
    · intro _ o
      constructor
      · intro h; exact absurd h (List.not_mem_nil o)
      · intro h; exact absurd h (hempty o)
  · have hcN : c < T.length := by omega
    have hleft := mem_leftRanks (matchAt T sa P) c
      (fun i j h1 h2 h3 => match_convex T sa P hT hv hP hmono i j c h1 (by omega) hcN h3 hmc)
    have hright := mem_rightRanks (matchAt T sa P) (T.length - 1) T.length (c + 1) (by omega)
      (fun i j h1 h2 h3 h4 =>
        match_convex T sa P hT hv hP hmono c i j (by omega) h2 (by omega) hmc h4)
    have hchar : ∀ o, o ∈ l ↔ ∃ i, i < T.length ∧ matchAt T sa P i = true ∧
        (i < T.length - 1 ∨ i = c) ∧ sa.getD i 0 = o := by
      intro o
      rw [hlc]
      simp only [List.nil_append, List.mem_append, List.mem_cons, List.mem_map,
        List.not_mem_nil, or_false, List.mem_singleton, hleft, hright]
      constructor
      · rintro ((h | ⟨i, ⟨h1, h2⟩, h3⟩) | ⟨i, ⟨h1, h2, h3⟩, h4⟩)
        · exact ⟨c, hcN, hmc, Or.inr rfl, h.symm⟩
        · by_cases hi : i < T.length - 1
          · exact ⟨i, by omega, h2, Or.inl hi, h3⟩
          · have : i = c := by omega
            omega
        · exact ⟨i, by omega, h3, Or.inl h2, h4⟩
      · rintro ⟨i, h1, h2, h3, h4⟩
        by_cases hic : i = c
        · subst hic; exact Or.inl (Or.inl h4.symm)
        · have hi : i < T.length - 1 := by omega
          by_cases hlt : i < c
          · exact Or.inl (Or.inr ⟨i, ⟨hlt, h2⟩, h4⟩)
          · exact Or.inr ⟨i, ⟨by omega, hi, h2⟩, h4⟩
    by_cases hcl : c = T.length - 1
    · have hbelow : ∀ i, i < T.length - 1 → matchAt T sa P i = false :=
        fun i hi => hend (by omega) hmono i (by omega) (by omega)
      have hone : (occurrences T P).length < 2 := by
        rw [hcount, hsplit, countP_range_zero_of_false _ _ hbelow]
        by_cases hm : matchAt T sa P (T.length - 1) = true <;> simp [hm]
      constructor
      · rintro ⟨_, h2⟩; omega
      · intro _ o
        rw [hchar o, hocc o]
        constructor
        · rintro ⟨i, h1, h2, _, h4⟩; exact ⟨i, h1, h2, h4⟩
        · rintro ⟨i, h1, h2, h4⟩
          refine ⟨i, h1, h2, ?_, h4⟩
          by_cases hi : i < T.length - 1
          · rw [hbelow i hi] at h2; cases h2
          · right; omega
    · have hcl' : c < T.length - 1 := by omega
      have hchar' : ∀ o, o ∈ l ↔ ∃ i, i < T.length - 1 ∧ matchAt T sa P i = true ∧
          sa.getD i 0 = o := by
        intro o
        rw [hchar o]
        constructor
        · rintro ⟨i, _, h2, h3, h4⟩
          exact ⟨i, by omega, h2, h4⟩
        · rintro ⟨i, h1, h2, h4⟩
          exact ⟨i, by omega, h2, Or.inl h1, h4⟩
      constructor
      · rintro ⟨_, _⟩ o
        rw [hchar' o, hocc o]
        constructor
        · rintro ⟨i, h1, h2, h4⟩
          refine ⟨⟨i, by omega, h2, h4⟩, ?_⟩
          intro he
          have := rank_injective T sa hsa.1 i (T.length - 1) (by omega) (by omega)
            (by rw [h4, he])
          omega
        · rintro ⟨⟨i, h1, h2, h4⟩, hne⟩
          refine ⟨i, ?_, h2, h4⟩
          by_contra hi
          have : i = T.length - 1 := by omega
          rw [this] at h4
          exact hne h4.symm
      · intro hnot o
        have hml : matchAt T sa P (T.length - 1) = false := by
          cases hm : matchAt T sa P (T.length - 1) with
          | false => rfl
          | true =>
            exfalso
            apply hnot
            refine ⟨hlast.mpr hm, ?_⟩
            rw [hcount, hsplit, hm]
            have := countP_range_pos (matchAt T sa P) (T.length - 1) c hcl' hmc
            simp only [if_true]
            omega
        rw [hchar' o, hocc o]
        constructor
        · rintro ⟨i, h1, h2, h4⟩; exact ⟨i, by omega, h2, h4⟩
        · rintro ⟨i, h1, h2, h4⟩
          refine ⟨i, ?_, h2, h4⟩
          by_contra hi
          have : i = T.length - 1 := by omega
          rw [this, hml] at h2
          cases h2

theorem find_exact_effect_witness :
    ∃ l, find (mkTree (bytes "banana") [5, 3, 1, 0, 4, 2]) (bytes "na" ++ [0])
        (bytes "na").length = some l ∧
      ((occursAt (bytes "banana") (bytes "na")
            (([5, 3, 1, 0, 4, 2] : List Nat).getD ((bytes "banana").length - 1) 0) ∧
          2 ≤ (occurrences (bytes "banana") (bytes "na")).length →
          ∀ o, o ∈ l ↔ (o ∈ occurrences (bytes "banana") (bytes "na") ∧
            o ≠ ([5, 3, 1, 0, 4, 2] : List Nat).getD ((bytes "banana").length - 1) 0)) ∧
       (¬ (occursAt (bytes "banana") (bytes "na")
            (([5, 3, 1, 0, 4, 2] : List Nat).getD ((bytes "banana").length - 1) 0) ∧
          2 ≤ (occurrences (bytes "banana") (bytes "na")).length) →
          ∀ o, o ∈ l ↔ o ∈ occurrences (bytes "banana") (bytes "na"))) :=
  find_exact_effect (bytes "banana") [5, 3, 1, 0, 4, 2] (bytes "na") (by decide)
    ⟨by decide, by decide⟩ (by decide) (by decide)

end Nearmiss
